import Mathlib

set_option linter.unusedSectionVars false

/-!
# Shallow embedding of the sewenew/cache library

This file embeds the cache policies implemented by the C++ headers
`src/sw/cache/{lru.h, lru_cache.h, lru_cache_impl.h, slru.h, slru_cache.h,
lfu_cache.h, lirs_cache.h}` and proves properties of the embedded operations.

Modelling conventions:

* Each `std::list` plus `std::unordered_map<Key, iterator>` index pair is
  modelled by the list alone; the map is a pure lookup accelerator whose
  content is determined by the list (one entry per key) in every state the
  operations construct.  Lookup by iterator becomes lookup of the first
  list entry with the given key.
* Stable cross-structure handles (the LFU entry's back-pointer to its
  frequency node, the LIRS stack-S HIR entry's iterator into list Q) are
  modelled by the entry's key, which identifies the target uniquely in the
  states the operations construct.
* `std::size_t` becomes `Nat`; `--x` on a `size_t` becomes truncated `Nat`
  subtraction (all occurrences are guarded in the source so the value is
  positive).
* `double` ratio parameters become `ℚ`; `static_cast<std::size_t>` of a
  non-negative product becomes the integer floor.  The comparisons and the
  floors performed by the constructors are exact at this level.
* Code paths that the source guards with `assert(...)` and that cannot
  produce a value (e.g. `front()` on an empty list) are modelled as leaving
  the state unchanged / returning `none`; each such spot is marked with a
  comment.
-/

namespace SwCache

/-! ## Generic keyed-list helpers

`findByKey`, `eraseByKey`, `modifyByKey` and `touchByKey` model the
map-assisted operations all caches perform on their `std::list`s:
find the (unique) entry with a key, erase it, update it in place, and
splice it to the front. -/

section Helpers

variable {K A : Type} [DecidableEq K]

/-- Find the first element with the given key. -/
def findByKey (f : A → K) : List A → K → Option A
  | [], _ => none
  | a :: l, k => if f a = k then some a else findByKey f l k

/-- Erase the first element with the given key (no-op when absent). -/
def eraseByKey (f : A → K) : List A → K → List A
  | [], _ => []
  | a :: l, k => if f a = k then l else a :: eraseByKey f l k

/-- Apply `g` to the first element with the given key (no-op when absent). -/
def modifyByKey (f : A → K) (g : A → A) : List A → K → List A
  | [], _ => []
  | a :: l, k => if f a = k then g a :: l else a :: modifyByKey f g l k

/-- Splice the first element with the given key to the front
(`list.splice(list.begin(), list, iter)` in the source). -/
def touchByKey (f : A → K) (l : List A) (k : K) : List A :=
  match findByKey f l k with
  | some a => a :: eraseByKey f l k
  | none => l

end Helpers

/-! ## `LruCacheImpl` (lru_cache_impl.h) and `LruCache` (lru_cache.h)

One recency-ordered list, head = MRU, back = LRU. -/

/-- An entry of an LRU list (`detail::KeyValue` in lru_cache_impl.h). -/
structure KeyValue (K V : Type) where
  key : K
  value : V
deriving DecidableEq, Repr

structure LruCacheImpl (K V : Type) where
  kv_list : List (KeyValue K V)
  capacity : Nat
deriving DecidableEq, Repr

namespace LruCacheImpl

variable {K V : Type} [DecidableEq K]

/-- `LruCacheImpl::_touch`: splice the entry to the front. -/
def touch (c : LruCacheImpl K V) (k : K) : LruCacheImpl K V :=
  { c with kv_list := touchByKey (·.key) c.kv_list k }

/-- `LruCacheImpl::is_full`: `_key_map.size() > _capacity`. -/
def is_full (c : LruCacheImpl K V) : Bool :=
  c.kv_list.length > c.capacity

/-- `LruCacheImpl::get`: touch on hit and return the value. -/
def get (c : LruCacheImpl K V) (k : K) : Option V × LruCacheImpl K V :=
  match findByKey (·.key) c.kv_list k with
  | none => (none, c)
  | some kv => (some kv.value, touch c k)

/-- `LruCacheImpl::add`: push the entry at the front; if the size now
exceeds the capacity, drop the back (LRU) entry. -/
def add (c : LruCacheImpl K V) (k : K) (v : V) : LruCacheImpl K V :=
  let l := KeyValue.mk k v :: c.kv_list
  { c with kv_list := if l.length > c.capacity then l.dropLast else l }

/-- `LruCacheImpl::update`: overwrite the entry's value, then touch.
The source receives a valid map iterator; the model is a no-op when the
key is absent. -/
def update (c : LruCacheImpl K V) (k : K) (v : V) : LruCacheImpl K V :=
  match findByKey (·.key) c.kv_list k with
  | none => c
  | some _ => { c with kv_list := KeyValue.mk k v :: eraseByKey (·.key) c.kv_list k }

/-- `LruCacheImpl::del`: erase the entry if present. -/
def del (c : LruCacheImpl K V) (k : K) : LruCacheImpl K V :=
  { c with kv_list := eraseByKey (·.key) c.kv_list k }

/-- `LruCacheImpl::move_item`: splice the entry with key `k` from `src`
to the head of `dest`. -/
def move_item (src : LruCacheImpl K V) (k : K) (dest : LruCacheImpl K V) :
    LruCacheImpl K V × LruCacheImpl K V :=
  match findByKey (·.key) src.kv_list k with
  | none => (src, dest)
  | some kv =>
      ({ src with kv_list := eraseByKey (·.key) src.kv_list k },
       { dest with kv_list := kv :: dest.kv_list })

/-- `LruCacheImpl::move_lru_item`: splice the back (LRU) entry of `src`
to the head of `dest`. -/
def move_lru_item (src : LruCacheImpl K V) (dest : LruCacheImpl K V) :
    LruCacheImpl K V × LruCacheImpl K V :=
  match src.kv_list.getLast? with
  | none => (src, dest)  -- source: `std::prev(_kv_list.end())` on empty list is guarded by callers
  | some kv =>
      ({ src with kv_list := src.kv_list.dropLast },
       { dest with kv_list := kv :: dest.kv_list })

end LruCacheImpl

namespace LruCache

variable {K V : Type} [DecidableEq K]

/-- `LruCache::LruCache` (lru_cache.h): delegates to
`LruCacheImpl::set_capacity`, which rejects capacity 0. -/
def make (K V : Type) (capacity : Nat) : Except String (LruCacheImpl K V) :=
  if capacity = 0 then .error "capacity should be larger than 0"
  else .ok { kv_list := [], capacity := capacity }

/-- `LruCache::set`: update when present, add otherwise. -/
def set (c : LruCacheImpl K V) (k : K) (v : V) : LruCacheImpl K V :=
  if (findByKey (·.key) c.kv_list k).isSome then c.update k v else c.add k v

/-- `LruCache::get`. -/
def get (c : LruCacheImpl K V) (k : K) : Option V × LruCacheImpl K V :=
  LruCacheImpl.get c k

/-- `LruCache::del`. -/
def del (c : LruCacheImpl K V) (k : K) : LruCacheImpl K V :=
  LruCacheImpl.del c k

end LruCache

namespace LegacyLruCache

/-- `LruCache::LruCache` of the header-only variant lru.h: stores the
capacity without any validation (capacity 0 is accepted silently).
Its `set`/`get`/`del` act on the list exactly as the lru_cache_impl.h
variant modelled above. -/
def make (K V : Type) (capacity : Nat) : LruCacheImpl K V :=
  { kv_list := [], capacity := capacity }

end LegacyLruCache

/-! ## `SlruCache` (slru_cache.h)

Two `LruCacheImpl` segments: probation and protected. -/

structure SlruCache (K V : Type) where
  probation_seg : LruCacheImpl K V
  protected_seg : LruCacheImpl K V
deriving DecidableEq, Repr

namespace SlruCache

variable {K V : Type} [DecidableEq K]

/-- `SlruCache::_calc_size`: validate the configuration and split the
capacity into probation/protected sub-capacities. -/
def calc_size (capacity : Nat) (probation_ratio : ℚ) : Except String (Nat × Nat) :=
  if capacity = 0 then .error "capacity should be larger than 0"
  else if probation_ratio < 0 ∨ probation_ratio > 1 then
    .error "probation ration should be in (0, 1)"
  else
    let probation_size := ((capacity : ℚ) * probation_ratio).floor.toNat
    let protected_size := capacity - probation_size
    if probation_size = 0 ∨ protected_size = 0 then .error "invalid probation_ratio"
    else .ok (probation_size, protected_size)

/-- `SlruCache::SlruCache`. -/
def make (K V : Type) [DecidableEq K] (capacity : Nat) (probation_ratio : ℚ) :
    Except String (SlruCache K V) :=
  (calc_size capacity probation_ratio).map fun sz =>
    { probation_seg := { kv_list := [], capacity := sz.1 },
      protected_seg := { kv_list := [], capacity := sz.2 } }

/-- `SlruCache::_move_from_probation_to_protected`: splice the entry to
the head of the protected segment; if the protected segment is now over
capacity, splice its LRU entry back to the head of the probation
segment. -/
def move_from_probation_to_protected (c : SlruCache K V) (k : K) : SlruCache K V :=
  let pq := LruCacheImpl.move_item c.probation_seg k c.protected_seg
  if pq.2.is_full then
    let qp := LruCacheImpl.move_lru_item pq.2 pq.1
    { probation_seg := qp.2, protected_seg := qp.1 }
  else
    { probation_seg := pq.1, protected_seg := pq.2 }

/-- `SlruCache::set`. -/
def set (c : SlruCache K V) (k : K) (v : V) : SlruCache K V :=
  if (findByKey (·.key) c.protected_seg.kv_list k).isSome then
    { c with protected_seg := c.protected_seg.update k v }
  else if (findByKey (·.key) c.probation_seg.kv_list k).isSome then
    let c1 := move_from_probation_to_protected c k
    -- `_protected_seg.mru_item()->value = std::move(value)`; the promoted
    -- entry is at the head of the protected segment.
    { c1 with protected_seg := { c1.protected_seg with kv_list :=
        match c1.protected_seg.kv_list with
        | kv :: rest => KeyValue.mk kv.key v :: rest
        | [] => [] } }  -- source: `mru_item` asserts the segment is non-empty
  else
    { c with probation_seg := c.probation_seg.add k v }

/-- `SlruCache::get`. -/
def get (c : SlruCache K V) (k : K) : Option V × SlruCache K V :=
  match LruCacheImpl.get c.protected_seg k with
  | (some v, q1) => (some v, { c with protected_seg := q1 })
  | (none, _) =>
    if (findByKey (·.key) c.probation_seg.kv_list k).isSome then
      let c1 := move_from_probation_to_protected c k
      (c1.protected_seg.kv_list.head?.map (·.value), c1)
    else (none, c)

/-- `SlruCache::del`: try the probation segment first, then protected. -/
def del (c : SlruCache K V) (k : K) : SlruCache K V :=
  if (findByKey (·.key) c.probation_seg.kv_list k).isSome then
    { c with probation_seg := c.probation_seg.del k }
  else
    { c with protected_seg := c.protected_seg.del k }

end SlruCache

/-! ## `LfuCache` (lfu_cache.h)

A list of frequency nodes sorted by increasing frequency; each node owns
a bucket of entries, oldest at the front, newest at the back. -/

/-- `LfuCache::FrequencyNode`. -/
structure FrequencyNode (K V : Type) where
  frequency : Nat
  items : List (KeyValue K V)
deriving DecidableEq, Repr

/-- `LfuCache`: the frequency list plus the configured capacity.  The
`_key_map` index and each item's `frequency_node` back-pointer are
determined by the list structure and are elided. -/
structure LfuCache (K V : Type) where
  frequency_list : List (FrequencyNode K V)
  capacity : Nat
deriving DecidableEq, Repr

namespace LfuCache

variable {K V : Type} [DecidableEq K]

/-- `std::numeric_limits<std::size_t>::max()` on the 64-bit target. -/
def sizeTMax : Nat := 2 ^ 64 - 1

/-- `LfuCache::_next_node_frequency`: saturating increment. -/
def next_node_frequency (frequency : Nat) : Nat :=
  if frequency = sizeTMax then frequency else frequency + 1

/-- Find the entry with key `k` (the `_key_map` lookup). -/
def findItem (c : LfuCache K V) (k : K) : Option (KeyValue K V) :=
  c.frequency_list.findSome? fun nd => findByKey (·.key) nd.items k

/-- Number of live entries (`_key_map.size()`). -/
def size (c : LfuCache K V) : Nat :=
  (c.frequency_list.map fun nd => nd.items.length).sum

/-- `LfuCache::_is_full`: `_key_map.size() == _capacity`. -/
def is_full (c : LfuCache K V) : Bool :=
  size c = c.capacity

/-- `LfuCache::_touch` acting on the frequency list: locate the source
node holding key `k`, pick or create the destination node per the touch
protocol, splice the entry to the back of the destination bucket and
drop the source node if its bucket became empty.  When `newValue` is
`some v` the moved entry's value is overwritten with `v` afterwards
(this models `set` on an existing key, which updates through the same
iterator it just touched). -/
def touchList (k : K) (newValue : Option V) : List (FrequencyNode K V) → List (FrequencyNode K V)
  | [] => []
  | nd :: rest =>
    match findByKey (·.key) nd.items k with
    | none => nd :: touchList k newValue rest
    | some it =>
      let it1 : KeyValue K V := { it with value := newValue.getD it.value }
      let residue := eraseByKey (·.key) nd.items k
      let src1 : List (FrequencyNode K V) :=
        if residue.isEmpty then [] else [{ nd with items := residue }]
      let frequency := next_node_frequency nd.frequency
      match rest with
      | [] =>
        if frequency > nd.frequency then
          -- insert a new node of frequency `frequency` after `nd`
          src1 ++ [{ frequency := frequency, items := [it1] }]
        else
          -- frequency saturated: intra-bucket LRU on `nd` itself
          [{ nd with items := residue ++ [it1] }]
      | succ :: rest1 =>
        if succ.frequency = frequency then
          -- destination node already exists: splice, no new node
          src1 ++ { succ with items := succ.items ++ [it1] } :: rest1
        else
          -- insert a new node between `nd` and `succ`
          src1 ++ { frequency := frequency, items := [it1] } :: succ :: rest1

/-- `LfuCache::_evict`: drop the front (oldest) entry of the head
(lowest-frequency) node; drop the node if its bucket became empty. -/
def evict (c : LfuCache K V) : LfuCache K V :=
  match c.frequency_list with
  | [] => c  -- source: asserts the frequency list is non-empty
  | nd :: rest =>
    match nd.items with
    | [] => { c with frequency_list := rest }  -- source: asserts the bucket is non-empty
    | _ :: items1 =>
      if items1.isEmpty then { c with frequency_list := rest }
      else { c with frequency_list := { nd with items := items1 } :: rest }

/-- `LfuCache::set`. -/
def set (c : LfuCache K V) (k : K) (v : V) : LfuCache K V :=
  if (findItem c k).isSome then
    -- existing item: touch then update the value through the iterator
    { c with frequency_list := touchList k (some v) c.frequency_list }
  else
    -- new item: evict first when full, then append to the frequency-1
    -- node at the head (creating it when missing)
    let c1 := if c.is_full then evict c else c
    let fl :=
      match c1.frequency_list with
      | nd :: rest =>
        if nd.frequency = 1 then
          { nd with items := nd.items ++ [KeyValue.mk k v] } :: rest
        else
          { frequency := 1, items := [KeyValue.mk k v] } :: nd :: rest
      | [] => [{ frequency := 1, items := [KeyValue.mk k v] }]
    { c1 with frequency_list := fl }

/-- `LfuCache::get`: touch on hit and return the (unchanged) value. -/
def get (c : LfuCache K V) (k : K) : Option V × LfuCache K V :=
  match findItem c k with
  | none => (none, c)
  | some it => (some it.value, { c with frequency_list := touchList k none c.frequency_list })

/-- `LfuCache::del`: erase the entry from its bucket; drop the node if
the bucket became empty. -/
def delList (k : K) : List (FrequencyNode K V) → List (FrequencyNode K V)
  | [] => []
  | nd :: rest =>
    if (findByKey (·.key) nd.items k).isSome then
      let residue := eraseByKey (·.key) nd.items k
      if residue.isEmpty then rest else { nd with items := residue } :: rest
    else nd :: delList k rest

/-- `LfuCache::del`. -/
def del (c : LfuCache K V) (k : K) : LfuCache K V :=
  { c with frequency_list := delList k c.frequency_list }

/-- `LfuCache::LfuCache`: rejects capacity 0. -/
def make (K V : Type) (capacity : Nat) : Except String (LfuCache K V) :=
  if capacity = 0 then .error "capacity should be larger than 0"
  else .ok { frequency_list := [], capacity := capacity }

end LfuCache

/-! ## `LirsCache` (lirs_cache.h)

Stack S and list Q, both recency-ordered (head = front = MRU, back =
bottom/LRU).  An S entry carries its `LirsType` together with its
payload as one sum: `lir v` stores the value, `hir` refers (by key) to
the resident copy in Q, `hirNr` is a non-resident ghost.  Every Q entry
is a resident HIR block storing its value directly, so Q entries are
plain key/value pairs. -/

/-- The `LirsType` tag of a stack-S entry merged with the
`std::variant<std::monostate, Value, iterator>` payload it selects
(`LIR` → `Value`, `HIR` → iterator into Q, modelled by the key,
`HIR_NR` → `monostate`). -/
inductive SVal (V : Type) where
  | lir (v : V)
  | hir
  | hirNr
deriving DecidableEq, Repr

/-- A stack-S entry (`detail::LirsQueue::LirsItem`). -/
structure SItem (K V : Type) where
  key : K
  sval : SVal V
deriving DecidableEq, Repr

/-- `LirsCache`: stack S, list Q, the LIR counter and the two
sub-capacities (`_stack_s.capacity()` = `lirs_capacity`,
`_list_q.capacity()` = `hirs_capacity`). -/
structure LirsCache (K V : Type) where
  stack_s : List (SItem K V)
  list_q : List (KeyValue K V)
  lirs_cnt : Nat
  s_capacity : Nat
  q_capacity : Nat
deriving DecidableEq, Repr

namespace LirsCache

variable {K V : Type} [DecidableEq K]

/-- `_stack_s.find(key)`. -/
def findS (c : LirsCache K V) (k : K) : Option (SItem K V) :=
  findByKey (·.key) c.stack_s k

/-- `_list_q.find(key)`. -/
def findQ (c : LirsCache K V) (k : K) : Option (KeyValue K V) :=
  findByKey (·.key) c.list_q k

/-- `_list_q.is_full()`: `_list.size() >= _capacity`. -/
def qIsFull (c : LirsCache K V) : Bool :=
  c.list_q.length ≥ c.q_capacity

/-- `LirsCache::_should_prune`: S is non-empty and its back (bottom)
entry is not LIR. -/
def should_prune (c : LirsCache K V) : Bool :=
  match c.stack_s.getLast? with
  | none => false
  | some it =>
    match it.sval with
    | .lir _ => false
    | _ => true

/-- The loop of `LirsCache::_prune_stack_s`, acting on the reversed
stack (head = bottom of S): drop non-LIR entries, removing the Q copy
of each HIR entry met on the way. -/
def pruneRev : List (SItem K V) → List (KeyValue K V) → List (SItem K V) × List (KeyValue K V)
  | [], q => ([], q)
  | it :: rest, q =>
    match it.sval with
    | .lir _ => (it :: rest, q)
    | .hir => pruneRev rest (eraseByKey (·.key) q it.key)
    | .hirNr => pruneRev rest q

/-- `LirsCache::_prune_stack_s`. -/
def prune_stack_s (c : LirsCache K V) : LirsCache K V :=
  let rq := pruneRev c.stack_s.reverse c.list_q
  { c with stack_s := rq.1.reverse, list_q := rq.2 }

/-- `LirsCache::_remove_lru_hir_item`: take Q's back (LRU) entry;
if its key is still in stack S, downgrade that S entry to `HIR_NR`
and clear its payload; remove the entry from Q. -/
def remove_lru_hir_item (c : LirsCache K V) : LirsCache K V :=
  match c.list_q.getLast? with
  | none => c  -- source: guarded by `assert(_list_q.is_full())`
  | some lru =>
    { c with
      stack_s := modifyByKey (·.key) (fun it => { it with sval := .hirNr }) c.stack_s lru.key,
      list_q := c.list_q.dropLast }

/-- `LirsCache::_move_lru_lir_to_list_q`: prune, then splice S's back
entry (guaranteed LIR by the source's assert) to the head of Q as a
resident HIR block and decrement the LIR counter. -/
def move_lru_lir_to_list_q (c : LirsCache K V) : LirsCache K V :=
  let c1 := prune_stack_s c
  match c1.stack_s.getLast? with
  | none => c1  -- source: asserts S is non-empty here
  | some it =>
    match it.sval with
    | .lir v =>
      { c1 with
        stack_s := c1.stack_s.dropLast,
        list_q := KeyValue.mk it.key v :: c1.list_q,
        lirs_cnt := c1.lirs_cnt - 1 }
    | _ => c1  -- source: asserts the back entry is LIR

/-- `LirsCache::_move_hir_to_stack_s`: remove the old HIR entry from S,
splice the referenced Q-resident entry to the head of S as a LIR entry
and increment the LIR counter. -/
def move_hir_to_stack_s (c : LirsCache K V) (k : K) : LirsCache K V :=
  match findQ c k with
  | none => c  -- source: the HIR S entry always holds a valid iterator into Q
  | some qe =>
    { c with
      stack_s := SItem.mk k (.lir qe.value) :: eraseByKey (·.key) c.stack_s k,
      list_q := eraseByKey (·.key) c.list_q k,
      lirs_cnt := c.lirs_cnt + 1 }

/-- Value at the front of stack S, when the front entry is LIR
(`_to_value(_stack_s.front()->value)`; other shapes are guarded by
asserts in the source). -/
def frontSValue (c : LirsCache K V) : Option V :=
  match c.stack_s with
  | { sval := .lir v, .. } :: _ => some v
  | _ => none

/-- `LirsCache::_get_from_stack_s`. -/
def get_from_stack_s (c : LirsCache K V) (k : K) : Option V × LirsCache K V :=
  match findS c k with
  | none => (none, c)
  | some it =>
    match it.sval with
    | .lir _ =>
      -- Hit LIR block: touch, prune, return the front value.
      let c1 := prune_stack_s { c with stack_s := touchByKey (·.key) c.stack_s k }
      (frontSValue c1, c1)
    | .hir =>
      -- Hit HIR resident block present in S: promote to LIR,
      -- demote the LRU LIR when the counter overflows, prune.
      let c1 := move_hir_to_stack_s c k
      let c2 := if c1.lirs_cnt > c1.s_capacity then move_lru_lir_to_list_q c1 else c1
      let c3 := prune_stack_s c2
      (frontSValue c3, c3)
    | .hirNr => (none, c)

/-- `LirsCache::_get_from_list_q`: resident HIR block whose S entry has
been pruned: re-insert an HIR entry at the head of S and touch Q. -/
def get_from_list_q (c : LirsCache K V) (k : K) : Option V × LirsCache K V :=
  match findQ c k with
  | none => (none, c)
  | some _ =>
    let c1 := { c with
      stack_s := SItem.mk k .hir :: c.stack_s,
      list_q := touchByKey (·.key) c.list_q k }
    (c1.list_q.head?.map (·.value), c1)

/-- `LirsCache::get`. -/
def get (c : LirsCache K V) (k : K) : Option V × LirsCache K V :=
  match get_from_stack_s c k with
  | (some v, c1) => (some v, c1)
  | (none, c1) => get_from_list_q c1 k

/-- `LirsCache::_hir_nr_to_lir`: turn the HIR-NR entry into a LIR entry
holding the new value, touch it, increment the LIR counter. -/
def hir_nr_to_lir (c : LirsCache K V) (k : K) (v : V) : LirsCache K V :=
  { c with
    stack_s := touchByKey (·.key)
      (modifyByKey (·.key) (fun it => { it with sval := .lir v }) c.stack_s k) k,
    lirs_cnt := c.lirs_cnt + 1 }

/-- Overwrite the value at the front of stack S
(`_stack_s.front()->value = std::move(value)`; the front is the freshly
promoted LIR entry). -/
def setFrontSValue (c : LirsCache K V) (v : V) : LirsCache K V :=
  match c.stack_s with
  | it :: rest => { c with stack_s := { it with sval := .lir v } :: rest }
  | [] => c  -- source: S is non-empty here (an entry was just spliced to its front)

/-- `LirsCache::_update_item_in_stack_s`. -/
def update_item_in_stack_s (c : LirsCache K V) (k : K) (v : V) : LirsCache K V :=
  match findS c k with
  | none => c  -- source: called only when the key was found in S
  | some it =>
    match it.sval with
    | .lir _ =>
      -- Hit LIR block: overwrite the value, touch, prune.
      prune_stack_s { c with
        stack_s := touchByKey (·.key)
          (modifyByKey (·.key) (fun it => { it with sval := .lir v }) c.stack_s k) k }
    | .hir =>
      let c1 := move_hir_to_stack_s c k
      let c2 := setFrontSValue c1 v
      let c3 := if c2.lirs_cnt > c2.s_capacity then move_lru_lir_to_list_q c2 else c2
      prune_stack_s c3
    | .hirNr =>
      let c1 := hir_nr_to_lir c k v
      let c2 :=
        if c1.lirs_cnt > c1.s_capacity then
          let ca := if c1.qIsFull then remove_lru_hir_item c1 else c1
          move_lru_lir_to_list_q ca
        else c1
      prune_stack_s c2

/-- `LirsCache::_update_item_in_list_q`: overwrite the Q value, insert a
fresh HIR entry at the head of S, touch Q. -/
def update_item_in_list_q (c : LirsCache K V) (k : K) (v : V) : LirsCache K V :=
  { c with
    stack_s := SItem.mk k .hir :: c.stack_s,
    list_q := touchByKey (·.key)
      (modifyByKey (·.key) (fun kv => { kv with value := v }) c.list_q k) k }

/-- `LirsCache::_add`: admit a new key — as LIR while `_lirs_cnt` is
below the LIR capacity, otherwise as a resident HIR block appended to
both Q and S (evicting Q's LRU first when Q is full). -/
def add (c : LirsCache K V) (k : K) (v : V) : LirsCache K V :=
  if c.lirs_cnt < c.s_capacity then
    { c with stack_s := SItem.mk k (.lir v) :: c.stack_s, lirs_cnt := c.lirs_cnt + 1 }
  else
    let c1 := if c.qIsFull then remove_lru_hir_item c else c
    { c1 with
      list_q := KeyValue.mk k v :: c1.list_q,
      stack_s := SItem.mk k .hir :: c1.stack_s }

/-- `LirsCache::set`. -/
def set (c : LirsCache K V) (k : K) (v : V) : LirsCache K V :=
  if (findS c k).isSome then update_item_in_stack_s c k v
  else if (findQ c k).isSome then update_item_in_list_q c k v
  else add c k v

/-- `LirsCache::_del_from_stack_s` combined with `LirsCache::del`:
when the key is in S, a LIR entry is removed (decrementing the
counter), an HIR entry is removed together with its Q copy, and an
HIR-NR entry is left untouched; when the key is only in Q, the Q entry
is removed. -/
def del (c : LirsCache K V) (k : K) : LirsCache K V :=
  match findS c k with
  | some it =>
    match it.sval with
    | .lir _ =>
      { c with stack_s := eraseByKey (·.key) c.stack_s k, lirs_cnt := c.lirs_cnt - 1 }
    | .hir =>
      { c with
        stack_s := eraseByKey (·.key) c.stack_s k,
        list_q := eraseByKey (·.key) c.list_q k }
    | .hirNr => c  -- `default:` case of `_del_from_stack_s`: no removal
  | none => { c with list_q := eraseByKey (·.key) c.list_q k }

/-- `LirsCache::LirsCache`: validate the capacity and the ratio, derive
the two sub-capacities. -/
def make (K V : Type) [DecidableEq K] (capacity : Nat) (hirs_ratio : ℚ) :
    Except String (LirsCache K V) :=
  if capacity = 0 then .error "capacity should be larger than 0"
  else if hirs_ratio ≤ 0 ∨ hirs_ratio ≥ 1 then
    .error "hirs ratio should be larger than 0 and less than 1.0"
  else
    let hirs_capacity := ((capacity : ℚ) * hirs_ratio).floor.toNat
    let lirs_capacity := capacity - hirs_capacity
    if hirs_capacity = 0 ∨ lirs_capacity = 0 then .error "invalid hirs_ratio"
    else .ok { stack_s := [], list_q := [], lirs_cnt := 0,
               s_capacity := lirs_capacity, q_capacity := hirs_capacity }

end LirsCache

/-! ## Operation sequences -/

/-- One user-level cache operation. -/
inductive CacheOp (K V : Type) where
  | set (k : K) (v : V)
  | get (k : K)
  | del (k : K)
deriving DecidableEq, Repr

/-- The key an operation addresses. -/
def CacheOp.key {K V : Type} : CacheOp K V → K
  | .set k _ => k
  | .get k => k
  | .del k => k

section Runners

variable {K V : Type} [DecidableEq K]

/-- Apply one operation to an LRU cache (lru_cache.h), discarding the
`get` result. -/
def LruCache.step (c : LruCacheImpl K V) : CacheOp K V → LruCacheImpl K V
  | .set k v => LruCache.set c k v
  | .get k => (LruCache.get c k).2
  | .del k => LruCache.del c k

def LruCache.run (c : LruCacheImpl K V) (ops : List (CacheOp K V)) : LruCacheImpl K V :=
  ops.foldl LruCache.step c

/-- Apply one operation to an SLRU cache, discarding the `get` result. -/
def SlruCache.step (c : SlruCache K V) : CacheOp K V → SlruCache K V
  | .set k v => SlruCache.set c k v
  | .get k => (SlruCache.get c k).2
  | .del k => SlruCache.del c k

def SlruCache.run (c : SlruCache K V) (ops : List (CacheOp K V)) : SlruCache K V :=
  ops.foldl SlruCache.step c

/-- Apply one operation to an LFU cache, discarding the `get` result. -/
def LfuCache.step (c : LfuCache K V) : CacheOp K V → LfuCache K V
  | .set k v => LfuCache.set c k v
  | .get k => (LfuCache.get c k).2
  | .del k => LfuCache.del c k

def LfuCache.run (c : LfuCache K V) (ops : List (CacheOp K V)) : LfuCache K V :=
  ops.foldl LfuCache.step c

/-- Apply one operation to a LIRS cache, discarding the `get` result. -/
def LirsCache.step (c : LirsCache K V) : CacheOp K V → LirsCache K V
  | .set k v => LirsCache.set c k v
  | .get k => (LirsCache.get c k).2
  | .del k => LirsCache.del c k

def LirsCache.run (c : LirsCache K V) (ops : List (CacheOp K V)) : LirsCache K V :=
  ops.foldl LirsCache.step c

/-- States of a LIRS cache reachable from a successfully constructed
cache by any sequence of `set`/`get`/`del` operations.  The constructor
produces exactly the empty states whose two sub-capacities are both
positive (`lirs_make_reachable` below), so reachability is rooted
there. -/
inductive LirsCache.Reachable : LirsCache K V → Prop where
  | init (s_capacity q_capacity : Nat) :
      1 ≤ s_capacity → 1 ≤ q_capacity →
      LirsCache.Reachable
        { stack_s := [], list_q := [], lirs_cnt := 0,
          s_capacity := s_capacity, q_capacity := q_capacity }
  | step (c : LirsCache K V) (op : CacheOp K V) :
      LirsCache.Reachable c → LirsCache.Reachable (LirsCache.step c op)

end Runners

/-- Decidable equality of constructor results, for evaluating the
modelled constructors on concrete configurations. -/
instance {E A : Type} [DecidableEq E] [DecidableEq A] : DecidableEq (Except E A) :=
  fun a b =>
    match a, b with
    | .error e, .error f =>
      if h : e = f then .isTrue (by rw [h]) else .isFalse (by simp [h])
    | .ok x, .ok y =>
      if h : x = y then .isTrue (by rw [h]) else .isFalse (by simp [h])
    | .error _, .ok _ => .isFalse (by simp)
    | .ok _, .error _ => .isFalse (by simp)

/-! ## Derived observations used by the statements below -/

/-- The `lir`/`hir`/`hirNr` discriminators of an S entry payload. -/
def SVal.isLir {V : Type} : SVal V → Bool
  | .lir _ => true
  | _ => false

def SVal.isHir {V : Type} : SVal V → Bool
  | .hir => true
  | _ => false

def SVal.isHirNr {V : Type} : SVal V → Bool
  | .hirNr => true
  | _ => false

/-- `isError` on the modelled constructor results. -/
def exceptIsError {E A : Type} : Except E A → Bool
  | .error _ => true
  | .ok _ => false

namespace LirsCache

variable {K V : Type} [DecidableEq K]

/-- The bottom (back) of stack S is a LIR entry, or S is empty. -/
def s_bottom_is_lir (c : LirsCache K V) : Bool :=
  match c.stack_s.getLast? with
  | none => true
  | some it => it.sval.isLir

/-- Number of LIR entries in a stack. -/
def countLir (s : List (SItem K V)) : Nat :=
  s.countP fun it => it.sval.isLir

/-- Number of resident entries (LIR or HIR, i.e. not HIR-NR ghosts) in a
stack. -/
def countResident (s : List (SItem K V)) : Nat :=
  s.countP fun it => !it.sval.isHirNr

/-- The value the cache currently holds for a key: the payload of a LIR
entry, the referenced Q value for an HIR entry, the Q value for a key
resident only in Q, and `none` for ghosts and absent keys. -/
def residentValue (c : LirsCache K V) (k : K) : Option V :=
  match findS c k with
  | some it =>
    match it.sval with
    | .lir v => some v
    | .hir => (findQ c k).map (·.value)
    | .hirNr => none
  | none => (findQ c k).map (·.value)

/-- The (key, value) pairs stored as LIR payloads in a stack. -/
def sPairs (s : List (SItem K V)) : List (K × V) :=
  s.filterMap fun it =>
    match it.sval with
    | .lir v => some (it.key, v)
    | _ => none

/-- The (key, value) pairs of a Q list (resident HIR blocks). -/
def qPairs (q : List (KeyValue K V)) : List (K × V) :=
  q.map fun kv => (kv.key, kv.value)

/-- All resident (key, value) pairs of a LIRS cache. -/
def residents (c : LirsCache K V) : List (K × V) :=
  sPairs c.stack_s ++ qPairs c.list_q

/-- The state invariant of a LIRS cache, maintained by every operation
from every successfully constructed cache. -/
structure Inv (c : LirsCache K V) : Prop where
  s_nodup : (c.stack_s.map (·.key)).Nodup
  q_nodup : (c.list_q.map (·.key)).Nodup
  cnt_eq : c.lirs_cnt = countLir c.stack_s
  cnt_le : countLir c.stack_s ≤ c.s_capacity
  q_le : c.list_q.length ≤ c.q_capacity
  hir_in_q : ∀ it ∈ c.stack_s, it.sval = .hir → it.key ∈ c.list_q.map (·.key)
  q_in_s_hir : ∀ it ∈ c.stack_s, it.key ∈ c.list_q.map (·.key) → it.sval = .hir
  s_cap_pos : 1 ≤ c.s_capacity
  q_cap_pos : 1 ≤ c.q_capacity

/-- The invariant without the LIR-count bound: intermediate states
during a promotion hold one LIR entry too many until the demotion
rebalances the count. -/
structure PreInv (c : LirsCache K V) : Prop where
  s_nodup : (c.stack_s.map (·.key)).Nodup
  q_nodup : (c.list_q.map (·.key)).Nodup
  cnt_eq : c.lirs_cnt = countLir c.stack_s
  q_le : c.list_q.length ≤ c.q_capacity
  hir_in_q : ∀ it ∈ c.stack_s, it.sval = .hir → it.key ∈ c.list_q.map (·.key)
  q_in_s_hir : ∀ it ∈ c.stack_s, it.key ∈ c.list_q.map (·.key) → it.sval = .hir
  s_cap_pos : 1 ≤ c.s_capacity
  q_cap_pos : 1 ≤ c.q_capacity

end LirsCache

namespace LruCache

variable {K V : Type} [DecidableEq K]

/-- The value an LRU cache holds for a key. -/
def residentValue (c : LruCacheImpl K V) (k : K) : Option V :=
  (findByKey (·.key) c.kv_list k).map (·.value)

end LruCache

namespace SlruCache

variable {K V : Type} [DecidableEq K]

/-- The value an SLRU cache holds for a key (protected segment looked up
first, matching `set`/`get`). -/
def residentValue (c : SlruCache K V) (k : K) : Option V :=
  match findByKey (·.key) c.protected_seg.kv_list k with
  | some kv => some kv.value
  | none => (findByKey (·.key) c.probation_seg.kv_list k).map (·.value)

/-- Well-formedness: no key appears twice, and no key lives in both
segments. -/
structure WF (c : SlruCache K V) : Prop where
  probation_nodup : (c.probation_seg.kv_list.map (·.key)).Nodup
  protected_nodup : (c.protected_seg.kv_list.map (·.key)).Nodup
  disjoint : ∀ k ∈ c.probation_seg.kv_list.map (·.key),
      k ∉ c.protected_seg.kv_list.map (·.key)

end SlruCache

namespace LfuCache

variable {K V : Type} [DecidableEq K]

/-- All keys of an LFU cache, in frequency-list-then-bucket order. -/
def keys (c : LfuCache K V) : List K :=
  (c.frequency_list.map fun nd => nd.items.map (·.key)).flatten

/-- All entries of a frequency list, in frequency-then-bucket order. -/
def allItems (fl : List (FrequencyNode K V)) : List (KeyValue K V) :=
  (fl.map (·.items)).flatten

/-- The value an LFU cache holds for a key. -/
def residentValue (c : LfuCache K V) (k : K) : Option V :=
  (findItem c k).map (·.value)

/-- Well-formedness: no key appears twice across all buckets. -/
def WF (c : LfuCache K V) : Prop :=
  (keys c).Nodup

end LfuCache

/-! # Theorems -/

/-- `Rat.floor` is the floor of the `FloorRing` instance of `ℚ`. -/
theorem rat_floor_eq_int_floor (q : ℚ) : q.floor = ⌊q⌋ := by
  rw [Rat.floor_def, Rat.floor_def']

/-- Every state produced by `LirsCache.make` is an initial state of
`LirsCache.Reachable`: the constructor yields the empty cache and
its two sub-capacities are checked to be non-zero. -/
theorem lirs_make_ok_reachable {K V : Type} [DecidableEq K] (capacity : Nat) (hirs_ratio : ℚ)
    (c : LirsCache K V) (h : LirsCache.make K V capacity hirs_ratio = .ok c) :
    LirsCache.Reachable c := by
  unfold LirsCache.make at h
  split at h
  · exact absurd h (by simp)
  · split at h
    · exact absurd h (by simp)
    · dsimp only at h
      split at h
      · exact absurd h (by simp)
      · rename_i hzero
        rw [not_or] at hzero
        obtain ⟨h1, h2⟩ := hzero
        injection h with h
        rw [← h]
        exact .init _ _ (Nat.one_le_iff_ne_zero.mpr h2) (Nat.one_le_iff_ne_zero.mpr h1)

/-! ## C6 — replay of the LIRS seed test (lirs_cache_test.cpp)

`LirsCache(3, 0.34)` gives `cL = 2`, `cH = 1`; the test sequence yields
`get(D)=None, get(A)=None, get(D)=Some 2, get(E)=None, get(A)=Some 1`. -/

/-- C6: for a LirsCache constructed with capacity 3 and hirs_ratio 0.34
(cL=2, cH=1), the sequence `set(B,1); set(A,1); set(D,1); del(D);
get(D); del(A); get(A); set(A,1); set(E,1); set(D,2); get(D); get(E);
get(A)` yields `get(D)=None, get(A)=None`, then `get(D)=Some 2,
get(E)=None, get(A)=Some 1`. -/
theorem lirs_seed_scenario :
    LirsCache.make String Nat 3 (34/100) =
      .ok { stack_s := [], list_q := [], lirs_cnt := 0, s_capacity := 2, q_capacity := 1 } ∧
    (let c0 : LirsCache String Nat :=
       { stack_s := [], list_q := [], lirs_cnt := 0, s_capacity := 2, q_capacity := 1 };
     let c1 := LirsCache.run c0 [.set "B" 1, .set "A" 1, .set "D" 1, .del "D"];
     let r1 := LirsCache.get c1 "D";
     let c2 := LirsCache.del r1.2 "A";
     let r2 := LirsCache.get c2 "A";
     let c3 := LirsCache.run r2.2 [.set "A" 1, .set "E" 1, .set "D" 2];
     let r3 := LirsCache.get c3 "D";
     let r4 := LirsCache.get r3.2 "E";
     let r5 := LirsCache.get r4.2 "A";
     r1.1 = none ∧ r2.1 = none ∧ r3.1 = some 2 ∧ r4.1 = none ∧ r5.1 = some 1) := by
  constructor
  · simp only [LirsCache.make, Rat.floor_def']
    norm_num
  · decide

/-! ## C3 — the LFU seed scenario of the spec

Replaying `set(1,10); set(2,20); get(1); set(3,30); get(2); get(3);
get(3); get(1); set(4,40); get(3); get(1)` on a capacity-2 LFU cache:
the results claimed for the prefix up to `set(4,40)` hold, but at
`set(4,40)` keys 1 and 3 both sit in the frequency-3 bucket with 3 at
its front (3 entered that bucket before 1), so the eviction removes 3,
and the final two results are `get(3)=None, get(1)=Some 10` — the
opposite of the claimed `get(3)=Some 30, get(1)=None`. -/

/-- C3 counterexample: the claimed result list is false on the code:
the run (shown true step by step in `lfu_seed_scenario_amended`) ends
with `get(3)=None, get(1)=Some 10`, not `get(3)=Some 30, get(1)=None`. -/
theorem lfu_seed_scenario_cex :
    ¬ (let c0 : LfuCache Nat Nat := { frequency_list := [], capacity := 2 };
       let c1 := LfuCache.run c0 [.set 1 10, .set 2 20];
       let r1 := LfuCache.get c1 1;
       let c2 := LfuCache.run r1.2 [.set 3 30];
       let r2 := LfuCache.get c2 2;
       let r3 := LfuCache.get r2.2 3;
       let r4 := LfuCache.get r3.2 3;
       let r5 := LfuCache.get r4.2 1;
       let c3 := LfuCache.run r5.2 [.set 4 40];
       let r6 := LfuCache.get c3 3;
       let r7 := LfuCache.get r6.2 1;
       r1.1 = some 10 ∧ r2.1 = none ∧ r3.1 = some 30 ∧ r4.1 = some 30 ∧
         r5.1 = some 10 ∧ r6.1 = some 30 ∧ r7.1 = none) := by
  decide

/-- C3 amended: same construction and sequence; the prefix behaves as
claimed (`get(1)=Some 10, get(2)=None, get(3)=Some 30, get(3)=Some 30,
get(1)=Some 10`), but after `set(4,40)` the results are `get(3)=None`
and `get(1)=Some 10`: both keys had frequency 3 and the intra-bucket
LRU tie-break evicts 3, which entered the frequency-3 bucket first. -/
theorem lfu_seed_scenario_amended :
    LfuCache.make Nat Nat 2 = .ok { frequency_list := [], capacity := 2 } ∧
    (let c0 : LfuCache Nat Nat := { frequency_list := [], capacity := 2 };
     let c1 := LfuCache.run c0 [.set 1 10, .set 2 20];
     let r1 := LfuCache.get c1 1;
     let c2 := LfuCache.run r1.2 [.set 3 30];
     let r2 := LfuCache.get c2 2;
     let r3 := LfuCache.get r2.2 3;
     let r4 := LfuCache.get r3.2 3;
     let r5 := LfuCache.get r4.2 1;
     let c3 := LfuCache.run r5.2 [.set 4 40];
     let r6 := LfuCache.get c3 3;
     let r7 := LfuCache.get r6.2 1;
     r1.1 = some 10 ∧ r2.1 = none ∧ r3.1 = some 30 ∧ r4.1 = some 30 ∧
       r5.1 = some 10 ∧ r6.1 = none ∧ r7.1 = some 10) := by
  exact ⟨by decide, by decide⟩

/-! ## C1 — `del` on an HIR-NR entry

The `default:` case of `LirsCache::_del_from_stack_s` does not remove
the S entry: deleting a key whose stack-S entry has type HIR-NR leaves
the cache unchanged, so the key is still present in S and a later
`set(k,v)` promotes it through the HIR-NR path instead of admitting it
as a fresh key. -/

/-- C1 counterexample: with `cL = 2, cH = 1` (the sub-capacities of
`LirsCache(3, 0.34)`), after `set 1; set 2; set 3; set 4` key 3 is an
HIR-NR entry in stack S; `del 3` leaves the state unchanged — key 3 is
still present in S — and the following `set 3` promotes the surviving
entry to LIR (the HIR-NR path) rather than admitting 3 afresh as an
HIR block. -/
theorem lirs_del_hir_nr_cex :
    (let c0 : LirsCache Nat Nat :=
       { stack_s := [], list_q := [], lirs_cnt := 0, s_capacity := 2, q_capacity := 1 };
     let c1 := LirsCache.run c0 [.set 1 1, .set 2 2, .set 3 3, .set 4 4];
     let c2 := LirsCache.del c1 3;
     ((c1.findS 3).map (·.sval) = some .hirNr) ∧
     c2 = c1 ∧
     (c2.findS 3).isSome = true ∧
     ((LirsCache.set c2 3 5).findS 3).map (·.sval) = some (.lir 5)) := by
  decide

/-- C1 amended: `del(k)` when `k` is present in stack S with type
HIR-NR leaves the cache completely unchanged: the S entry is kept (for
its recency information), and consequently `k` is still present in
stack S afterwards. -/
theorem lirs_del_hir_nr_noop {K V : Type} [DecidableEq K] (c : LirsCache K V) (k : K)
    (it : SItem K V) (hfind : c.findS k = some it) (hnr : it.sval = .hirNr) :
    LirsCache.del c k = c ∧ (LirsCache.del c k).findS k = some it := by
  have h : LirsCache.del c k = c := by
    obtain ⟨key, sval⟩ := it
    cases hnr
    simp [LirsCache.del, hfind]
  exact ⟨h, by rw [h]; exact hfind⟩

theorem lirs_del_hir_nr_noop_witness :
    (LirsCache.del
        { stack_s := [SItem.mk 1 SVal.hirNr], list_q := [], lirs_cnt := 0,
          s_capacity := 1, q_capacity := 1 } (1 : Nat) =
      ({ stack_s := [SItem.mk 1 SVal.hirNr], list_q := [], lirs_cnt := 0,
         s_capacity := 1, q_capacity := 1 } : LirsCache Nat Nat)) ∧
    ((LirsCache.del
        ({ stack_s := [SItem.mk 1 SVal.hirNr], list_q := [], lirs_cnt := 0,
           s_capacity := 1, q_capacity := 1 } : LirsCache Nat Nat) 1).findS 1 =
      some (SItem.mk 1 SVal.hirNr)) :=
  lirs_del_hir_nr_noop _ 1 (SItem.mk 1 SVal.hirNr) (by decide) rfl

/-! ## C10 — the assertion inside the prune loop

`_prune_stack_s` asserts `item->type == LirsType::HIR_NR` after
handling the HIR case, i.e. it claims the pruned bottom entry is never
a resident HIR entry.  Since `del` never prunes, deleting the LIR
entries below a resident HIR entry leaves that HIR entry at the bottom
of S, and the next operation that prunes hits the assertion with an
HIR-typed entry.  (In a release build the loop still removes the entry
from both S and Q, which matches the prune described by the spec.) -/

/-- C10 failing input: with `cL = 2, cH = 1`, run
`set 1; set 2; set 3; del 1; del 2; set 4` and then `get 4`.
`get 4` hits a LIR entry, so `_get_from_stack_s` touches it and calls
`_prune_stack_s`; at that point the bottom of S is the resident HIR
entry for key 3, so `_should_prune` is true and the loop body's
assertion `item->type == HIR_NR` is violated (the type is HIR).  The
release-build behaviour removes key 3 from both S and Q. -/
theorem lirs_prune_assert_failing_input :
    (let c0 : LirsCache Nat Nat :=
       { stack_s := [], list_q := [], lirs_cnt := 0, s_capacity := 2, q_capacity := 1 };
     let c1 := LirsCache.run c0 [.set 1 1, .set 2 2, .set 3 3, .del 1, .del 2, .set 4 4];
     -- `get 4` finds a LIR entry, so it touches and then prunes:
     ((c1.findS 4).map (·.sval) = some (.lir 4)) ∧
     -- the stack handed to `_prune_stack_s` has the resident HIR entry
     -- for key 3 at its bottom, and pruning is triggered:
     (let touched : LirsCache Nat Nat := { c1 with stack_s := touchByKey (·.key) c1.stack_s 4 };
      touched.stack_s.getLast? = some (SItem.mk 3 SVal.hir) ∧
      LirsCache.should_prune touched = true) ∧
     -- the loop removes that HIR entry from both S and Q:
     (LirsCache.get c1 4).2.stack_s = [SItem.mk 4 (SVal.lir 4)] ∧
     (LirsCache.get c1 4).2.list_q = [] ∧
     (LirsCache.get c1 4).1 = some 4) := by
  decide

/-! ## C2 / C4 — counterexamples about stack S -/

/-- C2 counterexample: with `LirsCache(2, 1/2)` (`cL = 1, cH = 1`),
after the completed operations `set 1; set 2; del 1` the stack S is the
single resident HIR entry for key 2: S is non-empty and its bottom
(tail) entry is not LIR.  (`del` removes the S-tail LIR entry for key 1
and exposes the HIR entry above it; no prune runs.) -/
theorem lirs_stack_bottom_cex :
    LirsCache.make Nat Nat 2 (1/2) =
      .ok { stack_s := [], list_q := [], lirs_cnt := 0, s_capacity := 1, q_capacity := 1 } ∧
    (let c0 : LirsCache Nat Nat :=
       { stack_s := [], list_q := [], lirs_cnt := 0, s_capacity := 1, q_capacity := 1 };
     let c1 := LirsCache.run c0 [.set 1 1, .set 2 2, .del 1];
     c1.stack_s = [SItem.mk 2 SVal.hir] ∧
     LirsCache.s_bottom_is_lir c1 = false) := by
  constructor
  · simp only [LirsCache.make, Rat.floor_def']
    norm_num
  · decide

/-- C4 counterexample: with `LirsCache(3, 34/100)` (`cL = 2, cH = 1`),
after the four insertions `set 1; set 2; set 3; set 4` stack S holds
four entries (one HIR, one HIR-NR ghost, two LIR), exceeding
`cL + cH = 3`. -/
theorem lirs_stack_total_size_cex :
    LirsCache.make Nat Nat 3 (34/100) =
      .ok { stack_s := [], list_q := [], lirs_cnt := 0, s_capacity := 2, q_capacity := 1 } ∧
    (let c0 : LirsCache Nat Nat :=
       { stack_s := [], list_q := [], lirs_cnt := 0, s_capacity := 2, q_capacity := 1 };
     let c1 := LirsCache.run c0 [.set 1 1, .set 2 2, .set 3 3, .set 4 4];
     c1.stack_s.length = 4 ∧ c1.s_capacity + c1.q_capacity = 3 ∧
     c1.stack_s.length > c1.s_capacity + c1.q_capacity) := by
  constructor
  · simp only [LirsCache.make, Rat.floor_def']
    norm_num
  · decide

/-! ## C5 — constructor validation

lru_cache_impl.h (`set_capacity`), lfu_cache.h, slru_cache.h/slru.h
(`_calc_size`) and lirs_cache.h all validate their configuration in the
constructor.  The header-only variant lru.h, however, performs no
validation at all: its constructor just stores the capacity, so
`LruCache(0)` (lru.h) raises nothing — contradicting the claim that
every constructor raises exactly on the §6 conditions. -/

/-- C5 counterexample: the lru.h `LruCache` constructor accepts
capacity 0 without raising (its model is a total function producing a
zero-capacity cache, on which every insertion is immediately evicted),
while the lru_cache.h constructor does raise for the same input. -/
theorem legacy_lru_make_no_validation_cex :
    LegacyLruCache.make Nat Nat 0 = { kv_list := [], capacity := 0 } ∧
    LruCache.set (LegacyLruCache.make Nat Nat 0) 1 1 = { kv_list := [], capacity := 0 } ∧
    exceptIsError (LruCache.make Nat Nat 0) = true := by
  decide

/-- C5 amended: the constructors of lru_cache.h's `LruCache`,
`LfuCache`, `SlruCache` and `LirsCache` raise the configuration error
exactly when capacity = 0, the ratio is ≤ 0 or ≥ 1, or a derived
sub-capacity is 0; the lru.h `LruCache` constructor performs no
validation and never raises (it is modelled as a total function; the
runtime operations of all caches are likewise total functions and never
raise). -/
theorem cache_make_error_iff {K V : Type} [DecidableEq K] :
    (∀ capacity : Nat,
      exceptIsError (LruCache.make K V capacity) = true ↔ capacity = 0) ∧
    (∀ capacity : Nat,
      exceptIsError (LfuCache.make K V capacity) = true ↔ capacity = 0) ∧
    (∀ (capacity : Nat) (ratio : ℚ),
      exceptIsError (SlruCache.make K V capacity ratio) = true ↔
        (capacity = 0 ∨ ratio ≤ 0 ∨ 1 ≤ ratio ∨
          ((capacity : ℚ) * ratio).floor.toNat = 0 ∨
          capacity - ((capacity : ℚ) * ratio).floor.toNat = 0)) ∧
    (∀ (capacity : Nat) (ratio : ℚ),
      exceptIsError (LirsCache.make K V capacity ratio) = true ↔
        (capacity = 0 ∨ ratio ≤ 0 ∨ 1 ≤ ratio ∨
          ((capacity : ℚ) * ratio).floor.toNat = 0 ∨
          capacity - ((capacity : ℚ) * ratio).floor.toNat = 0)) ∧
    (∀ capacity : Nat,
      LegacyLruCache.make K V capacity = { kv_list := [], capacity := capacity }) := by
  refine ⟨fun capacity => ?_, fun capacity => ?_, fun capacity ratio => ?_,
    fun capacity ratio => ?_, fun _ => rfl⟩
  · unfold LruCache.make
    split_ifs with h1 <;> simp [exceptIsError, h1]
  · unfold LfuCache.make
    split_ifs with h1 <;> simp [exceptIsError, h1]
  · unfold SlruCache.make SlruCache.calc_size
    dsimp only
    split_ifs with h1 h2 h3
    · simp only [Except.map, exceptIsError]
      simp [h1]
    · simp only [Except.map, exceptIsError, true_iff]
      rcases h2 with h2 | h2
      · exact Or.inr (Or.inl h2.le)
      · exact Or.inr (Or.inr (Or.inl h2.le))
    · simp only [Except.map, exceptIsError, true_iff]
      rcases h3 with h3 | h3
      · exact Or.inr (Or.inr (Or.inr (Or.inl h3)))
      · exact Or.inr (Or.inr (Or.inr (Or.inr h3)))
    · simp only [Except.map, exceptIsError, Bool.false_eq_true, false_iff]
      push_neg at h2 h3
      rintro (h | h | h | h | h)
      · exact h1 h
      · -- ratio ≤ 0 with ¬(ratio < 0) forces ratio = 0, making the
        -- probation sub-capacity 0, which branch `h3` excludes
        have hz : ratio = 0 := le_antisymm h h2.1
        refine h3.1 ?_
        rw [hz, mul_zero, rat_floor_eq_int_floor]
        simp
      · -- 1 ≤ ratio with ¬(ratio > 1) forces ratio = 1, making the
        -- protected sub-capacity 0, which branch `h3` excludes
        have ho : ratio = 1 := le_antisymm h2.2 h
        refine h3.2 ?_
        rw [ho, mul_one, rat_floor_eq_int_floor]
        simp
      · exact h3.1 h
      · exact h3.2 h
  · unfold LirsCache.make
    dsimp only
    split_ifs with h1 h2 h3
    · simp only [exceptIsError, true_iff]
      exact Or.inl h1
    · simp only [exceptIsError, true_iff]
      rcases h2 with h2 | h2
      · exact Or.inr (Or.inl h2)
      · exact Or.inr (Or.inr (Or.inl h2))
    · simp only [exceptIsError, true_iff]
      rcases h3 with h3 | h3
      · exact Or.inr (Or.inr (Or.inr (Or.inl h3)))
      · exact Or.inr (Or.inr (Or.inr (Or.inr h3)))
    · simp only [exceptIsError, Bool.false_eq_true, false_iff]
      push_neg at h2 h3
      rintro (h | h | h | h | h)
      · exact h1 h
      · exact absurd h (not_le.mpr h2.1)
      · exact absurd h (not_le.mpr h2.2)
      · exact h3.1 h
      · exact h3.2 h

/-! ## Generic lemmas about the keyed-list helpers -/

section HelperLemmas

variable {K A : Type} [DecidableEq K] {f : A → K}

theorem findByKey_some {l : List A} {k : K} {a : A} (h : findByKey f l k = some a) :
    a ∈ l ∧ f a = k := by
  induction l with
  | nil => simp [findByKey] at h
  | cons b l ih =>
    rw [findByKey] at h
    split at h
    · injection h with h
      subst h
      exact ⟨List.mem_cons_self _ _, by assumption⟩
    · obtain ⟨h1, h2⟩ := ih h
      exact ⟨List.mem_cons_of_mem _ h1, h2⟩

theorem findByKey_eq_none {l : List A} {k : K} :
    findByKey f l k = none ↔ ∀ a ∈ l, f a ≠ k := by
  induction l with
  | nil => simp [findByKey]
  | cons b l ih =>
    rw [findByKey]
    by_cases hb : f b = k
    · simp [hb]
    · simp [hb, ih]

theorem findByKey_isSome_iff_mem {l : List A} {k : K} :
    (findByKey f l k).isSome = true ↔ k ∈ l.map f := by
  induction l with
  | nil => simp [findByKey]
  | cons b l ih =>
    rw [findByKey]
    by_cases hb : f b = k
    · simp [hb]
    · simp only [if_neg hb, List.map_cons, List.mem_cons, ih]
      exact ⟨Or.inr, fun h => h.elim (fun h => absurd h.symm hb) id⟩

/-- Decomposition of a list at the first entry carrying a given key,
describing `eraseByKey` and `modifyByKey` at once. -/
theorem keyDecomp (g : A → A) {l : List A} {k : K} {a : A}
    (h : findByKey f l k = some a) :
    ∃ l₁ l₂, l = l₁ ++ a :: l₂ ∧ (∀ x ∈ l₁, f x ≠ k) ∧
      eraseByKey f l k = l₁ ++ l₂ ∧ modifyByKey f g l k = l₁ ++ g a :: l₂ := by
  induction l with
  | nil => simp [findByKey] at h
  | cons b l ih =>
    rw [findByKey] at h
    by_cases hb : f b = k
    · rw [if_pos hb] at h
      injection h with h
      subst h
      exact ⟨[], l, rfl, by simp, by simp [eraseByKey, hb], by simp [modifyByKey, hb]⟩
    · rw [if_neg hb] at h
      obtain ⟨l₁, l₂, he, hn, her, hmo⟩ := ih h
      refine ⟨b :: l₁, l₂, by rw [List.cons_append, ← he], ?_, ?_, ?_⟩
      · intro x hx
        rcases List.mem_cons.mp hx with hx | hx
        · rw [hx]; exact hb
        · exact hn x hx
      · rw [eraseByKey, if_neg hb, her, List.cons_append]
      · rw [modifyByKey, if_neg hb, hmo, List.cons_append]

theorem eraseByKey_of_none {l : List A} {k : K} (h : findByKey f l k = none) :
    eraseByKey f l k = l := by
  induction l with
  | nil => rfl
  | cons b l ih =>
    rw [findByKey] at h
    split at h
    · cases h
    · rw [eraseByKey, if_neg (by assumption), ih h]

theorem modifyByKey_of_none (g : A → A) {l : List A} {k : K}
    (h : findByKey f l k = none) : modifyByKey f g l k = l := by
  induction l with
  | nil => rfl
  | cons b l ih =>
    rw [findByKey] at h
    split at h
    · cases h
    · rw [modifyByKey, if_neg (by assumption), ih h]

theorem eraseByKey_sublist (l : List A) (k : K) : (eraseByKey f l k).Sublist l := by
  induction l with
  | nil => exact .refl _
  | cons b l ih =>
    rw [eraseByKey]
    split
    · exact List.sublist_cons_self b l
    · exact ih.cons₂ b

theorem touchByKey_perm (l : List A) (k : K) : List.Perm (touchByKey f l k) l := by
  cases hf : findByKey f l k with
  | none => simp only [touchByKey, hf]; exact .refl _
  | some a =>
    simp only [touchByKey, hf]
    obtain ⟨l₁, l₂, he, _, her, _⟩ := keyDecomp id hf
    rw [her, he]
    exact List.perm_middle.symm

theorem findByKey_eraseByKey_ne {l : List A} {k k' : K} (hne : k' ≠ k) :
    findByKey f (eraseByKey f l k) k' = findByKey f l k' := by
  induction l with
  | nil => rfl
  | cons b l ih =>
    rw [eraseByKey]
    by_cases hb : f b = k
    · rw [if_pos hb, findByKey, if_neg (by rw [hb]; exact fun h => hne h.symm)]
    · rw [if_neg hb, findByKey, findByKey]
      split
      · rfl
      · exact ih

theorem findByKey_modifyByKey_ne (g : A → A) (hg : ∀ x, f (g x) = f x)
    {l : List A} {k k' : K} (hne : k' ≠ k) :
    findByKey f (modifyByKey f g l k) k' = findByKey f l k' := by
  induction l with
  | nil => rfl
  | cons b l ih =>
    rw [modifyByKey]
    by_cases hb : f b = k
    · rw [if_pos hb, findByKey, findByKey, hg b]
      rw [if_neg (by rw [hb]; exact fun h => hne h.symm),
        if_neg (by rw [hb]; exact fun h => hne h.symm)]
    · rw [if_neg hb, findByKey, findByKey]
      split
      · rfl
      · exact ih

theorem findByKey_modifyByKey_self (g : A → A) (hg : ∀ x, f (g x) = f x)
    {l : List A} {k : K} :
    findByKey f (modifyByKey f g l k) k = (findByKey f l k).map g := by
  induction l with
  | nil => rfl
  | cons b l ih =>
    rw [modifyByKey]
    by_cases hb : f b = k
    · rw [if_pos hb, findByKey, if_pos (by rw [hg b]; exact hb), findByKey, if_pos hb]
      simp
    · rw [if_neg hb, findByKey, if_neg hb, findByKey, if_neg hb, ih]

theorem findByKey_touchByKey_ne {l : List A} {k k' : K} (hne : k' ≠ k) :
    findByKey f (touchByKey f l k) k' = findByKey f l k' := by
  cases hf : findByKey f l k with
  | none => simp only [touchByKey, hf]
  | some a =>
    simp only [touchByKey, hf]
    rw [findByKey, if_neg (by rw [(findByKey_some hf).2]; exact fun h => hne h.symm)]
    exact findByKey_eraseByKey_ne hne

theorem findByKey_touchByKey_self {l : List A} {k : K} :
    findByKey f (touchByKey f l k) k = findByKey f l k := by
  cases hf : findByKey f l k with
  | none => simp only [touchByKey, hf]
  | some a =>
    simp only [touchByKey, hf]
    rw [findByKey, if_pos (findByKey_some hf).2]

theorem map_modifyByKey (g : A → A) (hg : ∀ x, f (g x) = f x) (l : List A) (k : K) :
    (modifyByKey f g l k).map f = l.map f := by
  induction l with
  | nil => rfl
  | cons b l ih =>
    rw [modifyByKey]
    split
    · rw [List.map_cons, List.map_cons, hg b]
    · rw [List.map_cons, List.map_cons, ih]

theorem not_mem_map_eraseByKey {l : List A} {k : K} (hnodup : (l.map f).Nodup) :
    k ∉ (eraseByKey f l k).map f := by
  cases hf : findByKey f l k with
  | none =>
    rw [eraseByKey_of_none hf]
    intro hk
    obtain ⟨a, ha, hfa⟩ := List.mem_map.mp hk
    exact (findByKey_eq_none.mp hf a ha) hfa
  | some a =>
    obtain ⟨l₁, l₂, he, hn, her, _⟩ := keyDecomp id hf
    rw [her, List.map_append]
    subst he
    rw [List.map_append, List.map_cons] at hnodup
    intro hk
    rcases List.mem_append.mp hk with hk | hk
    · obtain ⟨x, hx, hfx⟩ := List.mem_map.mp hk
      exact hn x hx hfx
    · have := (List.nodup_append.mp hnodup).2.1
      rw [List.nodup_cons] at this
      rw [← (findByKey_some hf).2] at hk
      exact this.1 hk

theorem length_eraseByKey_some {l : List A} {k : K} {a : A}
    (h : findByKey f l k = some a) : (eraseByKey f l k).length + 1 = l.length := by
  obtain ⟨l₁, l₂, he, _, her, _⟩ := keyDecomp id h
  rw [her, he]
  simp [Nat.add_assoc]

theorem mem_map_eraseByKey_of_ne {l : List A} {k k' : K} (hne : k' ≠ k) :
    k' ∈ (eraseByKey f l k).map f ↔ k' ∈ l.map f := by
  rw [← findByKey_isSome_iff_mem, ← findByKey_isSome_iff_mem, findByKey_eraseByKey_ne hne]

theorem findByKey_eq_of_mem_nodup {l : List A} {k : K} {a : A} (ha : a ∈ l)
    (hk : f a = k) (hnd : (l.map f).Nodup) : findByKey f l k = some a := by
  induction l with
  | nil => cases ha
  | cons b l ih =>
    rw [List.map_cons, List.nodup_cons] at hnd
    rcases List.mem_cons.mp ha with ha | ha
    · subst ha
      rw [findByKey, if_pos hk]
    · rw [findByKey]
      split
      · rename_i hb
        exact absurd (hk ▸ List.mem_map_of_mem f ha) (hb ▸ hnd.1)
      · exact ih ha hnd.2

theorem findByKey_sublist_nodup {l' l : List A} (hsub : l'.Sublist l)
    (hnd : (l.map f).Nodup) (k : K) :
    findByKey f l' k = findByKey f l k ∨ findByKey f l' k = none := by
  cases hf : findByKey f l' k with
  | none => exact Or.inr rfl
  | some a =>
    obtain ⟨ha, hk⟩ := findByKey_some hf
    exact Or.inl ((findByKey_eq_of_mem_nodup (hsub.subset ha) hk hnd).symm)

theorem findByKey_append_cons {l₁ l₂ : List A} {k : K} {x : A}
    (hn : ∀ y ∈ l₁, f y ≠ k) (hx : f x = k) :
    findByKey f (l₁ ++ x :: l₂) k = some x := by
  induction l₁ with
  | nil => rw [List.nil_append, findByKey, if_pos hx]
  | cons b l₁ ih =>
    rw [List.cons_append, findByKey, if_neg (hn b (List.mem_cons_self _ _))]
    exact ih fun y hy => hn y (List.mem_cons_of_mem _ hy)

theorem eraseByKey_append_cons {l₁ l₂ : List A} {k : K} {x : A}
    (hn : ∀ y ∈ l₁, f y ≠ k) (hx : f x = k) :
    eraseByKey f (l₁ ++ x :: l₂) k = l₁ ++ l₂ := by
  induction l₁ with
  | nil => rw [List.nil_append, eraseByKey, if_pos hx, List.nil_append]
  | cons b l₁ ih =>
    rw [List.cons_append, eraseByKey, if_neg (hn b (List.mem_cons_self _ _)),
      List.cons_append, ih fun y hy => hn y (List.mem_cons_of_mem _ hy)]

theorem findByKey_none_not_mem {l : List A} {k : K} (h : findByKey f l k = none) :
    k ∉ l.map f := by
  intro hmem
  rw [← findByKey_isSome_iff_mem, h] at hmem
  cases hmem

theorem nodup_map_middle {l₁ l₂ : List A} {x : A} (hnd : ((l₁ ++ x :: l₂).map f).Nodup) :
    f x ∉ (l₁ ++ l₂).map f ∧ ((l₁ ++ l₂).map f).Nodup := by
  rw [List.map_append, List.map_cons] at hnd
  have h := List.nodup_middle.mp hnd
  rw [List.nodup_cons] at h
  rw [List.map_append]
  exact h

theorem findByKey_of_isPrefix {l' l : List A} (hpre : l'.IsPrefix l) {k : K} {a : A}
    (h : findByKey f l' k = some a) : findByKey f l k = some a := by
  obtain ⟨t, rfl⟩ := hpre
  induction l' with
  | nil => cases h
  | cons b l' ih =>
    rw [findByKey] at h
    rw [List.cons_append, findByKey]
    split at h
    · rw [if_pos (by assumption)]
      exact h
    · rw [if_neg (by assumption)]
      exact ih h

end HelperLemmas

/-! ## LIRS: lemmas about pruning -/

namespace LirsCache

variable {K V : Type} [DecidableEq K]

theorem pruneRev_fst_suffix (l : List (SItem K V)) (q : List (KeyValue K V)) :
    (pruneRev l q).1.IsSuffix l := by
  induction l generalizing q with
  | nil => exact List.suffix_refl _
  | cons it rest ih =>
    cases hsv : it.sval with
    | lir v =>
      simp only [pruneRev, hsv]
      exact List.suffix_refl _
    | hir =>
      simp only [pruneRev, hsv]
      exact (ih _).trans (List.suffix_cons it rest)
    | hirNr =>
      simp only [pruneRev, hsv]
      exact (ih _).trans (List.suffix_cons it rest)

theorem pruneRev_snd_sublist (l : List (SItem K V)) (q : List (KeyValue K V)) :
    (pruneRev l q).2.Sublist q := by
  induction l generalizing q with
  | nil => exact .refl _
  | cons it rest ih =>
    cases hsv : it.sval with
    | lir v => simp only [pruneRev, hsv]; exact .refl _
    | hir =>
      simp only [pruneRev, hsv]
      exact (ih _).trans (eraseByKey_sublist q it.key)
    | hirNr => simp only [pruneRev, hsv]; exact ih _

theorem pruneRev_countLir (l : List (SItem K V)) (q : List (KeyValue K V)) :
    countLir (pruneRev l q).1 = countLir l := by
  induction l generalizing q with
  | nil => rfl
  | cons it rest ih =>
    cases hsv : it.sval with
    | lir v => simp only [pruneRev, hsv]
    | hir =>
      simp only [pruneRev, hsv]
      rw [ih]
      unfold countLir
      rw [List.countP_cons_of_neg]
      simp [hsv, SVal.isLir]
    | hirNr =>
      simp only [pruneRev, hsv]
      rw [ih]
      unfold countLir
      rw [List.countP_cons_of_neg]
      simp [hsv, SVal.isLir]

theorem pruneRev_bottom (l : List (SItem K V)) (q : List (KeyValue K V)) :
    (pruneRev l q).1 = [] ∨
      ∃ it rest, (pruneRev l q).1 = it :: rest ∧ it.sval.isLir = true := by
  induction l generalizing q with
  | nil => exact Or.inl rfl
  | cons it rest ih =>
    cases hsv : it.sval with
    | lir v =>
      refine Or.inr ⟨it, rest, ?_, by rw [hsv]; rfl⟩
      simp only [pruneRev, hsv]
    | hir => simp only [pruneRev, hsv]; exact ih _
    | hirNr => simp only [pruneRev, hsv]; exact ih _

theorem pruneRev_hir_in_q (l : List (SItem K V)) (q : List (KeyValue K V))
    (hnd : (l.map (·.key)).Nodup)
    (hq : ∀ it ∈ l, it.sval = .hir → it.key ∈ q.map (·.key)) :
    ∀ it ∈ (pruneRev l q).1, it.sval = .hir →
      it.key ∈ (pruneRev l q).2.map (·.key) := by
  induction l generalizing q with
  | nil => intro it hit; cases hit
  | cons it0 rest ih =>
    rw [List.map_cons, List.nodup_cons] at hnd
    cases hsv : it0.sval with
    | lir v =>
      simp only [pruneRev, hsv]
      exact hq
    | hir =>
      simp only [pruneRev, hsv]
      refine ih _ hnd.2 ?_
      intro x hx hxh
      have hxq := hq x (List.mem_cons_of_mem _ hx) hxh
      have hxne : x.key ≠ it0.key := by
        intro he
        exact hnd.1 (he ▸ List.mem_map_of_mem (·.key) hx)
      exact (mem_map_eraseByKey_of_ne hxne).mpr hxq
    | hirNr =>
      simp only [pruneRev, hsv]
      refine ih _ hnd.2 ?_
      intro x hx hxh
      exact hq x (List.mem_cons_of_mem _ hx) hxh

theorem prune_stack_s_stack (c : LirsCache K V) :
    (prune_stack_s c).stack_s = (pruneRev c.stack_s.reverse c.list_q).1.reverse := rfl

theorem prune_stack_s_q (c : LirsCache K V) :
    (prune_stack_s c).list_q = (pruneRev c.stack_s.reverse c.list_q).2 := rfl

theorem prune_stack_s_cnt (c : LirsCache K V) :
    (prune_stack_s c).lirs_cnt = c.lirs_cnt := rfl

theorem prune_stack_s_sCap (c : LirsCache K V) :
    (prune_stack_s c).s_capacity = c.s_capacity := rfl

theorem prune_stack_s_qCap (c : LirsCache K V) :
    (prune_stack_s c).q_capacity = c.q_capacity := rfl

theorem prune_stack_s_stack_isPrefix (c : LirsCache K V) :
    (prune_stack_s c).stack_s.IsPrefix c.stack_s := by
  rw [prune_stack_s_stack]
  have h := pruneRev_fst_suffix c.stack_s.reverse c.list_q
  have h2 := List.reverse_prefix.mpr h
  rwa [List.reverse_reverse] at h2

theorem prune_stack_s_q_sublist (c : LirsCache K V) :
    (prune_stack_s c).list_q.Sublist c.list_q := by
  rw [prune_stack_s_q]
  exact pruneRev_snd_sublist _ _

theorem countLir_reverse (l : List (SItem K V)) : countLir l.reverse = countLir l :=
  (List.reverse_perm l).countP_eq _

theorem prune_stack_s_countLir (c : LirsCache K V) :
    countLir (prune_stack_s c).stack_s = countLir c.stack_s := by
  rw [prune_stack_s_stack, countLir_reverse, pruneRev_countLir, countLir_reverse]

theorem s_bottom_is_lir_prune (c : LirsCache K V) :
    s_bottom_is_lir (prune_stack_s c) = true := by
  unfold s_bottom_is_lir
  rw [prune_stack_s_stack]
  rcases pruneRev_bottom c.stack_s.reverse c.list_q with h | ⟨it, rest, h, hl⟩
  · rw [h]
    rfl
  · rw [h, List.reverse_cons, List.getLast?_concat]
    exact hl

theorem prune_stack_s_concat (c : LirsCache K V) (hpos : 1 ≤ countLir c.stack_s) :
    ∃ (s1 : List (SItem K V)) (k0 : K) (v0 : V),
      (prune_stack_s c).stack_s = s1 ++ [SItem.mk k0 (SVal.lir v0)] := by
  have hne : (prune_stack_s c).stack_s ≠ [] := by
    intro h
    have := prune_stack_s_countLir c
    rw [h] at this
    rw [← this] at hpos
    cases hpos
  rcases List.eq_nil_or_concat (prune_stack_s c).stack_s with h | ⟨s1, it, h⟩
  · exact absurd h hne
  · rw [List.concat_eq_append] at h
    have hb := s_bottom_is_lir_prune c
    unfold s_bottom_is_lir at hb
    rw [h, List.getLast?_concat] at hb
    have hb2 : it.sval.isLir = true := hb
    cases hsv : it.sval with
    | lir v => exact ⟨s1, it.key, v, by rw [h]; cases it; cases hsv; rfl⟩
    | hir => rw [hsv] at hb2; simp [SVal.isLir] at hb2
    | hirNr => rw [hsv] at hb2; simp [SVal.isLir] at hb2

theorem prune_hir_in_q (c : LirsCache K V) (hnd : (c.stack_s.map (·.key)).Nodup)
    (h : ∀ it ∈ c.stack_s, it.sval = .hir → it.key ∈ c.list_q.map (·.key)) :
    ∀ it ∈ (prune_stack_s c).stack_s, it.sval = .hir →
      it.key ∈ (prune_stack_s c).list_q.map (·.key) := by
  intro it hit hh
  rw [prune_stack_s_stack] at hit
  rw [prune_stack_s_q]
  refine pruneRev_hir_in_q c.stack_s.reverse c.list_q ?_ ?_ it (List.mem_reverse.mp hit) hh
  · rw [List.map_reverse, List.nodup_reverse]
    exact hnd
  · intro x hx hxh
    exact h x (List.mem_reverse.mp hx) hxh

theorem prune_q_in_s_hir (c : LirsCache K V)
    (h : ∀ it ∈ c.stack_s, it.key ∈ c.list_q.map (·.key) → it.sval = .hir) :
    ∀ it ∈ (prune_stack_s c).stack_s,
      it.key ∈ (prune_stack_s c).list_q.map (·.key) → it.sval = .hir := by
  intro it hit hk
  exact h it ((prune_stack_s_stack_isPrefix c).sublist.subset hit)
    (((prune_stack_s_q_sublist c).map (·.key)).subset hk)

theorem prune_stack_s_head (c : LirsCache K V) (hpos : 1 ≤ countLir c.stack_s) :
    (prune_stack_s c).stack_s ≠ [] ∧
      (prune_stack_s c).stack_s.head? = c.stack_s.head? := by
  have hne : (prune_stack_s c).stack_s ≠ [] := by
    intro h
    have := prune_stack_s_countLir c
    rw [h] at this
    rw [← this] at hpos
    cases hpos
  refine ⟨hne, ?_⟩
  obtain ⟨t, ht⟩ := prune_stack_s_stack_isPrefix c
  cases hs : (prune_stack_s c).stack_s with
  | nil => exact absurd hs hne
  | cons a l' =>
    rw [← ht, hs, List.cons_append]
    rfl

/-! ### Descriptions of the LIRS mutators -/

theorem remove_lru_hir_item_desc (c : LirsCache K V) {q1 : List (KeyValue K V)}
    {lru : KeyValue K V} (h : c.list_q = q1 ++ [lru]) :
    remove_lru_hir_item c =
      { c with
        stack_s := modifyByKey (·.key) (fun it => { it with sval := .hirNr }) c.stack_s lru.key,
        list_q := q1 } := by
  unfold remove_lru_hir_item
  rw [h]
  simp only [List.getLast?_concat, List.dropLast_concat]

theorem move_lru_lir_to_list_q_desc (c : LirsCache K V) (hpos : 1 ≤ countLir c.stack_s) :
    ∃ (s1 : List (SItem K V)) (k0 : K) (v0 : V),
      (prune_stack_s c).stack_s = s1 ++ [SItem.mk k0 (SVal.lir v0)] ∧
      move_lru_lir_to_list_q c =
        { stack_s := s1,
          list_q := KeyValue.mk k0 v0 :: (prune_stack_s c).list_q,
          lirs_cnt := c.lirs_cnt - 1,
          s_capacity := c.s_capacity, q_capacity := c.q_capacity } := by
  obtain ⟨s1, k0, v0, h⟩ := prune_stack_s_concat c hpos
  refine ⟨s1, k0, v0, h, ?_⟩
  unfold move_lru_lir_to_list_q
  dsimp only
  rw [h]
  simp only [List.getLast?_concat, List.dropLast_concat]
  rfl

theorem move_hir_to_stack_s_desc (c : LirsCache K V) (k : K) {qe : KeyValue K V}
    (h : findQ c k = some qe) :
    move_hir_to_stack_s c k =
      { stack_s := SItem.mk k (.lir qe.value) :: eraseByKey (·.key) c.stack_s k,
        list_q := eraseByKey (·.key) c.list_q k,
        lirs_cnt := c.lirs_cnt + 1,
        s_capacity := c.s_capacity, q_capacity := c.q_capacity } := by
  unfold move_hir_to_stack_s
  simp only [h]

/-- The behaviour of `_remove_lru_hir_item` on well-formed state pieces:
stack keys and LIR count are unchanged (the downgraded S entry, when it
exists, was HIR by the S↔Q invariant), Q loses its back entry, and the
S↔Q cross-reference invariants are maintained. -/
theorem remove_lru_hir_item_spec (c : LirsCache K V)
    (hndS : (c.stack_s.map (·.key)).Nodup)
    (hndQ : (c.list_q.map (·.key)).Nodup)
    (hq1 : ∀ it ∈ c.stack_s, it.sval = .hir → it.key ∈ c.list_q.map (·.key))
    (hq2 : ∀ it ∈ c.stack_s, it.key ∈ c.list_q.map (·.key) → it.sval = .hir) :
    ((remove_lru_hir_item c).stack_s.map (·.key) = c.stack_s.map (·.key) ∧
     countLir (remove_lru_hir_item c).stack_s = countLir c.stack_s) ∧
    ((remove_lru_hir_item c).list_q.Sublist c.list_q ∧
     (c.list_q ≠ [] → (remove_lru_hir_item c).list_q.length + 1 = c.list_q.length)) ∧
    ((remove_lru_hir_item c).lirs_cnt = c.lirs_cnt ∧
     (remove_lru_hir_item c).s_capacity = c.s_capacity ∧
     (remove_lru_hir_item c).q_capacity = c.q_capacity) ∧
    ((∀ it ∈ (remove_lru_hir_item c).stack_s, it.sval = .hir →
        it.key ∈ (remove_lru_hir_item c).list_q.map (·.key)) ∧
     (∀ it ∈ (remove_lru_hir_item c).stack_s,
        it.key ∈ (remove_lru_hir_item c).list_q.map (·.key) → it.sval = .hir)) := by
  rcases List.eq_nil_or_concat c.list_q with hq | ⟨q1, lru, hq⟩
  · have hr : remove_lru_hir_item c = c := by
      unfold remove_lru_hir_item
      rw [hq]
      simp
    rw [hr]
    exact ⟨⟨rfl, rfl⟩, ⟨.refl _, fun h => absurd hq h⟩, ⟨rfl, rfl, rfl⟩, hq1, hq2⟩
  · rw [List.concat_eq_append] at hq
    rw [remove_lru_hir_item_desc c hq]
    have hlruk : lru.key ∈ c.list_q.map (·.key) := by
      rw [hq, List.map_append]
      exact List.mem_append_right _ (List.mem_singleton.mpr rfl)
    have hkeys : (modifyByKey (·.key) (fun it => { it with sval := .hirNr })
        c.stack_s lru.key).map (·.key) = c.stack_s.map (·.key) :=
      map_modifyByKey (f := fun x : SItem K V => x.key)
        (fun it : SItem K V => { it with sval := SVal.hirNr }) (fun _ => rfl) c.stack_s lru.key
    have hlruq1 : lru.key ∉ q1.map (·.key) := by
      rw [hq, List.map_append] at hndQ
      intro hmem
      exact (List.nodup_append.mp hndQ).2.2 hmem (List.mem_singleton.mpr rfl)
    refine ⟨⟨hkeys, ?_⟩, ⟨?_, fun _ => by rw [hq]; simp⟩, ⟨rfl, rfl, rfl⟩, ?_, ?_⟩
    · -- LIR count unchanged: the modified entry, if any, was HIR
      cases hf : findByKey (·.key) c.stack_s lru.key with
      | none => rw [modifyByKey_of_none _ hf]
      | some a =>
        obtain ⟨l₁, l₂, he, hn, her, hmo⟩ :=
          keyDecomp (f := fun x : SItem K V => x.key)
            (fun it : SItem K V => { it with sval := SVal.hirNr }) hf
        have ha : a.sval = .hir :=
          hq2 a (by rw [he]; exact List.mem_append_right _ (List.mem_cons_self _ _))
            (by rw [(findByKey_some hf).2]; exact hlruk)
        rw [hmo, he]
        unfold countLir
        rw [List.countP_append, List.countP_append, List.countP_cons, List.countP_cons]
        simp [SVal.isLir, ha]
    · -- Q loses its back entry
      rw [hq]
      exact List.sublist_append_left _ _
    · -- hir entries of the new stack still point into the new Q
      intro it hit hh
      cases hf : findByKey (·.key) c.stack_s lru.key with
      | none =>
        rw [modifyByKey_of_none _ hf] at hit
        have hev := hq1 it hit hh
        rw [hq, List.map_append] at hev
        rcases List.mem_append.mp hev with h1 | h1
        · exact h1
        · have hkey : it.key = lru.key := by simpa using h1
          exact absurd hkey (findByKey_eq_none.mp hf it hit)
      | some a =>
        obtain ⟨l₁, l₂, he, hn, her, hmo⟩ :=
          keyDecomp (f := fun x : SItem K V => x.key)
            (fun it : SItem K V => { it with sval := SVal.hirNr }) hf
        rw [hmo] at hit
        have hitmem : it ∈ l₁ ∨ it ∈ l₂ := by
          rcases List.mem_append.mp hit with h1 | h1
          · exact Or.inl h1
          · rcases List.mem_cons.mp h1 with h1 | h1
            · rw [h1] at hh
              simp at hh
            · exact Or.inr h1
        have hmem : it ∈ c.stack_s := by
          rw [he]
          rcases hitmem with h1 | h1
          · exact List.mem_append_left _ h1
          · exact List.mem_append_right _ (List.mem_cons_of_mem _ h1)
        have hitkey : it.key ≠ lru.key := by
          intro hke
          rcases hitmem with h1 | h1
          · exact hn it h1 hke
          · rw [he, List.map_append, List.map_cons] at hndS
            have h2 := (List.nodup_append.mp hndS).2.1
            rw [List.nodup_cons] at h2
            refine h2.1 ?_
            rw [(findByKey_some hf).2, ← hke]
            exact List.mem_map_of_mem (·.key) h1
        have hev := hq1 it hmem hh
        rw [hq, List.map_append] at hev
        rcases List.mem_append.mp hev with h1 | h1
        · exact h1
        · exact absurd (by simpa using h1 : it.key = lru.key) hitkey
    · -- keys of the new Q still mark HIR entries in the new stack
      intro it hit hk
      have hkq : it.key ∈ c.list_q.map (·.key) := by
        rw [hq, List.map_append]
        exact List.mem_append_left _ hk
      cases hf : findByKey (·.key) c.stack_s lru.key with
      | none =>
        rw [modifyByKey_of_none _ hf] at hit
        exact hq2 it hit hkq
      | some a =>
        obtain ⟨l₁, l₂, he, hn, her, hmo⟩ :=
          keyDecomp (f := fun x : SItem K V => x.key)
            (fun it : SItem K V => { it with sval := SVal.hirNr }) hf
        rw [hmo] at hit
        rcases List.mem_append.mp hit with h1 | h1
        · exact hq2 it (by rw [he]; exact List.mem_append_left _ h1) hkq
        · rcases List.mem_cons.mp h1 with h1 | h1
          · exfalso
            refine hlruq1 ?_
            have hik : it.key = a.key := by rw [h1]
            rw [← (findByKey_some hf).2, ← hik]
            exact hk
          · exact hq2 it
              (by rw [he]; exact List.mem_append_right _ (List.mem_cons_of_mem _ h1)) hkq

/-- Pruning preserves the full LIRS invariant. -/
theorem prune_Inv (c : LirsCache K V) (h : Inv c) : Inv (prune_stack_s c) := by
  refine ⟨?_, ?_, ?_, ?_, ?_, ?_, ?_, ?_, ?_⟩
  · exact (((prune_stack_s_stack_isPrefix c).sublist.map (·.key)).nodup h.s_nodup)
  · exact ((prune_stack_s_q_sublist c).map (·.key)).nodup h.q_nodup
  · rw [prune_stack_s_cnt, prune_stack_s_countLir]
    exact h.cnt_eq
  · rw [prune_stack_s_countLir, prune_stack_s_sCap]
    exact h.cnt_le
  · rw [prune_stack_s_qCap]
    exact le_trans (prune_stack_s_q_sublist c).length_le h.q_le
  · exact prune_hir_in_q c h.s_nodup h.hir_in_q
  · exact prune_q_in_s_hir c h.q_in_s_hir
  · rw [prune_stack_s_sCap]
    exact h.s_cap_pos
  · rw [prune_stack_s_qCap]
    exact h.q_cap_pos

/-- The behaviour of `_move_lru_lir_to_list_q` (demotion of the LRU LIR
entry) when at least one LIR entry is present: the stack loses one LIR
entry, Q gains it at the front, and well-formedness is maintained. -/
theorem move_lru_lir_to_list_q_spec (c : LirsCache K V)
    (hndS : (c.stack_s.map (·.key)).Nodup)
    (hndQ : (c.list_q.map (·.key)).Nodup)
    (hq1 : ∀ it ∈ c.stack_s, it.sval = .hir → it.key ∈ c.list_q.map (·.key))
    (hq2 : ∀ it ∈ c.stack_s, it.key ∈ c.list_q.map (·.key) → it.sval = .hir)
    (hpos : 1 ≤ countLir c.stack_s) :
    (((move_lru_lir_to_list_q c).stack_s.map (·.key)).Nodup ∧
     ((move_lru_lir_to_list_q c).list_q.map (·.key)).Nodup) ∧
    (countLir (move_lru_lir_to_list_q c).stack_s + 1 = countLir c.stack_s ∧
     (move_lru_lir_to_list_q c).lirs_cnt = c.lirs_cnt - 1) ∧
    ((move_lru_lir_to_list_q c).list_q.length ≤ c.list_q.length + 1) ∧
    ((∀ it ∈ (move_lru_lir_to_list_q c).stack_s, it.sval = .hir →
        it.key ∈ (move_lru_lir_to_list_q c).list_q.map (·.key)) ∧
     (∀ it ∈ (move_lru_lir_to_list_q c).stack_s,
        it.key ∈ (move_lru_lir_to_list_q c).list_q.map (·.key) → it.sval = .hir)) ∧
    ((move_lru_lir_to_list_q c).s_capacity = c.s_capacity ∧
     (move_lru_lir_to_list_q c).q_capacity = c.q_capacity) := by
  obtain ⟨s1, k0, v0, hps, hr⟩ := move_lru_lir_to_list_q_desc c hpos
  have hpmem : SItem.mk k0 (SVal.lir v0) ∈ (prune_stack_s c).stack_s := by
    rw [hps]
    exact List.mem_append_right _ (List.mem_cons_self _ _)
  have hndP : ((prune_stack_s c).stack_s.map (·.key)).Nodup :=
    ((prune_stack_s_stack_isPrefix c).sublist.map (·.key)).nodup hndS
  have hndPQ : ((prune_stack_s c).list_q.map (·.key)).Nodup :=
    ((prune_stack_s_q_sublist c).map (·.key)).nodup hndQ
  have hq1P := prune_hir_in_q c hndS hq1
  have hq2P := prune_q_in_s_hir c hq2
  have hk0nq : k0 ∉ (prune_stack_s c).list_q.map (·.key) := by
    intro hmem
    have := hq2P (SItem.mk k0 (SVal.lir v0)) hpmem hmem
    cases this
  have hk0ns : k0 ∉ s1.map (·.key) := by
    rw [hps, List.map_append] at hndP
    have := (List.nodup_append.mp hndP).2.2
    intro hmem
    exact this hmem (by simp)
  have hs1sub : s1.Sublist (prune_stack_s c).stack_s := by
    rw [hps]
    exact List.sublist_append_left _ _
  rw [hr]
  refine ⟨⟨?_, ?_⟩, ⟨?_, rfl⟩, ?_, ⟨?_, ?_⟩, rfl, rfl⟩
  · exact ((hs1sub.map (·.key)).nodup hndP)
  · rw [List.map_cons]
    exact List.nodup_cons.mpr ⟨hk0nq, hndPQ⟩
  · have h1 : countLir (prune_stack_s c).stack_s = countLir c.stack_s :=
      prune_stack_s_countLir c
    rw [hps] at h1
    unfold countLir at h1 ⊢
    rw [List.countP_append] at h1
    simpa [SVal.isLir] using h1
  · have := (prune_stack_s_q_sublist c).length_le
    simpa using Nat.succ_le_succ this
  · intro it hit hh
    rw [List.map_cons]
    exact List.mem_cons_of_mem _
      (hq1P it (hs1sub.subset hit) hh)
  · intro it hit hk
    rw [List.map_cons] at hk
    rcases List.mem_cons.mp hk with hk | hk
    · have hik : it.key = k0 := hk
      exact absurd (hik ▸ List.mem_map_of_mem (·.key) hit) hk0ns
    · exact hq2P it (hs1sub.subset hit) hk

/-- `_add` preserves the invariant (the key being added is fresh). -/
theorem add_Inv (c : LirsCache K V) (k : K) (v : V) (hInv : Inv c)
    (hkS : findS c k = none) (hkQ : findQ c k = none) : Inv (add c k v) := by
  have hkSm : k ∉ c.stack_s.map (·.key) := findByKey_none_not_mem hkS
  have hkQm : k ∉ c.list_q.map (·.key) := findByKey_none_not_mem hkQ
  unfold add
  by_cases hlt : c.lirs_cnt < c.s_capacity
  · rw [if_pos hlt]
    have hcp : countLir (SItem.mk k (SVal.lir v) :: c.stack_s) = countLir c.stack_s + 1 := by
      simp [countLir, List.countP_cons, SVal.isLir]
    refine ⟨?_, hInv.q_nodup, ?_, ?_, hInv.q_le, ?_, ?_, hInv.s_cap_pos, hInv.q_cap_pos⟩
    · rw [List.map_cons]
      exact List.nodup_cons.mpr ⟨hkSm, hInv.s_nodup⟩
    · rw [hcp, hInv.cnt_eq]
    · rw [hcp, ← hInv.cnt_eq]
      exact hlt
    · intro it hit hh
      rcases List.mem_cons.mp hit with h1 | h1
      · rw [h1] at hh
        cases hh
      · exact hInv.hir_in_q it h1 hh
    · intro it hit hk
      rcases List.mem_cons.mp hit with h1 | h1
      · exfalso
        have hik : it.key = k := by rw [h1]
        exact hkQm (hik ▸ hk)
      · exact hInv.q_in_s_hir it h1 hk
  · rw [if_neg hlt]
    have key : ∀ c1 : LirsCache K V,
        c1.stack_s.map (·.key) = c.stack_s.map (·.key) →
        countLir c1.stack_s = countLir c.stack_s →
        c1.lirs_cnt = c.lirs_cnt →
        c1.list_q.Sublist c.list_q →
        c1.list_q.length + 1 ≤ c.q_capacity →
        (∀ it ∈ c1.stack_s, it.sval = .hir → it.key ∈ c1.list_q.map (·.key)) →
        (∀ it ∈ c1.stack_s, it.key ∈ c1.list_q.map (·.key) → it.sval = .hir) →
        ((c1.list_q.map (·.key)).Nodup) →
        c1.s_capacity = c.s_capacity → c1.q_capacity = c.q_capacity →
        Inv { c1 with
              list_q := KeyValue.mk k v :: c1.list_q,
              stack_s := SItem.mk k SVal.hir :: c1.stack_s } := by
      intro c1 hA hB hcnt hE hlen hD1 hD2 hndq1 hsc hqc
      have hkS1 : k ∉ c1.stack_s.map (·.key) := by rw [hA]; exact hkSm
      have hkQ1 : k ∉ c1.list_q.map (·.key) := fun hm => hkQm ((hE.map (·.key)).subset hm)
      have hcp : countLir (SItem.mk k SVal.hir :: c1.stack_s) = countLir c1.stack_s := by
        simp [countLir, List.countP_cons, SVal.isLir]
      refine ⟨?_, ?_, ?_, ?_, ?_, ?_, ?_, ?_, ?_⟩
      · rw [List.map_cons]
        exact List.nodup_cons.mpr ⟨hkS1, hA ▸ hInv.s_nodup⟩
      · rw [List.map_cons]
        exact List.nodup_cons.mpr ⟨hkQ1, hndq1⟩
      · show c1.lirs_cnt = countLir (SItem.mk k SVal.hir :: c1.stack_s)
        rw [hcp, hB, hcnt]
        exact hInv.cnt_eq
      · show countLir (SItem.mk k SVal.hir :: c1.stack_s) ≤ c1.s_capacity
        rw [hcp, hB, hsc]
        exact hInv.cnt_le
      · show (KeyValue.mk k v :: c1.list_q).length ≤ c1.q_capacity
        rw [List.length_cons, hqc]
        exact hlen
      · intro it hit hh
        rcases List.mem_cons.mp hit with h1 | h1
        · rw [List.map_cons, h1]
          exact List.mem_cons_self _ _
        · rw [List.map_cons]
          exact List.mem_cons_of_mem _ (hD1 it h1 hh)
      · intro it hit hk
        rcases List.mem_cons.mp hit with h1 | h1
        · rw [h1]
        · rw [List.map_cons] at hk
          rcases List.mem_cons.mp hk with hk | hk
          · have hik : it.key = k := hk
            exact absurd (hik ▸ List.mem_map_of_mem (·.key) h1) hkS1
          · exact hD2 it h1 hk
      · show c1.s_capacity ≥ 1
        rw [hsc]
        exact hInv.s_cap_pos
      · show c1.q_capacity ≥ 1
        rw [hqc]
        exact hInv.q_cap_pos
    dsimp only
    by_cases hful : c.qIsFull = true
    · rw [if_pos hful]
      obtain ⟨⟨hA, hB⟩, ⟨hE, hlen⟩, ⟨hcnt, hsc, hqc⟩, hD1, hD2⟩ :=
        remove_lru_hir_item_spec c hInv.s_nodup hInv.q_nodup hInv.hir_in_q hInv.q_in_s_hir
      unfold qIsFull at hful
      rw [decide_eq_true_eq] at hful
      have hlenq : c.list_q.length = c.q_capacity := le_antisymm hInv.q_le hful
      have hne : c.list_q ≠ [] := by
        intro h
        rw [h] at hlenq
        have := hInv.q_cap_pos
        rw [← hlenq] at this
        cases this
      have hlen1 := hlen hne
      exact key (remove_lru_hir_item c) hA hB hcnt hE (by rw [hlen1, hlenq]) hD1 hD2
        ((hE.map (·.key)).nodup hInv.q_nodup) hsc hqc
    · rw [if_neg hful]
      unfold qIsFull at hful
      rw [decide_eq_true_eq] at hful
      push_neg at hful
      exact key c rfl rfl rfl (.refl _) hful hInv.hir_in_q hInv.q_in_s_hir
        hInv.q_nodup rfl rfl

/-- `del` preserves the invariant. -/
theorem del_Inv (c : LirsCache K V) (k : K) (hInv : Inv c) : Inv (del c k) := by
  cases hf : findS c k with
  | none =>
    have hd : del c k = { c with list_q := eraseByKey (·.key) c.list_q k } := by
      unfold del
      simp only [hf]
    rw [hd]
    have hkSm : k ∉ c.stack_s.map (·.key) := findByKey_none_not_mem hf
    refine ⟨hInv.s_nodup, ((eraseByKey_sublist _ _).map _).nodup hInv.q_nodup,
      hInv.cnt_eq, hInv.cnt_le,
      le_trans (eraseByKey_sublist _ _).length_le hInv.q_le, ?_, ?_,
      hInv.s_cap_pos, hInv.q_cap_pos⟩
    · intro it hit hh
      have hkey : it.key ≠ k := fun he => hkSm (he ▸ List.mem_map_of_mem (·.key) hit)
      exact (mem_map_eraseByKey_of_ne hkey).mpr (hInv.hir_in_q it hit hh)
    · intro it hit hk2
      exact hInv.q_in_s_hir it hit (((eraseByKey_sublist _ _).map _).subset hk2)
  | some it0 =>
    obtain ⟨l₁, l₂, he, hn, her, hmo⟩ := keyDecomp (f := fun x : SItem K V => x.key) id hf
    have hkey0 : it0.key = k := (findByKey_some hf).2
    cases hsv : it0.sval with
    | lir v =>
      have hd : del c k =
          { c with stack_s := eraseByKey (·.key) c.stack_s k,
                   lirs_cnt := c.lirs_cnt - 1 } := by
        unfold del
        simp only [hf, hsv]
      rw [hd]
      have hcl : countLir (eraseByKey (·.key) c.stack_s k) + 1 = countLir c.stack_s := by
        rw [her, he]
        unfold countLir
        rw [List.countP_append, List.countP_append, List.countP_cons]
        simp [hsv, SVal.isLir]
        omega
      refine ⟨((eraseByKey_sublist _ _).map _).nodup hInv.s_nodup, hInv.q_nodup,
        ?_, ?_, hInv.q_le, ?_, ?_, hInv.s_cap_pos, hInv.q_cap_pos⟩
      · show c.lirs_cnt - 1 = countLir (eraseByKey (·.key) c.stack_s k)
        rw [hInv.cnt_eq, ← hcl]
        omega
      · show countLir (eraseByKey (·.key) c.stack_s k) ≤ c.s_capacity
        have := hInv.cnt_le
        omega
      · intro it hit hh
        have hitmem : it ∈ c.stack_s := (eraseByKey_sublist _ _).subset hit
        exact hInv.hir_in_q it hitmem hh
      · intro it hit hk2
        exact hInv.q_in_s_hir it ((eraseByKey_sublist _ _).subset hit) hk2
    | hir =>
      have hd : del c k =
          { c with stack_s := eraseByKey (·.key) c.stack_s k,
                   list_q := eraseByKey (·.key) c.list_q k } := by
        unfold del
        simp only [hf, hsv]
      rw [hd]
      have hcl : countLir (eraseByKey (·.key) c.stack_s k) = countLir c.stack_s := by
        rw [her, he]
        unfold countLir
        rw [List.countP_append, List.countP_append, List.countP_cons]
        simp [hsv, SVal.isLir]
      refine ⟨((eraseByKey_sublist _ _).map _).nodup hInv.s_nodup,
        ((eraseByKey_sublist _ _).map _).nodup hInv.q_nodup, ?_, ?_,
        le_trans (eraseByKey_sublist _ _).length_le hInv.q_le, ?_, ?_,
        hInv.s_cap_pos, hInv.q_cap_pos⟩
      · show c.lirs_cnt = countLir (eraseByKey (·.key) c.stack_s k)
        rw [hcl]
        exact hInv.cnt_eq
      · show countLir (eraseByKey (·.key) c.stack_s k) ≤ c.s_capacity
        rw [hcl]
        exact hInv.cnt_le
      · intro it hit hh
        have hitmem : it ∈ c.stack_s := (eraseByKey_sublist _ _).subset hit
        have hkey : it.key ≠ k := by
          intro hke
          have hnd := hInv.s_nodup
          rw [he, List.map_append, List.map_cons] at hnd
          rw [her] at hit
          rcases List.mem_append.mp hit with h1 | h1
          · exact hn it h1 hke
          · have h2 := (List.nodup_append.mp hnd).2.1
            rw [List.nodup_cons] at h2
            refine h2.1 ?_
            rw [hkey0, ← hke]
            exact List.mem_map_of_mem (·.key) h1
        exact (mem_map_eraseByKey_of_ne hkey).mpr (hInv.hir_in_q it hitmem hh)
      · intro it hit hk2
        exact hInv.q_in_s_hir it ((eraseByKey_sublist _ _).subset hit)
          (((eraseByKey_sublist _ _).map _).subset hk2)
    | hirNr =>
      have hd : del c k = c := by
        unfold del
        simp only [hf, hsv]
      rw [hd]
      exact hInv

theorem Inv.toPreInv {c : LirsCache K V} (h : Inv c) : PreInv c :=
  ⟨h.s_nodup, h.q_nodup, h.cnt_eq, h.q_le, h.hir_in_q, h.q_in_s_hir,
   h.s_cap_pos, h.q_cap_pos⟩

theorem PreInv.toInv {c : LirsCache K V} (h : PreInv c)
    (hle : countLir c.stack_s ≤ c.s_capacity) : Inv c :=
  ⟨h.s_nodup, h.q_nodup, h.cnt_eq, hle, h.q_le, h.hir_in_q, h.q_in_s_hir,
   h.s_cap_pos, h.q_cap_pos⟩

/-- Demoting the LRU LIR entry repairs an exceeded LIR count. -/
theorem move_lru_lir_Inv (c1 : LirsCache K V) (h : PreInv c1)
    (hbound : countLir c1.stack_s ≤ c1.s_capacity + 1)
    (hpos : 1 ≤ countLir c1.stack_s)
    (hqroom : c1.list_q.length < c1.q_capacity) :
    Inv (move_lru_lir_to_list_q c1) := by
  obtain ⟨⟨hnd1, hnd2⟩, ⟨hcl, hcnt⟩, hlen, ⟨hq1, hq2⟩, hsc, hqc⟩ :=
    move_lru_lir_to_list_q_spec c1 h.s_nodup h.q_nodup h.hir_in_q h.q_in_s_hir hpos
  refine ⟨hnd1, hnd2, ?_, ?_, ?_, hq1, hq2, ?_, ?_⟩
  · rw [hcnt, h.cnt_eq]
    omega
  · rw [hsc]
    omega
  · rw [hqc]
    omega
  · rw [hsc]
    exact h.s_cap_pos
  · rw [hqc]
    exact h.q_cap_pos

/-- The common tail of the promotion paths: conditionally demote, then
prune. -/
theorem cond_demote_prune_Inv (c1 : LirsCache K V) (h : PreInv c1)
    (hbound : countLir c1.stack_s ≤ c1.s_capacity + 1)
    (hqroom : c1.lirs_cnt > c1.s_capacity → c1.list_q.length < c1.q_capacity) :
    Inv (prune_stack_s
      (if c1.lirs_cnt > c1.s_capacity then move_lru_lir_to_list_q c1 else c1)) := by
  by_cases hgt : c1.lirs_cnt > c1.s_capacity
  · rw [if_pos hgt]
    refine prune_Inv _ (move_lru_lir_Inv c1 h hbound ?_ (hqroom hgt))
    rw [← h.cnt_eq]
    have := h.s_cap_pos
    omega
  · rw [if_neg hgt]
    refine prune_Inv _ (h.toInv ?_)
    rw [← h.cnt_eq]
    omega

/-- The state shape produced by promoting an HIR entry (`_move_hir_to_stack_s`,
possibly followed by overwriting the value at the front of S): it
satisfies `PreInv`, holds one more LIR entry, and has room in Q. -/
theorem promote_shape_PreInv (c : LirsCache K V) (k : K) (w : V) (hInv : Inv c)
    {it1 : SItem K V} (hf : findS c k = some it1) (hsv : it1.sval = .hir) :
    PreInv { stack_s := SItem.mk k (SVal.lir w) :: eraseByKey (·.key) c.stack_s k,
             list_q := eraseByKey (·.key) c.list_q k,
             lirs_cnt := c.lirs_cnt + 1,
             s_capacity := c.s_capacity, q_capacity := c.q_capacity : LirsCache K V } ∧
    countLir (SItem.mk k (SVal.lir w) :: eraseByKey (·.key) c.stack_s k) =
      countLir c.stack_s + 1 ∧
    (eraseByKey (·.key) c.list_q k).length < c.q_capacity := by
  obtain ⟨l₁, l₂, he, hn, her, hmo⟩ := keyDecomp (f := fun x : SItem K V => x.key) id hf
  have hkey1 : it1.key = k := (findByKey_some hf).2
  have hkq : k ∈ c.list_q.map (·.key) :=
    hkey1 ▸ hInv.hir_in_q it1 (by
      rw [he]; exact List.mem_append_right _ (List.mem_cons_self _ _)) hsv
  have hfq : (findByKey (·.key) c.list_q k).isSome = true :=
    findByKey_isSome_iff_mem.mpr hkq
  have hcl : countLir (eraseByKey (·.key) c.stack_s k) = countLir c.stack_s := by
    rw [her, he]
    unfold countLir
    rw [List.countP_append, List.countP_append, List.countP_cons]
    simp [hsv, SVal.isLir]
  have hqlen : (eraseByKey (·.key) c.list_q k).length < c.q_capacity := by
    cases hfq2 : findByKey (·.key) c.list_q k with
    | none => rw [hfq2] at hfq; cases hfq
    | some qe =>
      have := length_eraseByKey_some hfq2
      have := hInv.q_le
      omega
  have hcp : countLir (SItem.mk k (SVal.lir w) :: eraseByKey (·.key) c.stack_s k) =
      countLir c.stack_s + 1 := by
    rw [← hcl]
    simp [countLir, List.countP_cons, SVal.isLir]
  refine ⟨⟨?_, ?_, ?_, ?_, ?_, ?_, hInv.s_cap_pos, hInv.q_cap_pos⟩, hcp, hqlen⟩
  · rw [List.map_cons]
    exact List.nodup_cons.mpr ⟨not_mem_map_eraseByKey hInv.s_nodup,
      ((eraseByKey_sublist _ _).map _).nodup hInv.s_nodup⟩
  · exact ((eraseByKey_sublist _ _).map _).nodup hInv.q_nodup
  · show c.lirs_cnt + 1 = countLir (SItem.mk k (SVal.lir w) :: eraseByKey (·.key) c.stack_s k)
    rw [hcp, hInv.cnt_eq]
  · exact le_of_lt hqlen
  · intro it hit hh
    rcases List.mem_cons.mp hit with h1 | h1
    · rw [h1] at hh
      cases hh
    · have hitmem : it ∈ c.stack_s := (eraseByKey_sublist _ _).subset h1
      have hkey : it.key ≠ k := by
        intro hke
        have hnd := hInv.s_nodup
        rw [he, List.map_append, List.map_cons] at hnd
        rw [her] at h1
        rcases List.mem_append.mp h1 with h2 | h2
        · exact hn it h2 hke
        · have h3 := (List.nodup_append.mp hnd).2.1
          rw [List.nodup_cons] at h3
          refine h3.1 ?_
          rw [hkey1, ← hke]
          exact List.mem_map_of_mem (·.key) h2
      exact (mem_map_eraseByKey_of_ne hkey).mpr (hInv.hir_in_q it hitmem hh)
  · intro it hit hk2
    rcases List.mem_cons.mp hit with h1 | h1
    · exfalso
      have hik : it.key = k := by rw [h1]
      exact not_mem_map_eraseByKey hInv.q_nodup (hik ▸ hk2)
    · exact hInv.q_in_s_hir it ((eraseByKey_sublist _ _).subset h1)
        (((eraseByKey_sublist _ _).map _).subset hk2)

/-- Touching stack S (splicing an entry to the front) preserves the
invariant: the stack is only permuted. -/
theorem touch_Inv (c : LirsCache K V) (k : K) (hInv : Inv c) :
    Inv { c with stack_s := touchByKey (·.key) c.stack_s k } := by
  have hperm := touchByKey_perm (f := fun x : SItem K V => x.key) c.stack_s k
  refine ⟨?_, hInv.q_nodup, ?_, ?_, hInv.q_le, ?_, ?_, hInv.s_cap_pos, hInv.q_cap_pos⟩
  · exact (hperm.map (·.key)).nodup_iff.mpr hInv.s_nodup
  · rw [show countLir (touchByKey (·.key) c.stack_s k) = countLir c.stack_s from
      hperm.countP_eq _]
    exact hInv.cnt_eq
  · rw [show countLir (touchByKey (·.key) c.stack_s k) = countLir c.stack_s from
      hperm.countP_eq _]
    exact hInv.cnt_le
  · intro it hit hh
    exact hInv.hir_in_q it (hperm.subset hit) hh
  · intro it hit hk2
    exact hInv.q_in_s_hir it (hperm.subset hit) hk2

/-- `_update_item_in_list_q` preserves the invariant: the key is in Q
but not in S; a fresh HIR entry referencing it is pushed on S. -/
theorem update_item_in_list_q_Inv (c : LirsCache K V) (k : K) (v : V) (hInv : Inv c)
    (hkS : findS c k = none) (hkQ : k ∈ c.list_q.map (·.key)) :
    Inv (update_item_in_list_q c k v) := by
  have hkSm : k ∉ c.stack_s.map (·.key) := findByKey_none_not_mem hkS
  have hmapq : (modifyByKey (·.key) (fun kv => { kv with value := v }) c.list_q k).map (·.key)
      = c.list_q.map (·.key) :=
    map_modifyByKey (f := fun x : KeyValue K V => x.key)
      (fun kv : KeyValue K V => { kv with value := v }) (fun _ => rfl) _ _
  have hpermq := touchByKey_perm (f := fun x : KeyValue K V => x.key)
    (modifyByKey (·.key) (fun kv => { kv with value := v }) c.list_q k) k
  unfold update_item_in_list_q
  have hmemq : ∀ k2, k2 ∈ (touchByKey (·.key)
      (modifyByKey (·.key) (fun kv => { kv with value := v }) c.list_q k) k).map (·.key)
      ↔ k2 ∈ c.list_q.map (·.key) := by
    intro k2
    rw [← hmapq]
    exact (hpermq.map (·.key)).mem_iff
  have hcp : countLir (SItem.mk k SVal.hir :: c.stack_s) = countLir c.stack_s := by
    simp [countLir, List.countP_cons, SVal.isLir]
  refine ⟨?_, ?_, ?_, ?_, ?_, ?_, ?_, hInv.s_cap_pos, hInv.q_cap_pos⟩
  · rw [List.map_cons]
    exact List.nodup_cons.mpr ⟨hkSm, hInv.s_nodup⟩
  · refine (hpermq.map (·.key)).nodup_iff.mpr ?_
    rw [hmapq]
    exact hInv.q_nodup
  · show c.lirs_cnt = countLir (SItem.mk k SVal.hir :: c.stack_s)
    rw [hcp]
    exact hInv.cnt_eq
  · show countLir (SItem.mk k SVal.hir :: c.stack_s) ≤ c.s_capacity
    rw [hcp]
    exact hInv.cnt_le
  · show (touchByKey (·.key)
        (modifyByKey (·.key) (fun kv => { kv with value := v }) c.list_q k) k).length
        ≤ c.q_capacity
    rw [hpermq.length_eq]
    have : (modifyByKey (·.key) (fun kv => { kv with value := v }) c.list_q k).length
        = c.list_q.length := by
      have := congrArg List.length hmapq
      simpa using this
    rw [this]
    exact hInv.q_le
  · intro it hit hh
    rcases List.mem_cons.mp hit with h1 | h1
    · have hik : it.key = k := by rw [h1]
      rw [hik, hmemq]
      exact hkQ
    · rw [hmemq]
      exact hInv.hir_in_q it h1 hh
  · intro it hit hk2
    rcases List.mem_cons.mp hit with h1 | h1
    · rw [h1]
    · rw [hmemq] at hk2
      exact hInv.q_in_s_hir it h1 hk2

/-- Overwriting the payload of the S entry for `k` and touching it
yields the modified entry at the front, the rest in order. -/
theorem modify_touch_desc (c : LirsCache K V) (k : K) (v : V) {it1 : SItem K V}
    (hf : findS c k = some it1) :
    ∃ l₁ l₂, c.stack_s = l₁ ++ it1 :: l₂ ∧ (∀ x ∈ l₁, x.key ≠ k) ∧
      touchByKey (·.key)
        (modifyByKey (·.key) (fun it => { it with sval := .lir v }) c.stack_s k) k
        = { it1 with sval := .lir v } :: (l₁ ++ l₂) := by
  obtain ⟨l₁, l₂, he, hn, her, hmo⟩ :=
    keyDecomp (f := fun x : SItem K V => x.key)
      (fun it : SItem K V => { it with sval := SVal.lir v }) hf
  refine ⟨l₁, l₂, he, hn, ?_⟩
  have hx : ({ it1 with sval := SVal.lir v } : SItem K V).key = k := (findByKey_some hf).2
  have hfind : findByKey (·.key) (l₁ ++ { it1 with sval := SVal.lir v } :: l₂) k =
      some { it1 with sval := SVal.lir v } := findByKey_append_cons hn hx
  have herase : eraseByKey (·.key) (l₁ ++ { it1 with sval := SVal.lir v } :: l₂) k =
      l₁ ++ l₂ := eraseByKey_append_cons hn hx
  rw [hmo]
  unfold touchByKey
  rw [hfind, herase]

/-- `_update_item_in_stack_s` preserves the invariant. -/
theorem update_item_in_stack_s_Inv (c : LirsCache K V) (k : K) (v : V) (hInv : Inv c) :
    Inv (update_item_in_stack_s c k v) := by
  cases hf : findS c k with
  | none =>
    have hd : update_item_in_stack_s c k v = c := by
      unfold update_item_in_stack_s
      simp only [hf]
    rw [hd]
    exact hInv
  | some it1 =>
    have hkey1 : it1.key = k := (findByKey_some hf).2
    have hmem1 : it1 ∈ c.stack_s := (findByKey_some hf).1
    cases hsv : it1.sval with
    | lir w =>
      obtain ⟨l₁, l₂, he, hn, htc⟩ := modify_touch_desc c k v hf
      have hd : update_item_in_stack_s c k v =
          prune_stack_s { c with stack_s := { it1 with sval := SVal.lir v } :: (l₁ ++ l₂) } := by
        unfold update_item_in_stack_s
        simp only [hf, hsv, htc]
      rw [hd]
      refine prune_Inv _ ?_
      have hmid := nodup_map_middle (f := fun x : SItem K V => x.key) (he ▸ hInv.s_nodup)
      have hcl : countLir ({ it1 with sval := SVal.lir v } :: (l₁ ++ l₂))
          = countLir c.stack_s := by
        rw [he]
        unfold countLir
        rw [List.countP_cons, List.countP_append, List.countP_append, List.countP_cons]
        simp [hsv, SVal.isLir]
        omega
      refine ⟨?_, hInv.q_nodup, ?_, ?_, hInv.q_le, ?_, ?_, hInv.s_cap_pos, hInv.q_cap_pos⟩
      · rw [List.map_cons]
        refine List.nodup_cons.mpr ⟨?_, hmid.2⟩
        show it1.key ∉ (l₁ ++ l₂).map (·.key)
        exact hmid.1
      · show c.lirs_cnt = countLir ({ it1 with sval := SVal.lir v } :: (l₁ ++ l₂))
        rw [hcl]
        exact hInv.cnt_eq
      · show countLir ({ it1 with sval := SVal.lir v } :: (l₁ ++ l₂)) ≤ c.s_capacity
        rw [hcl]
        exact hInv.cnt_le
      · intro it hit hh
        rcases List.mem_cons.mp hit with h1 | h1
        · rw [h1] at hh
          exact absurd hh (by simp)
        · have hitm : it ∈ c.stack_s := by
            rw [he]
            rcases List.mem_append.mp h1 with h2 | h2
            · exact List.mem_append_left _ h2
            · exact List.mem_append_right _ (List.mem_cons_of_mem _ h2)
          exact hInv.hir_in_q it hitm hh
      · intro it hit hk2
        rcases List.mem_cons.mp hit with h1 | h1
        · exfalso
          have hik : it.key = it1.key := by rw [h1]
          have := hInv.q_in_s_hir it1 hmem1 (hik ▸ hk2)
          rw [hsv] at this
          cases this
        · have hitm : it ∈ c.stack_s := by
            rw [he]
            rcases List.mem_append.mp h1 with h2 | h2
            · exact List.mem_append_left _ h2
            · exact List.mem_append_right _ (List.mem_cons_of_mem _ h2)
          exact hInv.q_in_s_hir it hitm hk2
    | hir =>
      cases hfq : findQ c k with
      | none =>
        exact absurd (hkey1 ▸ hInv.hir_in_q it1 hmem1 hsv) (findByKey_none_not_mem hfq)
      | some qe =>
        obtain ⟨hpre, hcl, hroom⟩ := promote_shape_PreInv c k v hInv hf hsv
        unfold update_item_in_stack_s
        simp only [hf, hsv]
        rw [move_hir_to_stack_s_desc c k hfq]
        unfold setFrontSValue
        dsimp only
        exact cond_demote_prune_Inv _ hpre
          (by rw [hcl]; exact Nat.succ_le_succ hInv.cnt_le) (fun _ => hroom)
    | hirNr =>
      have hknotq : k ∉ c.list_q.map (·.key) := by
        intro hk2
        have := hInv.q_in_s_hir it1 hmem1 (by rw [hkey1]; exact hk2)
        rw [hsv] at this
        cases this
      obtain ⟨l₁, l₂, he, hn, htc⟩ := modify_touch_desc c k v hf
      have hmid := nodup_map_middle (f := fun x : SItem K V => x.key) (he ▸ hInv.s_nodup)
      have hcl : countLir ({ it1 with sval := SVal.lir v } :: (l₁ ++ l₂))
          = countLir c.stack_s + 1 := by
        rw [he]
        unfold countLir
        rw [List.countP_cons, List.countP_append, List.countP_append, List.countP_cons]
        simp [hsv, SVal.isLir]
      have hpre1 : PreInv { c with
          stack_s := { it1 with sval := SVal.lir v } :: (l₁ ++ l₂),
          lirs_cnt := c.lirs_cnt + 1 } := by
        refine ⟨?_, hInv.q_nodup, ?_, hInv.q_le, ?_, ?_, hInv.s_cap_pos, hInv.q_cap_pos⟩
        · rw [List.map_cons]
          refine List.nodup_cons.mpr ⟨?_, hmid.2⟩
          show it1.key ∉ (l₁ ++ l₂).map (·.key)
          exact hmid.1
        · show c.lirs_cnt + 1 = countLir ({ it1 with sval := SVal.lir v } :: (l₁ ++ l₂))
          rw [hcl, hInv.cnt_eq]
        · intro it hit hh
          rcases List.mem_cons.mp hit with h1 | h1
          · rw [h1] at hh
            exact absurd hh (by simp)
          · have hitm : it ∈ c.stack_s := by
              rw [he]
              rcases List.mem_append.mp h1 with h2 | h2
              · exact List.mem_append_left _ h2
              · exact List.mem_append_right _ (List.mem_cons_of_mem _ h2)
            exact hInv.hir_in_q it hitm hh
        · intro it hit hk2
          rcases List.mem_cons.mp hit with h1 | h1
          · exfalso
            have hik : it.key = it1.key := by rw [h1]
            rw [hik, hkey1] at hk2
            exact hknotq hk2
          · have hitm : it ∈ c.stack_s := by
              rw [he]
              rcases List.mem_append.mp h1 with h2 | h2
              · exact List.mem_append_left _ h2
              · exact List.mem_append_right _ (List.mem_cons_of_mem _ h2)
            exact hInv.q_in_s_hir it hitm hk2
      have hboundc1 : countLir ({ it1 with sval := SVal.lir v } :: (l₁ ++ l₂))
          ≤ c.s_capacity + 1 := by
        rw [hcl]
        exact Nat.succ_le_succ hInv.cnt_le
      unfold update_item_in_stack_s
      simp only [hf, hsv]
      unfold hir_nr_to_lir
      rw [htc]
      dsimp only
      by_cases hgt : c.lirs_cnt + 1 > c.s_capacity
      · rw [if_pos hgt]
        by_cases hful : c.list_q.length ≥ c.q_capacity
        · rw [if_pos (by unfold qIsFull; dsimp only; rw [decide_eq_true_eq]; exact hful)]
          obtain ⟨⟨hA, hB⟩, ⟨hE, hlen⟩, ⟨hcnt2, hsc2, hqc2⟩, hD1, hD2⟩ :=
            remove_lru_hir_item_spec _ hpre1.s_nodup hpre1.q_nodup hpre1.hir_in_q
              hpre1.q_in_s_hir
          have hlenq : c.list_q.length = c.q_capacity := le_antisymm hInv.q_le hful
          have hne : c.list_q ≠ [] := by
            intro h
            rw [h] at hlenq
            have := hInv.q_cap_pos
            rw [← hlenq] at this
            cases this
          refine prune_Inv _ (move_lru_lir_Inv _ ⟨?_, ?_, ?_, ?_, ?_, ?_, ?_, ?_⟩ ?_ ?_ ?_)
          · rw [hA]
            exact hpre1.s_nodup
          · exact (hE.map (·.key)).nodup hpre1.q_nodup
          · rw [hcnt2, hB]
            exact hpre1.cnt_eq
          · rw [hqc2]
            exact le_trans hE.length_le hpre1.q_le
          · exact hD1
          · exact hD2
          · rw [hsc2]
            exact hpre1.s_cap_pos
          · rw [hqc2]
            exact hpre1.q_cap_pos
          · rw [hB, hsc2]
            exact hboundc1
          · rw [hB, hcl]
            omega
          · rw [hqc2]
            have hrm := hlen hne
            have hq1 := hInv.q_cap_pos
            dsimp only at hrm ⊢
            omega
        · rw [if_neg (by unfold qIsFull; dsimp only; rw [decide_eq_true_eq]; exact hful)]
          refine prune_Inv _ (move_lru_lir_Inv _ hpre1 hboundc1 ?_ ?_)
          · rw [hcl]
            omega
          · show c.list_q.length < c.q_capacity
            omega
      · rw [if_neg hgt]
        refine prune_Inv _ (hpre1.toInv ?_)
        show countLir ({ it1 with sval := SVal.lir v } :: (l₁ ++ l₂)) ≤ c.s_capacity
        rw [hcl]
        have hce := hInv.cnt_eq
        omega

theorem countLir_pos_of_mem {s : List (SItem K V)} {it : SItem K V} {w : V}
    (hm : it ∈ s) (hsv : it.sval = .lir w) : 1 ≤ countLir s := by
  unfold countLir
  exact List.countP_pos.mpr ⟨it, hm, by simp [hsv, SVal.isLir]⟩

theorem ne_nil_of_countLir_pos {s : List (SItem K V)} (h : 1 ≤ countLir s) : s ≠ [] := by
  intro he
  rw [he] at h
  cases h

theorem head_eq_of_head_some {s : List (SItem K V)} {a : SItem K V}
    (h : s.head? = some a) : ∃ rest, s = a :: rest := by
  cases s with
  | nil => cases h
  | cons b t =>
    injection h with h
    exact ⟨t, by rw [h]⟩

/-- `_get_from_stack_s` on a LIR hit: touch, prune, return the stored
value. -/
theorem get_from_stack_s_lir_result (c : LirsCache K V) (k : K) {it1 : SItem K V} {w : V}
    (hf : findS c k = some it1) (hsv : it1.sval = .lir w) :
    get_from_stack_s c k =
      (some w, prune_stack_s { c with stack_s := touchByKey (·.key) c.stack_s k }) := by
  have hpos : 1 ≤ countLir c.stack_s := countLir_pos_of_mem (findByKey_some hf).1 hsv
  have hposT : 1 ≤ countLir (touchByKey (·.key) c.stack_s k) := by
    rw [show countLir (touchByKey (·.key) c.stack_s k) = countLir c.stack_s from
      (touchByKey_perm _ _).countP_eq _]
    exact hpos
  have hheadT : (touchByKey (·.key) c.stack_s k).head? = some it1 := by
    unfold touchByKey
    rw [show findByKey (fun x => x.key) c.stack_s k = some it1 from hf]
    simp
  have hhead := (prune_stack_s_head { c with stack_s := touchByKey (·.key) c.stack_s k }
    hposT).2
  rw [hheadT] at hhead
  obtain ⟨rest, hrest⟩ := head_eq_of_head_some hhead
  have hfront : frontSValue
      (prune_stack_s { c with stack_s := touchByKey (·.key) c.stack_s k }) = some w := by
    unfold frontSValue
    rw [hrest]
    obtain ⟨k1, sv1⟩ := it1
    cases hsv
    rfl
  unfold get_from_stack_s
  simp only [hf, hsv, hfront]

/-- The stack produced by an HIR promotion starts with the promoted LIR
entry. -/
theorem promote_front (c : LirsCache K V) (k : K) (w : V) (hInv : Inv c)
    {it1 : SItem K V} (hf : findS c k = some it1) (hsv : it1.sval = .hir) :
    ∃ rest,
      (prune_stack_s
        (if ({ stack_s := SItem.mk k (SVal.lir w) :: eraseByKey (·.key) c.stack_s k,
               list_q := eraseByKey (·.key) c.list_q k,
               lirs_cnt := c.lirs_cnt + 1,
               s_capacity := c.s_capacity,
               q_capacity := c.q_capacity : LirsCache K V }).lirs_cnt >
            ({ stack_s := SItem.mk k (SVal.lir w) :: eraseByKey (·.key) c.stack_s k,
               list_q := eraseByKey (·.key) c.list_q k,
               lirs_cnt := c.lirs_cnt + 1,
               s_capacity := c.s_capacity,
               q_capacity := c.q_capacity : LirsCache K V }).s_capacity
         then move_lru_lir_to_list_q
            { stack_s := SItem.mk k (SVal.lir w) :: eraseByKey (·.key) c.stack_s k,
              list_q := eraseByKey (·.key) c.list_q k,
              lirs_cnt := c.lirs_cnt + 1,
              s_capacity := c.s_capacity,
              q_capacity := c.q_capacity }
         else
            { stack_s := SItem.mk k (SVal.lir w) :: eraseByKey (·.key) c.stack_s k,
              list_q := eraseByKey (·.key) c.list_q k,
              lirs_cnt := c.lirs_cnt + 1,
              s_capacity := c.s_capacity,
              q_capacity := c.q_capacity })).stack_s
      = SItem.mk k (SVal.lir w) :: rest := by
  obtain ⟨hpre, hcl, hroom⟩ := promote_shape_PreInv c k w hInv hf hsv
  set cA : LirsCache K V :=
    { stack_s := SItem.mk k (SVal.lir w) :: eraseByKey (·.key) c.stack_s k,
      list_q := eraseByKey (·.key) c.list_q k,
      lirs_cnt := c.lirs_cnt + 1,
      s_capacity := c.s_capacity,
      q_capacity := c.q_capacity } with hca
  have hposA : 1 ≤ countLir cA.stack_s :=
    countLir_pos_of_mem (List.mem_cons_self _ _) rfl
  by_cases hgt : cA.lirs_cnt > cA.s_capacity
  · rw [if_pos hgt]
    have hcap1 : 1 ≤ c.s_capacity := hInv.s_cap_pos
    have hclc : countLir c.stack_s = c.lirs_cnt := hInv.cnt_eq.symm
    have hcntcap : c.lirs_cnt = c.s_capacity := by
      have h1 : c.lirs_cnt + 1 > c.s_capacity := hgt
      have h2 := hInv.cnt_le
      omega
    obtain ⟨s1, k0, v0, hps, hr⟩ := move_lru_lir_to_list_q_desc cA hposA
    have hheadP := (prune_stack_s_head cA hposA).2
    have hcountP : countLir (prune_stack_s cA).stack_s = c.s_capacity + 1 := by
      rw [prune_stack_s_countLir, hcl, hclc, hcntcap]
    have hcounts1 : countLir s1 = c.s_capacity := by
      rw [hps] at hcountP
      have hc2 : countLir (s1 ++ [SItem.mk k0 (SVal.lir v0)]) = countLir s1 + 1 := by
        unfold countLir
        rw [List.countP_append, List.countP_cons, List.countP_nil]
        simp [SVal.isLir]
      rw [hc2] at hcountP
      omega
    have hs1ne : s1 ≠ [] := ne_nil_of_countLir_pos (by rw [hcounts1]; exact hcap1)
    have hheadA : cA.stack_s.head? = some (SItem.mk k (SVal.lir w)) := rfl
    rw [hheadA] at hheadP
    have hheads1 : s1.head? = some (SItem.mk k (SVal.lir w)) := by
      cases hs1 : s1 with
      | nil => exact absurd hs1 hs1ne
      | cons a t =>
        rw [hps, hs1, List.cons_append, List.head?_cons] at hheadP
        injection hheadP with hh
        rw [hh]
        rfl
    have hposR : 1 ≤ countLir (move_lru_lir_to_list_q cA).stack_s := by
      rw [hr]
      rw [show countLir s1 = c.s_capacity from hcounts1]
      exact hcap1
    have hfin := (prune_stack_s_head (move_lru_lir_to_list_q cA) hposR).2
    rw [hr] at hfin
    rw [hr]
    rw [hheads1] at hfin
    exact head_eq_of_head_some hfin
  · rw [if_neg hgt]
    have hhead := (prune_stack_s_head cA hposA).2
    have hheadA : cA.stack_s.head? = some (SItem.mk k (SVal.lir w)) := rfl
    rw [hheadA] at hhead
    exact head_eq_of_head_some hhead

/-- `_get_from_stack_s` on an HIR hit under the invariant: promote,
demote if needed, prune, and return the promoted value. -/
theorem get_from_stack_s_hir_result (c : LirsCache K V) (k : K) (hInv : Inv c)
    {it1 : SItem K V} {qe : KeyValue K V}
    (hf : findS c k = some it1) (hsv : it1.sval = .hir) (hfq : findQ c k = some qe) :
    (get_from_stack_s c k).1 = some qe.value ∧
    (get_from_stack_s c k).2 =
      prune_stack_s
        (if ({ stack_s := SItem.mk k (SVal.lir qe.value) :: eraseByKey (·.key) c.stack_s k,
               list_q := eraseByKey (·.key) c.list_q k,
               lirs_cnt := c.lirs_cnt + 1,
               s_capacity := c.s_capacity,
               q_capacity := c.q_capacity : LirsCache K V }).lirs_cnt > c.s_capacity
         then move_lru_lir_to_list_q
            { stack_s := SItem.mk k (SVal.lir qe.value) :: eraseByKey (·.key) c.stack_s k,
              list_q := eraseByKey (·.key) c.list_q k,
              lirs_cnt := c.lirs_cnt + 1,
              s_capacity := c.s_capacity,
              q_capacity := c.q_capacity }
         else
            { stack_s := SItem.mk k (SVal.lir qe.value) :: eraseByKey (·.key) c.stack_s k,
              list_q := eraseByKey (·.key) c.list_q k,
              lirs_cnt := c.lirs_cnt + 1,
              s_capacity := c.s_capacity,
              q_capacity := c.q_capacity }) := by
  obtain ⟨rest, hrest⟩ := promote_front c k qe.value hInv hf hsv
  have hfront : frontSValue
      (prune_stack_s
        (if ({ stack_s := SItem.mk k (SVal.lir qe.value) :: eraseByKey (·.key) c.stack_s k,
               list_q := eraseByKey (·.key) c.list_q k,
               lirs_cnt := c.lirs_cnt + 1,
               s_capacity := c.s_capacity,
               q_capacity := c.q_capacity : LirsCache K V }).lirs_cnt > c.s_capacity
         then move_lru_lir_to_list_q
            { stack_s := SItem.mk k (SVal.lir qe.value) :: eraseByKey (·.key) c.stack_s k,
              list_q := eraseByKey (·.key) c.list_q k,
              lirs_cnt := c.lirs_cnt + 1,
              s_capacity := c.s_capacity,
              q_capacity := c.q_capacity }
         else
            { stack_s := SItem.mk k (SVal.lir qe.value) :: eraseByKey (·.key) c.stack_s k,
              list_q := eraseByKey (·.key) c.list_q k,
              lirs_cnt := c.lirs_cnt + 1,
              s_capacity := c.s_capacity,
              q_capacity := c.q_capacity })) = some qe.value := by
    unfold frontSValue
    rw [hrest]
  constructor
  · unfold get_from_stack_s
    simp only [hf, hsv]
    rw [move_hir_to_stack_s_desc c k hfq]
    dsimp only
    exact hfront
  · unfold get_from_stack_s
    simp only [hf, hsv]
    rw [move_hir_to_stack_s_desc c k hfq]

/-- `_get_from_stack_s` returns `none` only without touching the state:
either the key is absent from S or its entry is a non-resident ghost. -/
theorem get_from_stack_s_none (c : LirsCache K V) (k : K) (hInv : Inv c)
    (h : (get_from_stack_s c k).1 = none) :
    (get_from_stack_s c k).2 = c ∧
      (findS c k = none ∨ ∃ it, findS c k = some it ∧ it.sval = .hirNr) := by
  cases hf : findS c k with
  | none =>
    have hd : get_from_stack_s c k = (none, c) := by
      unfold get_from_stack_s
      simp only [hf]
    exact ⟨by rw [hd], Or.inl rfl⟩
  | some it1 =>
    cases hsv : it1.sval with
    | lir w =>
      rw [get_from_stack_s_lir_result c k hf hsv] at h
      cases h
    | hir =>
      have hkq : k ∈ c.list_q.map (·.key) :=
        (findByKey_some hf).2 ▸ hInv.hir_in_q it1 (findByKey_some hf).1 hsv
      cases hfq : findQ c k with
      | none => exact absurd hkq (findByKey_none_not_mem hfq)
      | some qe =>
        rw [(get_from_stack_s_hir_result c k hInv hf hsv hfq).1] at h
        cases h
    | hirNr =>
      have hd : get_from_stack_s c k = (none, c) := by
        unfold get_from_stack_s
        simp only [hf, hsv]
      exact ⟨by rw [hd], Or.inr ⟨it1, rfl, hsv⟩⟩

/-- `_get_from_stack_s` preserves the invariant. -/
theorem get_from_stack_s_Inv (c : LirsCache K V) (k : K) (hInv : Inv c) :
    Inv (get_from_stack_s c k).2 := by
  cases hf : findS c k with
  | none =>
    have hd : get_from_stack_s c k = (none, c) := by
      unfold get_from_stack_s
      simp only [hf]
    rw [hd]
    exact hInv
  | some it1 =>
    cases hsv : it1.sval with
    | lir w =>
      rw [get_from_stack_s_lir_result c k hf hsv]
      exact prune_Inv _ (touch_Inv c k hInv)
    | hir =>
      have hkq : k ∈ c.list_q.map (·.key) :=
        (findByKey_some hf).2 ▸ hInv.hir_in_q it1 (findByKey_some hf).1 hsv
      cases hfq : findQ c k with
      | none => exact absurd hkq (findByKey_none_not_mem hfq)
      | some qe =>
        rw [(get_from_stack_s_hir_result c k hInv hf hsv hfq).2]
        obtain ⟨hpre, hcl, hroom⟩ := promote_shape_PreInv c k qe.value hInv hf hsv
        exact cond_demote_prune_Inv _ hpre
          (by rw [hcl]; exact Nat.succ_le_succ hInv.cnt_le) (fun _ => hroom)
    | hirNr =>
      have hd : get_from_stack_s c k = (none, c) := by
        unfold get_from_stack_s
        simp only [hf, hsv]
      rw [hd]
      exact hInv

/-- `_get_from_list_q` preserves the invariant when the key is not in S
(its call condition in `get`). -/
theorem get_from_list_q_Inv (c : LirsCache K V) (k : K) (hInv : Inv c)
    (hkS : findS c k = none) : Inv (get_from_list_q c k).2 := by
  cases hfq : findQ c k with
  | none =>
    have hd : get_from_list_q c k = (none, c) := by
      unfold get_from_list_q
      simp only [hfq]
    rw [hd]
    exact hInv
  | some qe =>
    have hkSm : k ∉ c.stack_s.map (·.key) := findByKey_none_not_mem hkS
    have hkQm : k ∈ c.list_q.map (·.key) :=
      (findByKey_some hfq).2 ▸ List.mem_map_of_mem (·.key) (findByKey_some hfq).1
    have hpermq := touchByKey_perm (f := fun x : KeyValue K V => x.key) c.list_q k
    have hd : (get_from_list_q c k).2 = { c with
        stack_s := SItem.mk k SVal.hir :: c.stack_s,
        list_q := touchByKey (·.key) c.list_q k } := by
      unfold get_from_list_q
      simp only [hfq]
    rw [hd]
    have hcp : countLir (SItem.mk k SVal.hir :: c.stack_s) = countLir c.stack_s := by
      simp [countLir, List.countP_cons, SVal.isLir]
    refine ⟨?_, ?_, ?_, ?_, ?_, ?_, ?_, hInv.s_cap_pos, hInv.q_cap_pos⟩
    · rw [List.map_cons]
      exact List.nodup_cons.mpr ⟨hkSm, hInv.s_nodup⟩
    · exact (hpermq.map (·.key)).nodup_iff.mpr hInv.q_nodup
    · show c.lirs_cnt = countLir (SItem.mk k SVal.hir :: c.stack_s)
      rw [hcp]
      exact hInv.cnt_eq
    · show countLir (SItem.mk k SVal.hir :: c.stack_s) ≤ c.s_capacity
      rw [hcp]
      exact hInv.cnt_le
    · show (touchByKey (·.key) c.list_q k).length ≤ c.q_capacity
      rw [hpermq.length_eq]
      exact hInv.q_le
    · intro it hit hh
      rw [(hpermq.map (·.key)).mem_iff]
      rcases List.mem_cons.mp hit with h1 | h1
      · have hik : it.key = k := by rw [h1]
        rw [hik]
        exact hkQm
      · exact hInv.hir_in_q it h1 hh
    · intro it hit hk2
      rw [(hpermq.map (·.key)).mem_iff] at hk2
      rcases List.mem_cons.mp hit with h1 | h1
      · rw [h1]
      · exact hInv.q_in_s_hir it h1 hk2

/-- `get` preserves the invariant. -/
theorem get_Inv (c : LirsCache K V) (k : K) (hInv : Inv c) : Inv (get c k).2 := by
  unfold get
  cases hres : get_from_stack_s c k with
  | mk r1 c1 =>
    cases r1 with
    | some v =>
      dsimp only
      have h := get_from_stack_s_Inv c k hInv
      rw [hres] at h
      exact h
    | none =>
      dsimp only
      have hnone := get_from_stack_s_none c k hInv (by rw [hres])
      rw [hres] at hnone
      obtain ⟨hc1, hcase⟩ := hnone
      dsimp only at hc1
      rw [hc1]
      rcases hcase with hfnone | ⟨it, hfsome, hnr⟩
      · exact get_from_list_q_Inv c k hInv hfnone
      · have hknq : findQ c k = none := by
          cases hfq2 : findQ c k with
          | none => rfl
          | some qe =>
            exfalso
            have hkq2 : k ∈ c.list_q.map (·.key) :=
              (findByKey_some hfq2).2 ▸
                List.mem_map_of_mem (·.key) (findByKey_some hfq2).1
            have hikq : it.key ∈ c.list_q.map (·.key) := by
              rw [(findByKey_some hfsome).2]
              exact hkq2
            have := hInv.q_in_s_hir it (findByKey_some hfsome).1 hikq
            rw [hnr] at this
            cases this
        have hd : get_from_list_q c k = (none, c) := by
          unfold get_from_list_q
          simp only [hknq]
        rw [hd]
        exact hInv

/-- `set` preserves the invariant. -/
theorem set_Inv (c : LirsCache K V) (k : K) (v : V) (hInv : Inv c) : Inv (set c k v) := by
  unfold set
  by_cases h1 : (findS c k).isSome = true
  · rw [if_pos h1]
    exact update_item_in_stack_s_Inv c k v hInv
  · rw [if_neg h1]
    have h1n : findS c k = none := Option.not_isSome_iff_eq_none.mp h1
    by_cases h2 : (findQ c k).isSome = true
    · rw [if_pos h2]
      exact update_item_in_list_q_Inv c k v hInv h1n
        (findByKey_isSome_iff_mem.mp h2)
    · rw [if_neg h2]
      exact add_Inv c k v hInv h1n (Option.not_isSome_iff_eq_none.mp h2)

/-- Every single operation preserves the invariant. -/
theorem step_Inv (c : LirsCache K V) (op : CacheOp K V) (hInv : Inv c) :
    Inv (LirsCache.step c op) := by
  cases op with
  | set k v => exact set_Inv c k v hInv
  | get k => exact get_Inv c k hInv
  | del k => exact del_Inv c k hInv

/-- Every reachable state of a LIRS cache satisfies the invariant. -/
theorem reachable_Inv (c : LirsCache K V) (h : Reachable c) : Inv c := by
  induction h with
  | init s q hs hq =>
    exact ⟨List.nodup_nil, List.nodup_nil, rfl, (by simp [countLir]), (by simp),
      (fun it hit => absurd hit (List.not_mem_nil it)),
      (fun it hit => absurd hit (List.not_mem_nil it)), hs, hq⟩
  | step c op hr ih => exact step_Inv c op ih

/-- Residents of stack S split into LIR entries and resident HIR
entries. -/
theorem countResident_eq (s : List (SItem K V)) :
    countResident s = countLir s + s.countP (fun it => it.sval.isHir) := by
  induction s with
  | nil => rfl
  | cons it rest ih =>
    unfold countResident countLir at ih ⊢
    rw [List.countP_cons, List.countP_cons, List.countP_cons, ih]
    cases hsv : it.sval <;> simp [SVal.isLir, SVal.isHir, SVal.isHirNr, hsv] <;> omega

/-- Under the invariant, the resident HIR entries of S inject into Q. -/
theorem countHir_le_q (c : LirsCache K V) (hInv : Inv c) :
    c.stack_s.countP (fun it => it.sval.isHir) ≤ c.list_q.length := by
  rw [List.countP_eq_length_filter]
  have hmap : ((c.stack_s.filter (fun it => it.sval.isHir)).map (·.key)).length =
      (c.stack_s.filter (fun it => it.sval.isHir)).length := List.length_map _ _
  rw [← hmap, ← List.length_map c.list_q (·.key)]
  refine List.Subperm.length_le (List.subperm_of_subset ?_ ?_)
  · exact ((List.filter_sublist c.stack_s).map (fun x : SItem K V => x.key)).nodup
      hInv.s_nodup
  · intro x hx
    obtain ⟨it, hit, hkx⟩ := List.mem_map.mp hx
    have hmem := List.mem_filter.mp hit
    have hhir : it.sval = .hir := by
      cases hsv : it.sval with
      | lir w => rw [hsv] at hmem; cases hmem.2
      | hir => rfl
      | hirNr => rw [hsv] at hmem; cases hmem.2
    exact hkx ▸ hInv.hir_in_q it hmem.1 hhir

/-- A set-hit on stack S always finishes with a prune, so the bottom of
S is LIR afterwards. -/
theorem update_item_bottom (c : LirsCache K V) (k : K) (v : V) {it : SItem K V}
    (hf : findS c k = some it) :
    s_bottom_is_lir (update_item_in_stack_s c k v) = true := by
  cases hsv : it.sval with
  | lir w =>
    unfold update_item_in_stack_s
    simp only [hf, hsv]
    exact s_bottom_is_lir_prune _
  | hir =>
    unfold update_item_in_stack_s
    simp only [hf, hsv]
    exact s_bottom_is_lir_prune _
  | hirNr =>
    unfold update_item_in_stack_s
    simp only [hf, hsv]
    exact s_bottom_is_lir_prune _

end LirsCache

/-! ## C4 — bound on stack S

The total size of stack S is unbounded (HIR-NR ghosts accumulate, see
`lirs_stack_total_size_cex`), but the number of resident entries in S —
LIR and HIR together — never exceeds `cL + cH` in any reachable state. -/

/-- C4 amended: in every state reachable by any sequence of set, get and
del operations from a constructed cache, the number of LIR plus resident
HIR entries in stack S never exceeds `cL + cH`; the HIR-NR ghost entries
come on top of that, and with them the total size of S can exceed
`cL + cH` (counterexample `lirs_stack_total_size_cex`). -/
theorem lirs_resident_bound {K V : Type} [DecidableEq K] (c : LirsCache K V)
    (h : LirsCache.Reachable c) :
    LirsCache.countResident c.stack_s ≤ c.s_capacity + c.q_capacity := by
  have hInv := LirsCache.reachable_Inv c h
  rw [LirsCache.countResident_eq]
  have h1 : LirsCache.countLir c.stack_s ≤ c.s_capacity := hInv.cnt_le
  have h2 := LirsCache.countHir_le_q c hInv
  have h3 := hInv.q_le
  omega

theorem lirs_resident_bound_witness :
    LirsCache.countResident
      (LirsCache.step
        (LirsCache.step
          (LirsCache.step
            ({ stack_s := [], list_q := [], lirs_cnt := 0,
               s_capacity := 2, q_capacity := 1 } : LirsCache Nat Nat)
            (CacheOp.set 1 1))
          (CacheOp.set 2 2))
        (CacheOp.set 3 3)).stack_s ≤
      (LirsCache.step
        (LirsCache.step
          (LirsCache.step
            ({ stack_s := [], list_q := [], lirs_cnt := 0,
               s_capacity := 2, q_capacity := 1 } : LirsCache Nat Nat)
            (CacheOp.set 1 1))
          (CacheOp.set 2 2))
        (CacheOp.set 3 3)).s_capacity +
      (LirsCache.step
        (LirsCache.step
          (LirsCache.step
            ({ stack_s := [], list_q := [], lirs_cnt := 0,
               s_capacity := 2, q_capacity := 1 } : LirsCache Nat Nat)
            (CacheOp.set 1 1))
          (CacheOp.set 2 2))
        (CacheOp.set 3 3)).q_capacity :=
  lirs_resident_bound _
    (LirsCache.Reachable.step _ _
      (LirsCache.Reachable.step _ _
        (LirsCache.Reachable.step _ _
          (LirsCache.Reachable.init 2 1 (by decide) (by decide)))))

/-! ## C2 — the bottom of stack S

`del` can remove the S-tail LIR entry and leave an HIR or HIR-NR entry
at the bottom of S (counterexample `lirs_stack_bottom_cex`), so the
claimed invariant fails.  What does hold: every `set` on a key present
in stack S and every `get` hitting a LIR or HIR entry in S finishes
with `_prune_stack_s`, so after those operations the bottom of S is
LIR. -/

/-- C2 amended: in a reachable state, after a completed `set(k,v)` with
`k` present in stack S, and after a completed `get(k)` with `k` present
in stack S as LIR or HIR (not as an HIR-NR ghost), the bottom entry of
stack S is LIR (or S is empty).  A `del`, or an operation that does not
hit stack S, does not restore this property: deleting the S-tail LIR
entry can leave an HIR or HIR-NR entry at the bottom of S
(`lirs_stack_bottom_cex`). -/
theorem lirs_stack_bottom_after_hit {K V : Type} [DecidableEq K] (c : LirsCache K V)
    (k : K) (v : V) (it : SItem K V) (hr : LirsCache.Reachable c)
    (hfind : LirsCache.findS c k = some it) :
    LirsCache.s_bottom_is_lir (LirsCache.set c k v) = true ∧
    (it.sval ≠ SVal.hirNr →
      LirsCache.s_bottom_is_lir (LirsCache.get c k).2 = true) := by
  have hInv := LirsCache.reachable_Inv c hr
  constructor
  · unfold LirsCache.set
    rw [if_pos (by rw [hfind]; rfl)]
    exact LirsCache.update_item_bottom c k v hfind
  · intro hne
    cases hsv : it.sval with
    | lir w =>
      have hd := LirsCache.get_from_stack_s_lir_result c k hfind hsv
      have hd2 : (LirsCache.get c k).2 = LirsCache.prune_stack_s
          { c with stack_s := touchByKey (·.key) c.stack_s k } := by
        unfold LirsCache.get
        rw [hd]
      rw [hd2]
      exact LirsCache.s_bottom_is_lir_prune _
    | hir =>
      have hkq : k ∈ c.list_q.map (·.key) :=
        (findByKey_some hfind).2 ▸ hInv.hir_in_q it (findByKey_some hfind).1 hsv
      cases hfq : LirsCache.findQ c k with
      | none => exact absurd hkq (findByKey_none_not_mem hfq)
      | some qe =>
        obtain ⟨hv1, hv2⟩ := LirsCache.get_from_stack_s_hir_result c k hInv hfind hsv hfq
        have hd2 : (LirsCache.get c k).2 = (LirsCache.get_from_stack_s c k).2 := by
          unfold LirsCache.get
          cases hres : LirsCache.get_from_stack_s c k with
          | mk r1 c1 =>
            rw [hres] at hv1
            dsimp only at hv1
            rw [hv1]
        rw [hd2, hv2]
        exact LirsCache.s_bottom_is_lir_prune _
    | hirNr => exact absurd hsv hne

theorem lirs_stack_bottom_after_hit_witness :
    LirsCache.s_bottom_is_lir
      (LirsCache.set
        (LirsCache.step
          ({ stack_s := [], list_q := [], lirs_cnt := 0,
             s_capacity := 1, q_capacity := 1 } : LirsCache Nat Nat)
          (CacheOp.set 1 1)) 1 5) = true ∧
    ((SItem.mk 1 (SVal.lir 1) : SItem Nat Nat).sval ≠ SVal.hirNr →
      LirsCache.s_bottom_is_lir
        (LirsCache.get
          (LirsCache.step
            ({ stack_s := [], list_q := [], lirs_cnt := 0,
               s_capacity := 1, q_capacity := 1 } : LirsCache Nat Nat)
            (CacheOp.set 1 1)) 1).2 = true) :=
  lirs_stack_bottom_after_hit _ 1 5 (SItem.mk 1 (SVal.lir 1))
    (LirsCache.Reachable.step _ _ (LirsCache.Reachable.init 1 1 (by decide) (by decide)))
    (by decide)

/-! ## C8 — SLRU `set` on a probation key

`SlruCache::set` on a key absent from the protected segment and present
in the probation segment promotes the entry through
`_move_from_probation_to_protected` and then overwrites the value of the
protected segment's MRU entry. -/

/-- C8: `set(k,v)` with `k` present in the probation segment splices the
entry to the head of the protected segment and overwrites its value with
`v`; if the protected segment then holds more than its capacity `cQ`,
its LRU (tail) entry is spliced to the head of the probation segment;
no other entry is removed or reordered by the operation. -/
theorem slru_set_probation_hit {K V : Type} [DecidableEq K] (c : SlruCache K V)
    (k : K) (v : V) (kv : KeyValue K V)
    (hq : findByKey (fun x : KeyValue K V => x.key) c.protected_seg.kv_list k = none)
    (hp : findByKey (fun x : KeyValue K V => x.key) c.probation_seg.kv_list k = some kv)
    (hcap : 1 ≤ c.protected_seg.capacity) :
    SlruCache.set c k v =
      if c.protected_seg.kv_list.length + 1 > c.protected_seg.capacity then
        { probation_seg := { c.probation_seg with kv_list :=
            (c.protected_seg.kv_list.getLast?.toList ++
              eraseByKey (fun x : KeyValue K V => x.key) c.probation_seg.kv_list k) },
          protected_seg := { c.protected_seg with kv_list :=
            (KeyValue.mk k v :: c.protected_seg.kv_list.dropLast) } }
      else
        { probation_seg := { c.probation_seg with kv_list :=
            (eraseByKey (fun x : KeyValue K V => x.key) c.probation_seg.kv_list k) },
          protected_seg := { c.protected_seg with kv_list :=
            (KeyValue.mk k v :: c.protected_seg.kv_list) } } := by
  have hkey : kv.key = k := (findByKey_some hp).2
  unfold SlruCache.set SlruCache.move_from_probation_to_protected
  rw [hq]
  simp only [Option.isSome_none, Bool.false_eq_true, if_false]
  rw [hp]
  simp only [Option.isSome_some, if_true]
  unfold LruCacheImpl.move_item
  rw [hp]
  unfold LruCacheImpl.is_full
  simp only [List.length_cons]
  by_cases hfull : c.protected_seg.kv_list.length + 1 > c.protected_seg.capacity
  · rw [if_pos (by simpa using hfull), if_pos hfull]
    obtain hnil | ⟨l, a, hconc⟩ := c.protected_seg.kv_list.eq_nil_or_concat
    · rw [hnil] at hfull
      simp at hfull
      omega
    · rw [List.concat_eq_append] at hconc
      rw [hconc]
      unfold LruCacheImpl.move_lru_item
      rw [← List.cons_append, List.getLast?_concat, List.dropLast_concat,
        List.getLast?_concat]
      simp [hkey]
  · rw [if_neg (by simpa using hfull), if_neg hfull]
    simp [hkey]

theorem slru_set_probation_hit_witness :
    (findByKey (fun x : KeyValue Nat Nat => x.key)
        ({ probation_seg := { kv_list := [KeyValue.mk 1 10, KeyValue.mk 2 20], capacity := 2 },
           protected_seg := { kv_list := [KeyValue.mk 9 90], capacity := 1 } } :
          SlruCache Nat Nat).protected_seg.kv_list 1 = none) ∧
    (findByKey (fun x : KeyValue Nat Nat => x.key)
        ({ probation_seg := { kv_list := [KeyValue.mk 1 10, KeyValue.mk 2 20], capacity := 2 },
           protected_seg := { kv_list := [KeyValue.mk 9 90], capacity := 1 } } :
          SlruCache Nat Nat).probation_seg.kv_list 1 = some (KeyValue.mk 1 10)) ∧
    1 ≤ ({ probation_seg := { kv_list := [KeyValue.mk 1 10, KeyValue.mk 2 20], capacity := 2 },
           protected_seg := { kv_list := [KeyValue.mk 9 90], capacity := 1 } } :
          SlruCache Nat Nat).protected_seg.capacity ∧
    SlruCache.set
      ({ probation_seg := { kv_list := [KeyValue.mk 1 10, KeyValue.mk 2 20], capacity := 2 },
         protected_seg := { kv_list := [KeyValue.mk 9 90], capacity := 1 } } :
        SlruCache Nat Nat) 1 99 =
      if (1 : Nat) + 1 > 1 then
        { probation_seg := { kv_list :=
            (([KeyValue.mk 9 90] : List (KeyValue Nat Nat)).getLast?.toList ++
              eraseByKey (fun x : KeyValue Nat Nat => x.key)
                [KeyValue.mk 1 10, KeyValue.mk 2 20] 1), capacity := 2 },
          protected_seg := { kv_list :=
            (KeyValue.mk 1 99 ::
              ([KeyValue.mk 9 90] : List (KeyValue Nat Nat)).dropLast), capacity := 1 } }
      else
        { probation_seg := { kv_list :=
            (eraseByKey (fun x : KeyValue Nat Nat => x.key)
              [KeyValue.mk 1 10, KeyValue.mk 2 20] 1), capacity := 2 },
          protected_seg := { kv_list :=
            (KeyValue.mk 1 99 :: [KeyValue.mk 9 90]), capacity := 1 } } :=
  ⟨by decide, by decide, by decide,
    slru_set_probation_hit _ 1 99 (KeyValue.mk 1 10) (by decide) (by decide) (by decide)⟩

/-! ## C7 — the LFU touch protocol

`LfuCache::_touch` moves a hit entry from its frequency node `src` to
the node of frequency `src->frequency + 1` (when that frequency is not
saturated), reusing the successor node when it already has that
frequency and creating a new node right after `src` otherwise; `src` is
dropped exactly when its bucket empties.  `get` and `set` on a present
key both go through `_touch`. -/

/-- C7: on every hit — `get(k)`, or `set(k,v)` with `k` present — whose
entry sits in the bucket of a frequency node `nd` of unsaturated
frequency: if the successor node exists and its frequency is exactly
`nd.frequency + 1`, the entry is spliced to the back of that node's
bucket and no new node is created; otherwise a new node of frequency
`nd.frequency + 1` holding just the entry is inserted immediately after
`nd`; in either case `nd` itself survives exactly when its bucket stays
non-empty.  `get` keeps the entry's value and `set` overwrites it, both
through `touchList`. -/
theorem lfu_touch_protocol {K V : Type} [DecidableEq K] (c : LfuCache K V)
    (k : K) (v : V) (pre post : List (FrequencyNode K V)) (nd : FrequencyNode K V)
    (it : KeyValue K V) (newValue : Option V)
    (hc : c.frequency_list = pre ++ nd :: post)
    (hpre : ∀ nd' ∈ pre, findByKey (fun x : KeyValue K V => x.key) nd'.items k = none)
    (hit : findByKey (fun x : KeyValue K V => x.key) nd.items k = some it)
    (hf : nd.frequency ≠ LfuCache.sizeTMax) :
    LfuCache.touchList k newValue c.frequency_list =
      pre ++
        ((if (eraseByKey (fun x : KeyValue K V => x.key) nd.items k).isEmpty then []
          else [{ nd with items := eraseByKey (fun x : KeyValue K V => x.key) nd.items k }]) ++
         (match post with
          | succ :: rest1 =>
              if succ.frequency = nd.frequency + 1 then
                { succ with items :=
                    (succ.items ++ [{ it with value := newValue.getD it.value }]) } :: rest1
              else
                { frequency := nd.frequency + 1,
                  items := [{ it with value := newValue.getD it.value }] } :: succ :: rest1
          | [] => [{ frequency := nd.frequency + 1,
                     items := [{ it with value := newValue.getD it.value }] }])) ∧
    (LfuCache.get c k).1 = some it.value ∧
    (LfuCache.get c k).2.frequency_list = LfuCache.touchList k none c.frequency_list ∧
    (LfuCache.set c k v).frequency_list =
      LfuCache.touchList k (some v) c.frequency_list := by
  have hfreq : LfuCache.next_node_frequency nd.frequency = nd.frequency + 1 := by
    unfold LfuCache.next_node_frequency
    rw [if_neg hf]
  have base : ∀ nv : Option V,
      LfuCache.touchList k nv (nd :: post) =
        (if (eraseByKey (fun x : KeyValue K V => x.key) nd.items k).isEmpty then []
         else [{ nd with items := eraseByKey (fun x : KeyValue K V => x.key) nd.items k }]) ++
        (match post with
         | succ :: rest1 =>
             if succ.frequency = nd.frequency + 1 then
               { succ with items :=
                   (succ.items ++ [{ it with value := nv.getD it.value }]) } :: rest1
             else
               { frequency := nd.frequency + 1,
                 items := [{ it with value := nv.getD it.value }] } :: succ :: rest1
         | [] => [{ frequency := nd.frequency + 1,
                    items := [{ it with value := nv.getD it.value }] }]) := by
    intro nv
    cases post with
    | nil =>
      simp only [LfuCache.touchList, hit, hfreq]
      rw [if_pos (Nat.lt_succ_self _)]
    | cons succ rest1 =>
      by_cases hsf : succ.frequency = nd.frequency + 1
      · simp only [LfuCache.touchList, hit, hfreq, if_pos hsf]
      · simp only [LfuCache.touchList, hit, hfreq, if_neg hsf]
  have lift : ∀ (nv : Option V) (l : List (FrequencyNode K V)),
      (∀ nd' ∈ l, findByKey (fun x : KeyValue K V => x.key) nd'.items k = none) →
      LfuCache.touchList k nv (l ++ nd :: post) =
        l ++ LfuCache.touchList k nv (nd :: post) := by
    intro nv l
    generalize hT : LfuCache.touchList k nv (nd :: post) = T
    induction l with
    | nil =>
      intro _
      simp only [List.nil_append]
      exact hT
    | cons p l ih =>
      intro hl
      rw [List.cons_append]
      simp only [LfuCache.touchList, hl p (List.mem_cons_self p l)]
      rw [ih (fun nd' h => hl nd' (List.mem_cons_of_mem p h)), List.cons_append]
  have hfind_aux : ∀ l : List (FrequencyNode K V),
      (∀ nd' ∈ l, findByKey (fun x : KeyValue K V => x.key) nd'.items k = none) →
      (l ++ nd :: post).findSome?
        (fun n => findByKey (fun x : KeyValue K V => x.key) n.items k) = some it := by
    intro l
    induction l with
    | nil =>
      intro _
      simp only [List.nil_append, List.findSome?_cons, hit]
    | cons p l ih =>
      intro hl
      simp only [List.cons_append, List.findSome?_cons, hl p (List.mem_cons_self p l)]
      exact ih fun nd' h => hl nd' (List.mem_cons_of_mem p h)
  have hfind : LfuCache.findItem c k = some it := by
    unfold LfuCache.findItem
    rw [hc]
    exact hfind_aux pre hpre
  refine ⟨?_, ?_, ?_, ?_⟩
  · rw [hc, lift newValue pre hpre, base newValue]
  · simp only [LfuCache.get, hfind]
  · simp only [LfuCache.get, hfind]
  · unfold LfuCache.set
    rw [hfind]
    rfl

theorem lfu_touch_protocol_witness :
    (findByKey (fun x : KeyValue Nat Nat => x.key)
        [KeyValue.mk 5 50, KeyValue.mk 2 20] 2 = some (KeyValue.mk 2 20)) ∧
    (FrequencyNode.mk 2 [KeyValue.mk 5 50, KeyValue.mk 2 20] :
        FrequencyNode Nat Nat).frequency ≠ LfuCache.sizeTMax ∧
    LfuCache.touchList 2 (some 99)
        ({ frequency_list := [FrequencyNode.mk 1 [KeyValue.mk 7 70],
            FrequencyNode.mk 2 [KeyValue.mk 5 50, KeyValue.mk 2 20],
            FrequencyNode.mk 3 [KeyValue.mk 8 80]], capacity := 5 } :
          LfuCache Nat Nat).frequency_list =
      [FrequencyNode.mk 1 [KeyValue.mk 7 70], FrequencyNode.mk 2 [KeyValue.mk 5 50],
       FrequencyNode.mk 3 [KeyValue.mk 8 80, KeyValue.mk 2 99]] ∧
    (LfuCache.get
        ({ frequency_list := [FrequencyNode.mk 1 [KeyValue.mk 7 70],
            FrequencyNode.mk 2 [KeyValue.mk 5 50, KeyValue.mk 2 20],
            FrequencyNode.mk 3 [KeyValue.mk 8 80]], capacity := 5 } :
          LfuCache Nat Nat) 2).1 = some 20 ∧
    (LfuCache.get
        ({ frequency_list := [FrequencyNode.mk 1 [KeyValue.mk 7 70],
            FrequencyNode.mk 2 [KeyValue.mk 5 50, KeyValue.mk 2 20],
            FrequencyNode.mk 3 [KeyValue.mk 8 80]], capacity := 5 } :
          LfuCache Nat Nat) 2).2.frequency_list =
      LfuCache.touchList 2 none
        ({ frequency_list := [FrequencyNode.mk 1 [KeyValue.mk 7 70],
            FrequencyNode.mk 2 [KeyValue.mk 5 50, KeyValue.mk 2 20],
            FrequencyNode.mk 3 [KeyValue.mk 8 80]], capacity := 5 } :
          LfuCache Nat Nat).frequency_list ∧
    (LfuCache.set
        ({ frequency_list := [FrequencyNode.mk 1 [KeyValue.mk 7 70],
            FrequencyNode.mk 2 [KeyValue.mk 5 50, KeyValue.mk 2 20],
            FrequencyNode.mk 3 [KeyValue.mk 8 80]], capacity := 5 } :
          LfuCache Nat Nat) 2 99).frequency_list =
      LfuCache.touchList 2 (some 99)
        ({ frequency_list := [FrequencyNode.mk 1 [KeyValue.mk 7 70],
            FrequencyNode.mk 2 [KeyValue.mk 5 50, KeyValue.mk 2 20],
            FrequencyNode.mk 3 [KeyValue.mk 8 80]], capacity := 5 } :
          LfuCache Nat Nat).frequency_list := by
  have h := lfu_touch_protocol
      ({ frequency_list := [FrequencyNode.mk 1 [KeyValue.mk 7 70],
          FrequencyNode.mk 2 [KeyValue.mk 5 50, KeyValue.mk 2 20],
          FrequencyNode.mk 3 [KeyValue.mk 8 80]], capacity := 5 } : LfuCache Nat Nat)
      2 99 [FrequencyNode.mk 1 [KeyValue.mk 7 70]]
      [FrequencyNode.mk 3 [KeyValue.mk 8 80]]
      (FrequencyNode.mk 2 [KeyValue.mk 5 50, KeyValue.mk 2 20])
      (KeyValue.mk 2 20) (some 99) rfl (by decide) (by decide) (by decide)
  exact ⟨by decide, by decide, h.1.trans (by decide), h.2.1, h.2.2.1, h.2.2.2⟩

/-! ## Set-then-get machinery

For each cache: its own `set(k,v)` leaves `residentValue` at `k` equal
to `some v` (or `none` when the insertion itself overflowed a
degenerate zero capacity), operations addressing other keys never
change the value held for `k` (they can only evict it), and `get`
returns the resident value.  The C9 theorem at the end combines the
four caches. -/

section SetThenGetHelpers

variable {K A : Type} [DecidableEq K] {f : A → K}

theorem findByKey_append (xs ys : List A) (k : K) :
    findByKey f (xs ++ ys) k =
      match findByKey f xs k with
      | some a => some a
      | none => findByKey f ys k := by
  induction xs with
  | nil => rfl
  | cons b xs ih =>
    by_cases hb : f b = k
    · simp [findByKey, hb]
    · simp [findByKey, hb, ih]

theorem mem_of_mem_eraseByKey {l : List A} {k : K} {a : A}
    (h : a ∈ eraseByKey f l k) : a ∈ l :=
  (eraseByKey_sublist l k).subset h

theorem eraseByKey_append_of_none {xs : List A} (ys : List A)
    {k : K} (h : findByKey f xs k = none) :
    eraseByKey f (xs ++ ys) k = xs ++ eraseByKey f ys k := by
  induction xs with
  | nil => rfl
  | cons b xs ih =>
    rw [findByKey] at h
    split at h
    · cases h
    · rw [List.cons_append, eraseByKey, if_neg (by assumption), ih h, List.cons_append]

theorem eraseByKey_append_of_some {xs : List A} (ys : List A)
    {k : K} {a : A} (h : findByKey f xs k = some a) :
    eraseByKey f (xs ++ ys) k = eraseByKey f xs k ++ ys := by
  induction xs with
  | nil => cases h
  | cons b xs ih =>
    rw [findByKey] at h
    by_cases hb : f b = k
    · rw [List.cons_append, eraseByKey, if_pos hb, eraseByKey, if_pos hb]
    · rw [if_neg hb] at h
      rw [List.cons_append, eraseByKey, if_neg hb, eraseByKey, if_neg hb, ih h,
        List.cons_append]

theorem findByKey_cons_ne {x : A} {l : List A} {k : K} (h : f x ≠ k) :
    findByKey f (x :: l) k = findByKey f l k := by
  rw [findByKey, if_neg h]

theorem mem_modifyByKey {g : A → A} {l : List A} {k0 : K} {x : A}
    (hx : x ∈ modifyByKey f g l k0) :
    x ∈ l ∨ ∃ a, a ∈ l ∧ f a = k0 ∧ x = g a := by
  induction l with
  | nil => simpa [modifyByKey] using hx
  | cons b l ih =>
    rw [modifyByKey] at hx
    by_cases hb : f b = k0
    · rw [if_pos hb] at hx
      rcases List.mem_cons.mp hx with h | h
      · exact Or.inr ⟨b, List.mem_cons_self _ _, hb, h⟩
      · exact Or.inl (List.mem_cons_of_mem _ h)
    · rw [if_neg hb] at hx
      rcases List.mem_cons.mp hx with h | h
      · exact Or.inl (h ▸ List.mem_cons_self _ _)
      · rcases ih h with h' | ⟨a, ha, hfa, he⟩
        · exact Or.inl (List.mem_cons_of_mem _ h')
        · exact Or.inr ⟨a, List.mem_cons_of_mem _ ha, hfa, he⟩

theorem nodup_cons_eraseByKey {l : List A} {k : K} {a : A}
    (hnd : (l.map f).Nodup) (ha : f a = k) :
    ((a :: eraseByKey f l k).map f).Nodup := by
  rw [List.map_cons, List.nodup_cons, ha]
  exact ⟨not_mem_map_eraseByKey hnd,
    List.Nodup.sublist ((eraseByKey_sublist l k).map f) hnd⟩

theorem findByKey_iff_mem_nodup {l : List A} (hnd : (l.map f).Nodup) {k : K} {a : A} :
    findByKey f l k = some a ↔ a ∈ l ∧ f a = k :=
  ⟨findByKey_some, fun h => findByKey_eq_of_mem_nodup h.1 h.2 hnd⟩

theorem mem_eraseByKey_of_key_ne {l : List A} {k : K} {a : A}
    (ha : a ∈ l) (hne : f a ≠ k) : a ∈ eraseByKey f l k := by
  induction l with
  | nil => cases ha
  | cons b l ih =>
    rw [eraseByKey]
    by_cases hb : f b = k
    · rw [if_pos hb]
      rcases List.mem_cons.mp ha with h | h
      · rw [h] at hne
        exact absurd hb hne
      · exact h
    · rw [if_neg hb]
      rcases List.mem_cons.mp ha with h | h
      · rw [h]
        exact List.mem_cons_self _ _
      · exact List.mem_cons_of_mem _ (ih h)

end SetThenGetHelpers

section SetThenGetLru

variable {K V : Type} [DecidableEq K]

/-- `LruCache::get` returns exactly the resident value. -/
theorem lru_get_resident (c : LruCacheImpl K V) (k : K) :
    (LruCache.get c k).1 = LruCache.residentValue c k := by
  unfold LruCache.get LruCacheImpl.get LruCache.residentValue
  cases h : findByKey (fun x : KeyValue K V => x.key) c.kv_list k <;> simp [h]

/-- After `LruCache::set(k,v)` the cache holds `v` for `k`, unless the
insertion itself fell out of a zero-capacity list. -/
theorem lru_set_resident (c : LruCacheImpl K V) (k : K) (v : V) :
    LruCache.residentValue (LruCache.set c k v) k = some v ∨
    LruCache.residentValue (LruCache.set c k v) k = none := by
  unfold LruCache.set
  by_cases h : (findByKey (fun x : KeyValue K V => x.key) c.kv_list k).isSome
  · rw [if_pos h]
    left
    obtain ⟨kv, hkv⟩ := Option.isSome_iff_exists.mp h
    unfold LruCacheImpl.update
    rw [hkv]
    unfold LruCache.residentValue
    rw [findByKey, if_pos rfl]
    rfl
  · rw [if_neg h]
    simp only [LruCacheImpl.add]
    by_cases hlen : (KeyValue.mk k v :: c.kv_list).length > c.capacity
    · rw [if_pos hlen]
      unfold LruCache.residentValue
      dsimp only
      cases c.kv_list with
      | nil =>
        right
        rfl
      | cons b t =>
        left
        rw [show (KeyValue.mk k v :: b :: t).dropLast =
          KeyValue.mk k v :: (b :: t).dropLast from rfl]
        rw [findByKey, if_pos rfl]
        rfl
    · rw [if_neg hlen]
      left
      unfold LruCache.residentValue
      dsimp only
      rw [findByKey, if_pos rfl]
      rfl

/-- Operations on other keys never change the value an LRU cache holds
for `k` (they can only evict the entry). -/
theorem lru_step_value (c : LruCacheImpl K V) (op : CacheOp K V) (k : K) (w : V)
    (hne : op.key ≠ k)
    (h : LruCache.residentValue (LruCache.step c op) k = some w) :
    LruCache.residentValue c k = some w := by
  cases op with
  | set k' v' =>
    have hne' : k' ≠ k := hne
    have h1 : LruCache.residentValue (LruCache.set c k' v') k = some w := h
    unfold LruCache.set at h1
    by_cases hf : (findByKey (fun x : KeyValue K V => x.key) c.kv_list k').isSome
    · rw [if_pos hf] at h1
      obtain ⟨kv, hkv⟩ := Option.isSome_iff_exists.mp hf
      unfold LruCacheImpl.update at h1
      rw [hkv] at h1
      unfold LruCache.residentValue at h1 ⊢
      dsimp only at h1
      rw [findByKey, if_neg hne', findByKey_eraseByKey_ne (Ne.symm hne')] at h1
      exact h1
    · rw [if_neg hf] at h1
      simp only [LruCacheImpl.add] at h1
      unfold LruCache.residentValue at h1 ⊢
      by_cases hlen : (KeyValue.mk k' v' :: c.kv_list).length > c.capacity
      · rw [if_pos hlen] at h1
        dsimp only at h1
        cases hfd : findByKey (fun x : KeyValue K V => x.key)
            (KeyValue.mk k' v' :: c.kv_list).dropLast k with
        | none => rw [hfd] at h1; cases h1
        | some a =>
          rw [hfd] at h1
          have ha := findByKey_of_isPrefix (List.dropLast_prefix _) hfd
          rw [findByKey, if_neg hne'] at ha
          rw [ha]
          exact h1
      · rw [if_neg hlen] at h1
        dsimp only at h1
        rw [findByKey, if_neg hne'] at h1
        exact h1
  | get k' =>
    have hne' : k' ≠ k := hne
    have h1 : LruCache.residentValue (LruCache.get c k').2 k = some w := h
    unfold LruCache.get LruCacheImpl.get at h1
    cases hf : findByKey (fun x : KeyValue K V => x.key) c.kv_list k' with
    | none =>
      rw [hf] at h1
      exact h1
    | some kv =>
      rw [hf] at h1
      unfold LruCacheImpl.touch at h1
      unfold LruCache.residentValue at h1 ⊢
      dsimp only at h1
      rw [findByKey_touchByKey_ne (Ne.symm hne')] at h1
      exact h1
  | del k' =>
    have hne' : k' ≠ k := hne
    have h1 : LruCache.residentValue (LruCache.del c k') k = some w := h
    unfold LruCache.del LruCacheImpl.del at h1
    unfold LruCache.residentValue at h1 ⊢
    dsimp only at h1
    rw [findByKey_eraseByKey_ne (Ne.symm hne')] at h1
    exact h1

end SetThenGetLru

section SetThenGetLfu

variable {K V : Type} [DecidableEq K]

theorem allItems_nil : LfuCache.allItems ([] : List (FrequencyNode K V)) = [] := rfl

theorem allItems_cons (nd : FrequencyNode K V) (rest : List (FrequencyNode K V)) :
    LfuCache.allItems (nd :: rest) = nd.items ++ LfuCache.allItems rest := by
  unfold LfuCache.allItems
  rw [List.map_cons, List.flatten_cons]

theorem allItems_append (a b : List (FrequencyNode K V)) :
    LfuCache.allItems (a ++ b) = LfuCache.allItems a ++ LfuCache.allItems b := by
  unfold LfuCache.allItems
  rw [List.map_append, List.flatten_append]

/-- The `_key_map` lookup is the first entry with the key in
frequency-then-bucket order. -/
theorem lfu_findItem_eq (c : LfuCache K V) (k : K) :
    LfuCache.findItem c k =
      findByKey (fun x : KeyValue K V => x.key) (LfuCache.allItems c.frequency_list) k := by
  unfold LfuCache.findItem
  generalize c.frequency_list = fl
  induction fl with
  | nil => rfl
  | cons nd rest ih =>
    cases hnd : findByKey (fun x : KeyValue K V => x.key) nd.items k with
    | none =>
      simp only [List.findSome?_cons, allItems_cons, findByKey_append, hnd]
      exact ih
    | some a =>
      simp only [List.findSome?_cons, allItems_cons, findByKey_append, hnd]

/-- `WF` said on the flattened entry list. -/
theorem lfu_wf_iff (c : LfuCache K V) :
    LfuCache.WF c ↔
      ((LfuCache.allItems c.frequency_list).map fun x : KeyValue K V => x.key).Nodup := by
  unfold LfuCache.WF LfuCache.keys LfuCache.allItems
  rw [List.map_flatten, List.map_map]
  rfl

theorem lfu_allItems_src1 (nd : FrequencyNode K V) (k : K) :
    LfuCache.allItems
      (if (eraseByKey (fun x : KeyValue K V => x.key) nd.items k).isEmpty then []
       else [{ nd with items := eraseByKey (fun x : KeyValue K V => x.key) nd.items k }]) =
      eraseByKey (fun x : KeyValue K V => x.key) nd.items k := by
  by_cases he : (eraseByKey (fun x : KeyValue K V => x.key) nd.items k).isEmpty
  · rw [if_pos he]
    rw [List.isEmpty_iff] at he
    rw [he]
    rfl
  · rw [if_neg he, allItems_cons, allItems_nil, List.append_nil]

/-- `_touch` permutes the entry multiset: the touched entry (value
possibly overwritten) moves, everything else stays. -/
theorem lfu_allItems_touch (k : K) (nv : Option V) :
    ∀ (fl : List (FrequencyNode K V)) (it : KeyValue K V),
      findByKey (fun x : KeyValue K V => x.key) (LfuCache.allItems fl) k = some it →
      List.Perm (LfuCache.allItems (LfuCache.touchList k nv fl))
        ({ it with value := nv.getD it.value } ::
          eraseByKey (fun x : KeyValue K V => x.key) (LfuCache.allItems fl) k) := by
  intro fl
  induction fl with
  | nil => intro it h; cases h
  | cons nd rest ih =>
    intro it h
    rw [allItems_cons, findByKey_append] at h
    cases hnd : findByKey (fun x : KeyValue K V => x.key) nd.items k with
    | none =>
      simp only [hnd] at h
      simp only [LfuCache.touchList, hnd]
      rw [allItems_cons nd (LfuCache.touchList k nv rest), allItems_cons nd rest,
        eraseByKey_append_of_none _ hnd]
      exact (List.Perm.append_left nd.items (ih it h)).trans List.perm_middle
    | some it0 =>
      simp only [hnd] at h
      injection h with h0
      cases h0
      cases rest with
      | nil =>
        simp only [LfuCache.touchList, hnd]
        rw [allItems_cons nd [], eraseByKey_append_of_some _ hnd]
        by_cases hgt : LfuCache.next_node_frequency nd.frequency > nd.frequency
        · rw [if_pos hgt, allItems_append, lfu_allItems_src1, allItems_cons, allItems_nil,
            List.append_nil, List.append_nil]
          exact List.perm_append_singleton _ _
        · rw [if_neg hgt, allItems_cons, allItems_nil, List.append_nil, List.append_nil]
          exact List.perm_append_singleton _ _
      | cons succ rest1 =>
        simp only [LfuCache.touchList, hnd]
        rw [allItems_cons nd (succ :: rest1), eraseByKey_append_of_some _ hnd]
        by_cases hsf : succ.frequency = LfuCache.next_node_frequency nd.frequency
        · rw [if_pos hsf, allItems_append, lfu_allItems_src1, allItems_cons,
            allItems_cons succ rest1]
          have he : eraseByKey (fun x : KeyValue K V => x.key) nd.items k ++
              ((succ.items ++ [{ it with value := nv.getD it.value }]) ++
                LfuCache.allItems rest1) =
              (eraseByKey (fun x : KeyValue K V => x.key) nd.items k ++ succ.items) ++
                ({ it with value := nv.getD it.value } :: LfuCache.allItems rest1) := by
            simp [List.append_assoc]
          rw [he]
          exact List.perm_middle.trans (List.Perm.of_eq (by rw [List.append_assoc]))
        · rw [if_neg hsf, allItems_append, lfu_allItems_src1, allItems_cons,
            allItems_cons succ rest1]
          exact List.perm_middle

/-- `del` erases exactly the entry with the key from the flattened entry
list. -/
theorem lfu_allItems_del (k : K) :
    ∀ fl : List (FrequencyNode K V),
      LfuCache.allItems (LfuCache.delList k fl) =
        eraseByKey (fun x : KeyValue K V => x.key) (LfuCache.allItems fl) k := by
  intro fl
  induction fl with
  | nil => rfl
  | cons nd rest ih =>
    cases hnd : findByKey (fun x : KeyValue K V => x.key) nd.items k with
    | none =>
      simp only [LfuCache.delList, hnd, Option.isSome_none, Bool.false_eq_true, if_false]
      rw [allItems_cons, allItems_cons nd rest, eraseByKey_append_of_none _ hnd, ih]
    | some a =>
      simp only [LfuCache.delList, hnd, Option.isSome_some, if_true]
      rw [allItems_cons nd rest, eraseByKey_append_of_some _ hnd]
      by_cases he : (eraseByKey (fun x : KeyValue K V => x.key) nd.items k).isEmpty
      · rw [if_pos he]
        rw [List.isEmpty_iff] at he
        rw [he, List.nil_append]
      · rw [if_neg he, allItems_cons]

/-- `_evict` only removes entries. -/
theorem lfu_allItems_evict (c : LfuCache K V) :
    (LfuCache.allItems (LfuCache.evict c).frequency_list).Sublist
      (LfuCache.allItems c.frequency_list) := by
  obtain ⟨fl, cap⟩ := c
  cases fl with
  | nil => exact List.Sublist.refl _
  | cons nd rest =>
    obtain ⟨freq, items⟩ := nd
    cases items with
    | nil =>
      simp only [LfuCache.evict]
      rw [allItems_cons]
      exact List.sublist_append_right _ _
    | cons x items1 =>
      simp only [LfuCache.evict]
      by_cases he : items1.isEmpty
      · rw [if_pos he]
        rw [allItems_cons]
        exact List.sublist_append_right _ _
      · rw [if_neg he]
        rw [allItems_cons, allItems_cons]
        exact List.Sublist.append_right (List.sublist_cons_self x items1) _

/-- `set` on an absent key: the new entry joins the (possibly evicted)
entry list at the frequency-1 bucket. -/
theorem lfu_set_absent_perm (c : LfuCache K V) (k' : K) (v' : V)
    (hfi : LfuCache.findItem c k' = none) :
    List.Perm (LfuCache.allItems (LfuCache.set c k' v').frequency_list)
      (KeyValue.mk k' v' ::
        LfuCache.allItems
          (if c.is_full then LfuCache.evict c else c).frequency_list) := by
  unfold LfuCache.set
  simp only [hfi, Option.isSome_none, Bool.false_eq_true, if_false]
  cases hfl : (if c.is_full then LfuCache.evict c else c).frequency_list with
  | nil =>
    simp only [hfl]
    simp [LfuCache.allItems]
  | cons nd rest =>
    simp only [hfl]
    by_cases h1 : nd.frequency = 1
    · rw [if_pos h1, allItems_cons, allItems_cons nd rest]
      have he : (nd.items ++ [KeyValue.mk k' v']) ++ LfuCache.allItems rest =
          nd.items ++ (KeyValue.mk k' v' :: LfuCache.allItems rest) := by
        simp [List.append_assoc]
      rw [he]
      exact List.perm_middle
    · rw [if_neg h1, allItems_cons]
      exact List.Perm.refl _

/-- `get` returns exactly the resident value. -/
theorem lfu_get_resident (c : LfuCache K V) (k : K) :
    (LfuCache.get c k).1 = LfuCache.residentValue c k := by
  unfold LfuCache.get LfuCache.residentValue
  cases h : LfuCache.findItem c k <;> simp [h]

theorem lfu_touch_WF (c : LfuCache K V) (k' : K) (nv : Option V) {it : KeyValue K V}
    (hfind : findByKey (fun x : KeyValue K V => x.key)
      (LfuCache.allItems c.frequency_list) k' = some it)
    (hwf : LfuCache.WF c) :
    ((LfuCache.allItems (LfuCache.touchList k' nv c.frequency_list)).map
      fun x : KeyValue K V => x.key).Nodup := by
  have hperm := List.Perm.map (fun x : KeyValue K V => x.key)
    (lfu_allItems_touch k' nv c.frequency_list it hfind)
  rw [List.Perm.nodup_iff hperm]
  exact nodup_cons_eraseByKey ((lfu_wf_iff c).mp hwf) (findByKey_some hfind).2

/-- Well-formedness (global key uniqueness) is preserved by every LFU
operation. -/
theorem lfu_step_WF (c : LfuCache K V) (op : CacheOp K V) (hwf : LfuCache.WF c) :
    LfuCache.WF (LfuCache.step c op) := by
  cases op with
  | set k' v' =>
    show LfuCache.WF (LfuCache.set c k' v')
    cases hfi : LfuCache.findItem c k' with
    | some it =>
      have hfind : findByKey (fun x : KeyValue K V => x.key)
          (LfuCache.allItems c.frequency_list) k' = some it := by
        rw [← lfu_findItem_eq]; exact hfi
      have hset : (LfuCache.set c k' v').frequency_list =
          LfuCache.touchList k' (some v') c.frequency_list := by
        unfold LfuCache.set
        rw [hfi]
        rfl
      rw [lfu_wf_iff, hset]
      exact lfu_touch_WF c k' (some v') hfind hwf
    | none =>
      have hc1 : ((LfuCache.allItems
          (if c.is_full then LfuCache.evict c else c).frequency_list).map
          fun x : KeyValue K V => x.key).Nodup := by
        by_cases hful : c.is_full
        · rw [if_pos hful]
          exact List.Nodup.sublist ((lfu_allItems_evict c).map _) ((lfu_wf_iff c).mp hwf)
        · rw [if_neg hful]
          exact (lfu_wf_iff c).mp hwf
      have hnone : findByKey (fun x : KeyValue K V => x.key)
          (LfuCache.allItems c.frequency_list) k' = none := by
        rw [← lfu_findItem_eq]; exact hfi
      have hknot : k' ∉ (LfuCache.allItems
          (if c.is_full then LfuCache.evict c else c).frequency_list).map
          (fun x : KeyValue K V => x.key) := by
        intro hmem
        apply findByKey_none_not_mem hnone
        by_cases hful : c.is_full
        · rw [if_pos hful] at hmem
          exact (List.Sublist.map _ (lfu_allItems_evict c)).subset hmem
        · rw [if_neg hful] at hmem
          exact hmem
      rw [lfu_wf_iff]
      have hperm := List.Perm.map (fun x : KeyValue K V => x.key)
        (lfu_set_absent_perm c k' v' hfi)
      rw [List.Perm.nodup_iff hperm, List.map_cons]
      exact List.nodup_cons.mpr ⟨hknot, hc1⟩
  | get k' =>
    show LfuCache.WF (LfuCache.get c k').2
    cases hfi : LfuCache.findItem c k' with
    | none =>
      have hc : (LfuCache.get c k').2 = c := by
        unfold LfuCache.get
        rw [hfi]
      rw [hc]
      exact hwf
    | some it =>
      have hfind : findByKey (fun x : KeyValue K V => x.key)
          (LfuCache.allItems c.frequency_list) k' = some it := by
        rw [← lfu_findItem_eq]; exact hfi
      have h2 : (LfuCache.get c k').2.frequency_list =
          LfuCache.touchList k' none c.frequency_list := by
        unfold LfuCache.get
        rw [hfi]
      rw [lfu_wf_iff, h2]
      exact lfu_touch_WF c k' none hfind hwf
  | del k' =>
    show LfuCache.WF (LfuCache.del c k')
    rw [lfu_wf_iff]
    have hd : (LfuCache.del c k').frequency_list =
        LfuCache.delList k' c.frequency_list := rfl
    rw [hd, lfu_allItems_del]
    exact List.Nodup.sublist ((eraseByKey_sublist _ _).map _) ((lfu_wf_iff c).mp hwf)

theorem lfu_touch_value (c : LfuCache K V) (k' k : K) (nv : Option V) (w : V)
    {it : KeyValue K V} (hne : k' ≠ k)
    (hfind : findByKey (fun x : KeyValue K V => x.key)
      (LfuCache.allItems c.frequency_list) k' = some it)
    (hwf : LfuCache.WF c)
    (h : (findByKey (fun x : KeyValue K V => x.key)
      (LfuCache.allItems (LfuCache.touchList k' nv c.frequency_list)) k).map
        (fun x : KeyValue K V => x.value) = some w) :
    LfuCache.residentValue c k = some w := by
  cases hfk : findByKey (fun x : KeyValue K V => x.key)
      (LfuCache.allItems (LfuCache.touchList k' nv c.frequency_list)) k with
  | none => rw [hfk] at h; cases h
  | some a =>
    rw [hfk] at h
    obtain ⟨ha, hak⟩ := findByKey_some hfk
    have ha' := (lfu_allItems_touch k' nv c.frequency_list it hfind).mem_iff.mp ha
    rcases List.mem_cons.mp ha' with he | he
    · exfalso
      apply hne
      rw [he] at hak
      rw [← (findByKey_some hfind).2]
      exact hak
    · have hmem2 := mem_of_mem_eraseByKey he
      unfold LfuCache.residentValue
      rw [lfu_findItem_eq,
        findByKey_eq_of_mem_nodup hmem2 hak ((lfu_wf_iff c).mp hwf)]
      exact h

/-- Operations addressing other keys never change the value an LFU cache
holds for `k` (they can only evict the entry). -/
theorem lfu_step_value (c : LfuCache K V) (op : CacheOp K V) (k : K) (w : V)
    (hne : op.key ≠ k) (hwf : LfuCache.WF c)
    (h : LfuCache.residentValue (LfuCache.step c op) k = some w) :
    LfuCache.residentValue c k = some w := by
  cases op with
  | set k' v' =>
    have hne' : k' ≠ k := hne
    have h1 : LfuCache.residentValue (LfuCache.set c k' v') k = some w := h
    cases hfi : LfuCache.findItem c k' with
    | some it =>
      have hfind : findByKey (fun x : KeyValue K V => x.key)
          (LfuCache.allItems c.frequency_list) k' = some it := by
        rw [← lfu_findItem_eq]; exact hfi
      have hset : (LfuCache.set c k' v').frequency_list =
          LfuCache.touchList k' (some v') c.frequency_list := by
        unfold LfuCache.set
        rw [hfi]
        rfl
      unfold LfuCache.residentValue at h1
      rw [lfu_findItem_eq, hset] at h1
      exact lfu_touch_value c k' k (some v') w hne' hfind hwf h1
    | none =>
      unfold LfuCache.residentValue at h1
      rw [lfu_findItem_eq] at h1
      cases hfk : findByKey (fun x : KeyValue K V => x.key)
          (LfuCache.allItems (LfuCache.set c k' v').frequency_list) k with
      | none => rw [hfk] at h1; cases h1
      | some a =>
        rw [hfk] at h1
        obtain ⟨ha, hak⟩ := findByKey_some hfk
        have ha' := (lfu_set_absent_perm c k' v' hfi).mem_iff.mp ha
        rcases List.mem_cons.mp ha' with he | he
        · exfalso
          apply hne'
          rw [he] at hak
          exact hak
        · have hmem2 : a ∈ LfuCache.allItems c.frequency_list := by
            by_cases hful : c.is_full
            · rw [if_pos hful] at he
              exact (lfu_allItems_evict c).subset he
            · rw [if_neg hful] at he
              exact he
          unfold LfuCache.residentValue
          rw [lfu_findItem_eq,
            findByKey_eq_of_mem_nodup hmem2 hak ((lfu_wf_iff c).mp hwf)]
          exact h1
  | get k' =>
    have hne' : k' ≠ k := hne
    have h1 : LfuCache.residentValue (LfuCache.get c k').2 k = some w := h
    cases hfi : LfuCache.findItem c k' with
    | none =>
      have hc : (LfuCache.get c k').2 = c := by
        unfold LfuCache.get
        rw [hfi]
      rw [hc] at h1
      exact h1
    | some it =>
      have hfind : findByKey (fun x : KeyValue K V => x.key)
          (LfuCache.allItems c.frequency_list) k' = some it := by
        rw [← lfu_findItem_eq]; exact hfi
      have h2 : (LfuCache.get c k').2.frequency_list =
          LfuCache.touchList k' none c.frequency_list := by
        unfold LfuCache.get
        rw [hfi]
      unfold LfuCache.residentValue at h1
      rw [lfu_findItem_eq, h2] at h1
      exact lfu_touch_value c k' k none w hne' hfind hwf h1
  | del k' =>
    have hne' : k' ≠ k := hne
    have h1 : LfuCache.residentValue (LfuCache.del c k') k = some w := h
    unfold LfuCache.residentValue at h1 ⊢
    rw [lfu_findItem_eq] at h1 ⊢
    have hd : (LfuCache.del c k').frequency_list =
        LfuCache.delList k' c.frequency_list := rfl
    rw [hd, lfu_allItems_del, findByKey_eraseByKey_ne (Ne.symm hne')] at h1
    exact h1

/-- After `LfuCache::set(k,v)` the cache holds `v` for `k`. -/
theorem lfu_set_resident (c : LfuCache K V) (k : K) (v : V) (hwf : LfuCache.WF c) :
    LfuCache.residentValue (LfuCache.set c k v) k = some v := by
  have hwf' : LfuCache.WF (LfuCache.set c k v) := lfu_step_WF c (CacheOp.set k v) hwf
  cases hfi : LfuCache.findItem c k with
  | some it =>
    have hfind : findByKey (fun x : KeyValue K V => x.key)
        (LfuCache.allItems c.frequency_list) k = some it := by
      rw [← lfu_findItem_eq]; exact hfi
    have hset : (LfuCache.set c k v).frequency_list =
        LfuCache.touchList k (some v) c.frequency_list := by
      unfold LfuCache.set
      rw [hfi]
      rfl
    unfold LfuCache.residentValue
    rw [lfu_findItem_eq, hset]
    have hperm := lfu_allItems_touch k (some v) c.frequency_list it hfind
    have hnd' := lfu_touch_WF c k (some v) hfind hwf
    have hmem : ({ it with value := (some v).getD it.value } : KeyValue K V) ∈
        LfuCache.allItems (LfuCache.touchList k (some v) c.frequency_list) :=
      hperm.mem_iff.mpr (List.mem_cons_self _ _)
    rw [findByKey_eq_of_mem_nodup hmem (findByKey_some hfind).2 hnd']
    rfl
  | none =>
    unfold LfuCache.residentValue
    rw [lfu_findItem_eq]
    have hperm := lfu_set_absent_perm c k v hfi
    have hmem : KeyValue.mk k v ∈ LfuCache.allItems (LfuCache.set c k v).frequency_list :=
      hperm.mem_iff.mpr (List.mem_cons_self _ _)
    rw [findByKey_eq_of_mem_nodup hmem rfl ((lfu_wf_iff _).mp hwf')]
    rfl

end SetThenGetLfu

section SetThenGetSlru

variable {K V : Type} [DecidableEq K]

/-- `_move_from_probation_to_protected`, described: splice the found
entry to the head of the protected segment; if that overflows `cQ`,
splice the protected tail back to the head of probation. -/
theorem slru_move_desc (c : SlruCache K V) (k' : K) (kv : KeyValue K V)
    (hp : findByKey (fun x : KeyValue K V => x.key) c.probation_seg.kv_list k' = some kv)
    (hcap : 1 ≤ c.protected_seg.capacity) :
    SlruCache.move_from_probation_to_protected c k' =
      if c.protected_seg.kv_list.length + 1 > c.protected_seg.capacity then
        { probation_seg := { c.probation_seg with kv_list :=
            (c.protected_seg.kv_list.getLast?.toList ++
              eraseByKey (fun x : KeyValue K V => x.key) c.probation_seg.kv_list k') },
          protected_seg := { c.protected_seg with kv_list :=
            (kv :: c.protected_seg.kv_list.dropLast) } }
      else
        { probation_seg := { c.probation_seg with kv_list :=
            (eraseByKey (fun x : KeyValue K V => x.key) c.probation_seg.kv_list k') },
          protected_seg := { c.protected_seg with kv_list :=
            (kv :: c.protected_seg.kv_list) } } := by
  unfold SlruCache.move_from_probation_to_protected LruCacheImpl.move_item
  rw [hp]
  unfold LruCacheImpl.is_full
  simp only [List.length_cons]
  by_cases hfull : c.protected_seg.kv_list.length + 1 > c.protected_seg.capacity
  · rw [if_pos (by simpa using hfull), if_pos hfull]
    obtain hnil | ⟨l, a, hconc⟩ := c.protected_seg.kv_list.eq_nil_or_concat
    · rw [hnil] at hfull
      simp at hfull
      omega
    · rw [List.concat_eq_append] at hconc
      rw [hconc]
      unfold LruCacheImpl.move_lru_item
      rw [← List.cons_append, List.getLast?_concat, List.dropLast_concat,
        List.getLast?_concat]
      simp
  · rw [if_neg (by simpa using hfull), if_neg hfull]

/-- Promotion preserves SLRU well-formedness. -/
theorem slru_move_WF (c : SlruCache K V) (k' : K) (kv : KeyValue K V)
    (hq : findByKey (fun x : KeyValue K V => x.key) c.protected_seg.kv_list k' = none)
    (hp : findByKey (fun x : KeyValue K V => x.key) c.probation_seg.kv_list k' = some kv)
    (hcap : 1 ≤ c.protected_seg.capacity) (hwf : SlruCache.WF c) :
    SlruCache.WF (SlruCache.move_from_probation_to_protected c k') := by
  have hkey : kv.key = k' := (findByKey_some hp).2
  have hknq : k' ∉ c.protected_seg.kv_list.map (fun x : KeyValue K V => x.key) :=
    findByKey_none_not_mem hq
  rw [slru_move_desc c k' kv hp hcap]
  by_cases hfull : c.protected_seg.kv_list.length + 1 > c.protected_seg.capacity
  · rw [if_pos hfull]
    obtain hnil | ⟨l, a, hconc⟩ := c.protected_seg.kv_list.eq_nil_or_concat
    · rw [hnil] at hfull
      simp at hfull
      omega
    · rw [List.concat_eq_append] at hconc
      have hQnd := hwf.protected_nodup
      rw [hconc] at hQnd
      have hanl : a.key ∉ l.map (fun x : KeyValue K V => x.key) := by
        have hmid : ((l ++ a :: ([] : List (KeyValue K V))).map
            (fun x : KeyValue K V => x.key)).Nodup := by simpa using hQnd
        have := nodup_map_middle (f := fun x : KeyValue K V => x.key) hmid
        simpa using this.1
      have haQ : a.key ∈ c.protected_seg.kv_list.map (fun x : KeyValue K V => x.key) := by
        rw [hconc]
        exact List.mem_map_of_mem _ (by simp)
      have hanp : a.key ∉ c.probation_seg.kv_list.map (fun x : KeyValue K V => x.key) := by
        intro hmem
        exact hwf.disjoint a.key hmem haQ
      rw [hconc]
      rw [List.getLast?_concat, List.dropLast_concat]
      constructor
      · -- probation: a :: eraseByKey probation k'
        simp only [Option.toList_some, List.singleton_append, List.map_cons, List.nodup_cons]
        constructor
        · intro hmem
          exact hanp (((eraseByKey_sublist _ _).map _).subset hmem)
        · exact List.Nodup.sublist ((eraseByKey_sublist _ _).map _) hwf.probation_nodup
      · -- protected: kv :: l
        simp only [List.map_cons, List.nodup_cons, hkey]
        constructor
        · intro hmem
          apply hknq
          rw [hconc, List.map_append]
          exact List.mem_append_left _ hmem
        · exact List.Nodup.sublist (((List.sublist_append_left l [a]).map _)) hQnd
      · -- disjoint
        intro x hx
        simp only [Option.toList_some, List.singleton_append, List.map_cons,
          List.mem_cons] at hx
        simp only [List.map_cons, List.mem_cons, hkey]
        rcases hx with hx | hx
        · subst hx
          intro hx'
          rcases hx' with hx' | hx'
          · exact hknq (hx' ▸ haQ)
          · exact hanl hx'
        · have hxp : x ∈ c.probation_seg.kv_list.map (fun y : KeyValue K V => y.key) :=
            ((eraseByKey_sublist _ _).map _).subset hx
          intro hmem
          rcases hmem with hx' | hx'
          · exact absurd (hx' ▸ hx) (not_mem_map_eraseByKey hwf.probation_nodup)
          · apply hwf.disjoint x hxp
            rw [hconc, List.map_append]
            exact List.mem_append_left _ hx'
  · rw [if_neg hfull]
    constructor
    · exact List.Nodup.sublist ((eraseByKey_sublist _ _).map _) hwf.probation_nodup
    · simp only [List.map_cons, List.nodup_cons, hkey]
      exact ⟨hknq, hwf.protected_nodup⟩
    · intro x hx
      have hxp : x ∈ c.probation_seg.kv_list.map (fun y : KeyValue K V => y.key) :=
        ((eraseByKey_sublist _ _).map _).subset hx
      simp only [List.map_cons, List.mem_cons, hkey]
      intro hmem
      rcases hmem with hx' | hx'
      · exact absurd (hx' ▸ hx) (not_mem_map_eraseByKey hwf.probation_nodup)
      · exact hwf.disjoint x hxp hx'

/-- Promotion of another key never changes the value held for `k`. -/
theorem slru_move_value (c : SlruCache K V) (k' k : K) (w : V) (kv : KeyValue K V)
    (hne : k' ≠ k)
    (hp : findByKey (fun x : KeyValue K V => x.key) c.probation_seg.kv_list k' = some kv)
    (hcap : 1 ≤ c.protected_seg.capacity) (hwf : SlruCache.WF c)
    (h : SlruCache.residentValue (SlruCache.move_from_probation_to_protected c k') k =
      some w) :
    SlruCache.residentValue c k = some w := by
  have hkey : kv.key = k' := (findByKey_some hp).2
  have hkvne : (fun x : KeyValue K V => x.key) kv ≠ k := fun hh => hne (hkey ▸ hh)
  rw [slru_move_desc c k' kv hp hcap] at h
  by_cases hfull : c.protected_seg.kv_list.length + 1 > c.protected_seg.capacity
  · rw [if_pos hfull] at h
    obtain hnil | ⟨l, a, hconc⟩ := c.protected_seg.kv_list.eq_nil_or_concat
    · rw [hnil] at hfull
      simp at hfull
      omega
    · rw [List.concat_eq_append] at hconc
      rw [hconc, List.getLast?_concat, List.dropLast_concat] at h
      unfold SlruCache.residentValue at h ⊢
      dsimp only at h
      simp only [Option.toList_some, List.singleton_append] at h
      cases hpk : findByKey (fun x : KeyValue K V => x.key) (kv :: l) k with
      | some x =>
        simp only [hpk] at h
        have hxl : findByKey (fun y : KeyValue K V => y.key) l k = some x := by
          rw [findByKey_cons_ne hkvne] at hpk
          exact hpk
        have hxQ : findByKey (fun y : KeyValue K V => y.key)
            c.protected_seg.kv_list k = some x := by
          rw [hconc]
          exact findByKey_of_isPrefix ⟨[a], rfl⟩ hxl
        simp only [hxQ]
        exact h
      | none =>
        simp only [hpk] at h
        by_cases hak : (fun x : KeyValue K V => x.key) a = k
        · rw [findByKey, if_pos hak] at h
          have haQ2 : findByKey (fun y : KeyValue K V => y.key)
              c.protected_seg.kv_list k = some a := by
            apply findByKey_eq_of_mem_nodup _ hak hwf.protected_nodup
            rw [hconc]
            exact List.mem_append_right _ (by simp)
          simp only [haQ2]
          simpa using h
        · rw [findByKey, if_neg hak, findByKey_eraseByKey_ne (Ne.symm hne)] at h
          have hQnone : findByKey (fun y : KeyValue K V => y.key)
              c.protected_seg.kv_list k = none := by
            rw [findByKey_eq_none]
            intro b hb
            rw [hconc] at hb
            rcases List.mem_append.mp hb with hb | hb
            · exact findByKey_eq_none.mp hpk b (List.mem_cons_of_mem _ hb)
            · have hb' : b = a := by simpa using hb
              rw [hb']
              exact hak
          simp only [hQnone]
          exact h
  · rw [if_neg hfull] at h
    unfold SlruCache.residentValue at h ⊢
    dsimp only at h
    rw [findByKey_cons_ne hkvne, findByKey_eraseByKey_ne (Ne.symm hne)] at h
    exact h

/-- Overwriting the value at the protected head keeps well-formedness
(the key layout is unchanged). -/
theorem slru_wf_overwrite (c : SlruCache K V) (kv0 : KeyValue K V)
    (rest : List (KeyValue K V)) (v' : V)
    (hpl : c.protected_seg.kv_list = kv0 :: rest) (hwf : SlruCache.WF c) :
    SlruCache.WF { c with protected_seg := { c.protected_seg with
      kv_list := (KeyValue.mk kv0.key v' :: rest) } } := by
  constructor
  · exact hwf.probation_nodup
  · have hh := hwf.protected_nodup
    rw [hpl] at hh
    simpa using hh
  · intro x hx
    have hh := hwf.disjoint x hx
    rw [hpl] at hh
    simpa using hh

/-- `SlruCache::get` returns exactly the resident value. -/
theorem slru_get_resident (c : SlruCache K V) (k : K)
    (hcap : 1 ≤ c.protected_seg.capacity) :
    (SlruCache.get c k).1 = SlruCache.residentValue c k := by
  unfold SlruCache.get LruCacheImpl.get SlruCache.residentValue
  cases hq : findByKey (fun x : KeyValue K V => x.key) c.protected_seg.kv_list k with
  | some kv => simp only [hq]
  | none =>
    simp only [hq]
    cases hp : findByKey (fun x : KeyValue K V => x.key) c.probation_seg.kv_list k with
    | none =>
      simp [hp]
    | some kvp =>
      simp only [hp, Option.isSome_some, if_true]
      rw [slru_move_desc c k kvp hp hcap]
      by_cases hfull : c.protected_seg.kv_list.length + 1 > c.protected_seg.capacity
      · rw [if_pos hfull]
        simp
      · rw [if_neg hfull]
        simp

/-- After `SlruCache::set(k,v)` the cache holds `v` for `k`, unless the
insertion itself fell out of a degenerate zero-capacity probation
segment. -/
theorem slru_set_resident (c : SlruCache K V) (k : K) (v : V)
    (hcap : 1 ≤ c.protected_seg.capacity) :
    SlruCache.residentValue (SlruCache.set c k v) k = some v ∨
    SlruCache.residentValue (SlruCache.set c k v) k = none := by
  unfold SlruCache.set
  cases hq : findByKey (fun x : KeyValue K V => x.key) c.protected_seg.kv_list k with
  | some kv0 =>
    left
    simp only [hq, Option.isSome_some, if_true]
    unfold LruCacheImpl.update
    rw [hq]
    unfold SlruCache.residentValue
    dsimp only
    rw [findByKey, if_pos rfl]
  | none =>
    simp only [hq, Option.isSome_none, Bool.false_eq_true, if_false]
    cases hp : findByKey (fun x : KeyValue K V => x.key) c.probation_seg.kv_list k with
    | some kvp =>
      left
      simp only [hp, Option.isSome_some, if_true]
      rw [slru_move_desc c k kvp hp hcap]
      by_cases hfull : c.protected_seg.kv_list.length + 1 > c.protected_seg.capacity
      · rw [if_pos hfull]
        unfold SlruCache.residentValue
        dsimp only
        rw [findByKey, if_pos ((findByKey_some hp).2)]
      · rw [if_neg hfull]
        unfold SlruCache.residentValue
        dsimp only
        rw [findByKey, if_pos ((findByKey_some hp).2)]
    | none =>
      simp only [hp, Option.isSome_none, Bool.false_eq_true, if_false]
      unfold LruCacheImpl.add SlruCache.residentValue
      dsimp only
      simp only [hq]
      by_cases hlen :
          (KeyValue.mk k v :: c.probation_seg.kv_list).length > c.probation_seg.capacity
      · rw [if_pos hlen]
        cases c.probation_seg.kv_list with
        | nil =>
          right
          rfl
        | cons b t =>
          left
          rw [show (KeyValue.mk k v :: b :: t).dropLast =
            KeyValue.mk k v :: (b :: t).dropLast from rfl]
          rw [findByKey, if_pos rfl]
          rfl
      · rw [if_neg hlen]
        left
        rw [findByKey, if_pos rfl]
        rfl

/-- No operation changes the protected sub-capacity. -/
theorem slru_step_caps (c : SlruCache K V) (op : CacheOp K V) :
    (SlruCache.step c op).protected_seg.capacity = c.protected_seg.capacity := by
  cases op with
  | set k v =>
    show (SlruCache.set c k v).protected_seg.capacity = _
    unfold SlruCache.set SlruCache.move_from_probation_to_protected
      LruCacheImpl.update LruCacheImpl.add LruCacheImpl.move_item
      LruCacheImpl.move_lru_item
    dsimp only
    repeat' split
    all_goals rfl
  | get k =>
    show (SlruCache.get c k).2.protected_seg.capacity = _
    unfold SlruCache.get LruCacheImpl.get
    cases hq : findByKey (fun x : KeyValue K V => x.key) c.protected_seg.kv_list k with
    | some kv =>
      simp only [hq]
      rfl
    | none =>
      simp only [hq]
      cases hp : findByKey (fun x : KeyValue K V => x.key) c.probation_seg.kv_list k with
      | none => simp [hp]
      | some kvp =>
        simp only [hp, Option.isSome_some, if_true]
        unfold SlruCache.move_from_probation_to_protected LruCacheImpl.move_item
          LruCacheImpl.move_lru_item
        dsimp only
        repeat' split
        all_goals rfl
  | del k =>
    show (SlruCache.del c k).protected_seg.capacity = _
    unfold SlruCache.del LruCacheImpl.del
    repeat' split
    all_goals rfl

/-- Well-formedness is preserved by every SLRU operation. -/
theorem slru_step_WF (c : SlruCache K V) (op : CacheOp K V)
    (hcap : 1 ≤ c.protected_seg.capacity) (hwf : SlruCache.WF c) :
    SlruCache.WF (SlruCache.step c op) := by
  cases op with
  | set k' v' =>
    show SlruCache.WF (SlruCache.set c k' v')
    unfold SlruCache.set
    cases hq : findByKey (fun x : KeyValue K V => x.key) c.protected_seg.kv_list k' with
    | some kv0 =>
      simp only [hq, Option.isSome_some, if_true]
      unfold LruCacheImpl.update
      rw [hq]
      have hk'Q : k' ∈ c.protected_seg.kv_list.map (fun x : KeyValue K V => x.key) :=
        (findByKey_some hq).2 ▸ List.mem_map_of_mem _ (findByKey_some hq).1
      constructor
      · exact hwf.probation_nodup
      · exact nodup_cons_eraseByKey hwf.protected_nodup rfl
      · intro x hx
        simp only [List.map_cons, List.mem_cons]
        intro hmem
        rcases hmem with hx' | hx'
        · exact hwf.disjoint x hx (show x ∈ _ by rw [show x = k' from hx']; exact hk'Q)
        · exact hwf.disjoint x hx (((eraseByKey_sublist _ _).map _).subset hx')
    | none =>
      simp only [hq, Option.isSome_none, Bool.false_eq_true, if_false]
      cases hp : findByKey (fun x : KeyValue K V => x.key) c.probation_seg.kv_list k' with
      | some kvp =>
        simp only [hp, Option.isSome_some, if_true]
        have hwfm := slru_move_WF c k' kvp hq hp hcap hwf
        rw [slru_move_desc c k' kvp hp hcap] at hwfm ⊢
        by_cases hfull : c.protected_seg.kv_list.length + 1 > c.protected_seg.capacity
        · rw [if_pos hfull] at hwfm ⊢
          exact slru_wf_overwrite _ kvp _ v' rfl hwfm
        · rw [if_neg hfull] at hwfm ⊢
          exact slru_wf_overwrite _ kvp _ v' rfl hwfm
      | none =>
        simp only [hp, Option.isSome_none, Bool.false_eq_true, if_false]
        unfold LruCacheImpl.add
        have hnd : ((KeyValue.mk k' v' :: c.probation_seg.kv_list).map
            fun x : KeyValue K V => x.key).Nodup := by
          rw [List.map_cons]
          exact List.nodup_cons.mpr ⟨findByKey_none_not_mem hp, hwf.probation_nodup⟩
        constructor
        · dsimp only
          by_cases hlen : (KeyValue.mk k' v' :: c.probation_seg.kv_list).length >
              c.probation_seg.capacity
          · rw [if_pos hlen]
            exact List.Nodup.sublist ((List.dropLast_sublist _).map _) hnd
          · rw [if_neg hlen]
            exact hnd
        · exact hwf.protected_nodup
        · intro x hx
          have hx2 : x ∈ (KeyValue.mk k' v' :: c.probation_seg.kv_list).map
              (fun y : KeyValue K V => y.key) := by
            dsimp only at hx
            by_cases hlen : (KeyValue.mk k' v' :: c.probation_seg.kv_list).length >
                c.probation_seg.capacity
            · rw [if_pos hlen] at hx
              exact ((List.dropLast_sublist _).map _).subset hx
            · rw [if_neg hlen] at hx
              exact hx
          simp only [List.map_cons, List.mem_cons] at hx2
          rcases hx2 with hx' | hx'
          · rw [show x = k' from hx']
            exact findByKey_none_not_mem hq
          · exact hwf.disjoint x hx'
  | get k' =>
    show SlruCache.WF (SlruCache.get c k').2
    unfold SlruCache.get LruCacheImpl.get
    cases hq : findByKey (fun x : KeyValue K V => x.key) c.protected_seg.kv_list k' with
    | some kv0 =>
      simp only [hq]
      have hperm := List.Perm.map (fun x : KeyValue K V => x.key)
        (touchByKey_perm (f := fun x : KeyValue K V => x.key)
          c.protected_seg.kv_list k')
      constructor
      · exact hwf.probation_nodup
      · exact (List.Perm.nodup_iff hperm).mpr hwf.protected_nodup
      · intro x hx hmem
        exact hwf.disjoint x hx ((List.Perm.mem_iff hperm).mp hmem)
    | none =>
      simp only [hq]
      cases hp : findByKey (fun x : KeyValue K V => x.key) c.probation_seg.kv_list k' with
      | some kvp =>
        simp only [hp, Option.isSome_some, if_true]
        exact slru_move_WF c k' kvp hq hp hcap hwf
      | none =>
        simp only [hp, Option.isSome_none, Bool.false_eq_true, if_false]
        exact hwf
  | del k' =>
    show SlruCache.WF (SlruCache.del c k')
    unfold SlruCache.del
    by_cases hp : (findByKey (fun x : KeyValue K V => x.key)
        c.probation_seg.kv_list k').isSome
    · rw [if_pos hp]
      unfold LruCacheImpl.del
      constructor
      · exact List.Nodup.sublist ((eraseByKey_sublist _ _).map _) hwf.probation_nodup
      · exact hwf.protected_nodup
      · intro x hx
        exact hwf.disjoint x (((eraseByKey_sublist _ _).map _).subset hx)
    · rw [if_neg hp]
      unfold LruCacheImpl.del
      constructor
      · exact hwf.probation_nodup
      · exact List.Nodup.sublist ((eraseByKey_sublist _ _).map _) hwf.protected_nodup
      · intro x hx hmem
        exact hwf.disjoint x hx (((eraseByKey_sublist _ _).map _).subset hmem)

/-- Operations addressing other keys never change the value an SLRU
cache holds for `k` (they can only evict the entry). -/
theorem slru_step_value (c : SlruCache K V) (op : CacheOp K V) (k : K) (w : V)
    (hne : op.key ≠ k) (hcap : 1 ≤ c.protected_seg.capacity) (hwf : SlruCache.WF c)
    (h : SlruCache.residentValue (SlruCache.step c op) k = some w) :
    SlruCache.residentValue c k = some w := by
  cases op with
  | set k' v' =>
    have hne' : k' ≠ k := hne
    have h1 : SlruCache.residentValue (SlruCache.set c k' v') k = some w := h
    unfold SlruCache.set at h1
    cases hq : findByKey (fun x : KeyValue K V => x.key) c.protected_seg.kv_list k' with
    | some kv0 =>
      simp only [hq, Option.isSome_some, if_true] at h1
      unfold LruCacheImpl.update at h1
      rw [hq] at h1
      unfold SlruCache.residentValue at h1 ⊢
      dsimp only at h1
      rw [findByKey_cons_ne
          (show (fun x : KeyValue K V => x.key) (KeyValue.mk k' v') ≠ k from hne'),
        findByKey_eraseByKey_ne (Ne.symm hne')] at h1
      exact h1
    | none =>
      simp only [hq, Option.isSome_none, Bool.false_eq_true, if_false] at h1
      cases hp : findByKey (fun x : KeyValue K V => x.key)
          c.probation_seg.kv_list k' with
      | some kvp =>
        simp only [hp, Option.isSome_some, if_true] at h1
        have hkvpne : (fun x : KeyValue K V => x.key) kvp ≠ k :=
          fun hh => hne' ((findByKey_some hp).2 ▸ hh)
        apply slru_move_value c k' k w kvp hne' hp hcap hwf
        rw [slru_move_desc c k' kvp hp hcap] at h1 ⊢
        by_cases hfull : c.protected_seg.kv_list.length + 1 > c.protected_seg.capacity
        · rw [if_pos hfull] at h1 ⊢
          unfold SlruCache.residentValue at h1 ⊢
          dsimp only at h1 ⊢
          rw [findByKey_cons_ne
            (show (fun x : KeyValue K V => x.key) (KeyValue.mk kvp.key v') ≠ k
              from hkvpne)] at h1
          rw [findByKey_cons_ne hkvpne]
          exact h1
        · rw [if_neg hfull] at h1 ⊢
          unfold SlruCache.residentValue at h1 ⊢
          dsimp only at h1 ⊢
          rw [findByKey_cons_ne
            (show (fun x : KeyValue K V => x.key) (KeyValue.mk kvp.key v') ≠ k
              from hkvpne)] at h1
          rw [findByKey_cons_ne hkvpne]
          exact h1
      | none =>
        simp only [hp, Option.isSome_none, Bool.false_eq_true, if_false] at h1
        unfold LruCacheImpl.add at h1
        unfold SlruCache.residentValue at h1 ⊢
        dsimp only at h1
        cases hqk : findByKey (fun x : KeyValue K V => x.key)
            c.protected_seg.kv_list k with
        | some kv2 =>
          simp only [hqk] at h1 ⊢
          exact h1
        | none =>
          simp only [hqk] at h1 ⊢
          by_cases hlen : (KeyValue.mk k' v' :: c.probation_seg.kv_list).length >
              c.probation_seg.capacity
          · rw [if_pos hlen] at h1
            cases hfd : findByKey (fun x : KeyValue K V => x.key)
                (KeyValue.mk k' v' :: c.probation_seg.kv_list).dropLast k with
            | none => rw [hfd] at h1; cases h1
            | some a =>
              rw [hfd] at h1
              have ha := findByKey_of_isPrefix (List.dropLast_prefix _) hfd
              rw [findByKey_cons_ne
                (show (fun x : KeyValue K V => x.key) (KeyValue.mk k' v') ≠ k
                  from hne')] at ha
              rw [ha]
              exact h1
          · rw [if_neg hlen] at h1
            rw [findByKey_cons_ne
              (show (fun x : KeyValue K V => x.key) (KeyValue.mk k' v') ≠ k
                from hne')] at h1
            exact h1
  | get k' =>
    have hne' : k' ≠ k := hne
    have h1 : SlruCache.residentValue (SlruCache.get c k').2 k = some w := h
    unfold SlruCache.get LruCacheImpl.get at h1
    cases hq : findByKey (fun x : KeyValue K V => x.key) c.protected_seg.kv_list k' with
    | some kv0 =>
      simp only [hq] at h1
      unfold SlruCache.residentValue at h1 ⊢
      unfold LruCacheImpl.touch at h1
      dsimp only at h1
      rw [findByKey_touchByKey_ne (f := fun x : KeyValue K V => x.key)
        (Ne.symm hne')] at h1
      exact h1
    | none =>
      simp only [hq] at h1
      cases hp : findByKey (fun x : KeyValue K V => x.key)
          c.probation_seg.kv_list k' with
      | some kvp =>
        simp only [hp, Option.isSome_some, if_true] at h1
        exact slru_move_value c k' k w kvp hne' hp hcap hwf h1
      | none =>
        simp only [hp, Option.isSome_none, Bool.false_eq_true, if_false] at h1
        exact h1
  | del k' =>
    have hne' : k' ≠ k := hne
    have h1 : SlruCache.residentValue (SlruCache.del c k') k = some w := h
    unfold SlruCache.del at h1
    by_cases hp : (findByKey (fun x : KeyValue K V => x.key)
        c.probation_seg.kv_list k').isSome
    · rw [if_pos hp] at h1
      unfold LruCacheImpl.del at h1
      unfold SlruCache.residentValue at h1 ⊢
      dsimp only at h1
      rw [findByKey_eraseByKey_ne (Ne.symm hne')] at h1
      exact h1
    · rw [if_neg hp] at h1
      unfold LruCacheImpl.del at h1
      unfold SlruCache.residentValue at h1 ⊢
      dsimp only at h1
      rw [findByKey_eraseByKey_ne (Ne.symm hne')] at h1
      exact h1

end SetThenGetSlru

section SetThenGetLirs

variable {K V : Type} [DecidableEq K]

open LirsCache

theorem mem_sPairs {s : List (SItem K V)} {k : K} {w : V} :
    (k, w) ∈ sPairs s ↔ ∃ it, it ∈ s ∧ it.key = k ∧ it.sval = SVal.lir w := by
  unfold sPairs
  rw [List.mem_filterMap]
  constructor
  · rintro ⟨it, hit, hf⟩
    refine ⟨it, hit, ?_⟩
    cases hsv : it.sval with
    | lir v =>
      rw [hsv] at hf
      simp only [Option.some.injEq, Prod.mk.injEq] at hf
      exact ⟨hf.1, by rw [hf.2]⟩
    | hir => rw [hsv] at hf; cases hf
    | hirNr => rw [hsv] at hf; cases hf
  · rintro ⟨it, hit, hk, hsv⟩
    exact ⟨it, hit, by rw [hsv, hk]⟩

theorem mem_qPairs {q : List (KeyValue K V)} {k : K} {w : V} :
    (k, w) ∈ qPairs q ↔ ∃ kv, kv ∈ q ∧ kv.key = k ∧ kv.value = w := by
  unfold qPairs
  rw [List.mem_map]
  constructor
  · rintro ⟨kv, hkv, hf⟩
    simp only [Prod.mk.injEq] at hf
    exact ⟨kv, hkv, hf.1, hf.2⟩
  · rintro ⟨kv, hkv, hk, hv⟩
    exact ⟨kv, hkv, by rw [hk, hv]⟩

/-- Under the invariant, `residentValue` reads exactly the resident
pair with the key. -/
theorem lirs_resident_char (c : LirsCache K V) (hInv : Inv c) (k : K) (w : V) :
    residentValue c k = some w ↔ (k, w) ∈ residents c := by
  unfold residentValue residents
  constructor
  · intro h
    cases hf : findS c k with
    | some it =>
      simp only [hf] at h
      cases hsv : it.sval with
      | lir v =>
        simp only [hsv] at h
        injection h with h
        subst h
        exact List.mem_append_left _ (mem_sPairs.mpr
          ⟨it, (findByKey_some hf).1, (findByKey_some hf).2, hsv⟩)
      | hir =>
        simp only [hsv] at h
        cases hfq : findQ c k with
        | none => simp [hfq] at h
        | some qe =>
          simp only [hfq, Option.map_some', Option.some.injEq] at h
          exact List.mem_append_right _ (mem_qPairs.mpr
            ⟨qe, (findByKey_some hfq).1, (findByKey_some hfq).2, h⟩)
      | hirNr => simp [hsv] at h
    | none =>
      simp only [hf] at h
      cases hfq : findQ c k with
      | none => simp [hfq] at h
      | some qe =>
        simp only [hfq, Option.map_some', Option.some.injEq] at h
        exact List.mem_append_right _ (mem_qPairs.mpr
          ⟨qe, (findByKey_some hfq).1, (findByKey_some hfq).2, h⟩)
  · intro h
    rcases List.mem_append.mp h with h | h
    · obtain ⟨it, hit, hk, hsv⟩ := mem_sPairs.mp h
      have hf : findS c k = some it :=
        findByKey_eq_of_mem_nodup hit hk hInv.s_nodup
      simp only [hf, hsv]
    · obtain ⟨kv, hkv, hk, hv⟩ := mem_qPairs.mp h
      have hfq : findQ c k = some kv :=
        findByKey_eq_of_mem_nodup hkv hk hInv.q_nodup
      have hkQ : k ∈ c.list_q.map (fun x : KeyValue K V => x.key) := by
        rw [← hk]
        exact List.mem_map_of_mem _ hkv
      cases hf : findS c k with
      | some it =>
        have hsv : it.sval = SVal.hir :=
          hInv.q_in_s_hir it (findByKey_some hf).1 ((findByKey_some hf).2 ▸ hkQ)
        simp only [hf, hsv, hfq, Option.map_some', hv]
      | none =>
        simp only [hf, hfq, Option.map_some', hv]

theorem sPairs_subset_of_sublist {s' s : List (SItem K V)} (h : s'.Sublist s) :
    ∀ p ∈ sPairs s', p ∈ sPairs s :=
  fun p hp => (h.filterMap _).subset hp

theorem qPairs_subset_of_sublist {q' q : List (KeyValue K V)} (h : q'.Sublist q) :
    ∀ p ∈ qPairs q', p ∈ qPairs q :=
  fun p hp => (h.map _).subset hp

/-- Modifying the entry at key `k0` cannot create LIR pairs at other
keys. -/
theorem mem_sPairs_modify {g : SItem K V → SItem K V}
    (hg : ∀ a, (g a).key = a.key) {s : List (SItem K V)} {k0 : K} {p : K × V}
    (hp : p ∈ sPairs (modifyByKey (fun x : SItem K V => x.key) g s k0))
    (hne : p.1 ≠ k0) : p ∈ sPairs s := by
  obtain ⟨pk, pw⟩ := p
  obtain ⟨it, hit, hk, hsv⟩ := mem_sPairs.mp hp
  rcases mem_modifyByKey hit with h | ⟨a, ha, hfa, he⟩
  · exact mem_sPairs.mpr ⟨it, h, hk, hsv⟩
  · exfalso
    apply hne
    show pk = k0
    rw [← hk, he, hg a]
    exact hfa

/-- Modifying a Q entry's value at key `k0` cannot create pairs at
other keys. -/
theorem mem_qPairs_modify {g : KeyValue K V → KeyValue K V}
    (hg : ∀ a : KeyValue K V, (g a).key = a.key) {q : List (KeyValue K V)} {k0 : K}
    {p : K × V}
    (hp : p ∈ qPairs (modifyByKey (fun x : KeyValue K V => x.key) g q k0))
    (hne : p.1 ≠ k0) : p ∈ qPairs q := by
  obtain ⟨pk, pw⟩ := p
  obtain ⟨kv, hkv, hk, hv⟩ := mem_qPairs.mp hp
  rcases mem_modifyByKey hkv with h | ⟨a, ha, hfa, he⟩
  · exact mem_qPairs.mpr ⟨kv, h, hk, hv⟩
  · exfalso
    apply hne
    show pk = k0
    rw [← hk, he, hg a]
    exact hfa

/-- Pruning only removes resident pairs. -/
theorem residents_prune (c : LirsCache K V) :
    ∀ p ∈ residents (prune_stack_s c), p ∈ residents c := by
  intro p hp
  unfold residents at hp ⊢
  rcases List.mem_append.mp hp with h | h
  · exact List.mem_append_left _
      (sPairs_subset_of_sublist (prune_stack_s_stack_isPrefix c).sublist p h)
  · exact List.mem_append_right _
      (qPairs_subset_of_sublist (prune_stack_s_q_sublist c) p h)

/-- Evicting the LRU HIR block only removes resident pairs. -/
theorem residents_remove_lru_hir (c : LirsCache K V) :
    ∀ p ∈ residents (remove_lru_hir_item c), p ∈ residents c := by
  intro p hp
  unfold remove_lru_hir_item at hp
  cases hql : c.list_q.getLast? with
  | none =>
    simp only [hql] at hp
    exact hp
  | some lru =>
    simp only [hql] at hp
    unfold residents at hp ⊢
    rcases List.mem_append.mp hp with h | h
    · obtain ⟨pk, pw⟩ := p
      obtain ⟨it, hit, hk, hsv⟩ := mem_sPairs.mp h
      rcases mem_modifyByKey hit with h' | ⟨a, _, _, he⟩
      · exact List.mem_append_left _ (mem_sPairs.mpr ⟨it, h', hk, hsv⟩)
      · rw [he] at hsv
        cases hsv
    · exact List.mem_append_right _
        (qPairs_subset_of_sublist (List.dropLast_sublist _) p h)

/-- Demoting the LRU LIR block to Q keeps every resident pair. -/
theorem residents_move_lru_lir (c : LirsCache K V) :
    ∀ p ∈ residents (move_lru_lir_to_list_q c), p ∈ residents c := by
  intro p hp
  unfold move_lru_lir_to_list_q at hp
  dsimp only at hp
  cases hgl : (prune_stack_s c).stack_s.getLast? with
  | none =>
    simp only [hgl] at hp
    exact residents_prune c p hp
  | some it =>
    simp only [hgl] at hp
    cases hsv : it.sval with
    | lir v =>
      simp only [hsv] at hp
      apply residents_prune c
      unfold residents at hp ⊢
      rcases List.mem_append.mp hp with h | h
      · exact List.mem_append_left _
          (sPairs_subset_of_sublist (List.dropLast_sublist _) p h)
      · unfold qPairs at h
        rw [List.map_cons] at h
        rcases List.mem_cons.mp h with h | h
        · apply List.mem_append_left
          rw [h]
          exact mem_sPairs.mpr ⟨it, List.mem_of_getLast?_eq_some hgl, rfl, hsv⟩
        · exact List.mem_append_right _ h
    | hir =>
      simp only [hsv] at hp
      exact residents_prune c p hp
    | hirNr =>
      simp only [hsv] at hp
      exact residents_prune c p hp

theorem mem_sPairs_cons {it0 : SItem K V} {s : List (SItem K V)} {p : K × V}
    (hp : p ∈ sPairs (it0 :: s)) (hne : p.1 ≠ it0.key) : p ∈ sPairs s := by
  obtain ⟨pk, pw⟩ := p
  obtain ⟨it, hit, hk, hsv⟩ := mem_sPairs.mp hp
  rcases List.mem_cons.mp hit with h | h
  · exact absurd (by rw [← hk, h] : (pk, pw).1 = it0.key) hne
  · exact mem_sPairs.mpr ⟨it, h, hk, hsv⟩

theorem mem_sPairs_cons_hir {k0 : K} {s : List (SItem K V)} {p : K × V}
    (hp : p ∈ sPairs (SItem.mk k0 SVal.hir :: s)) : p ∈ sPairs s := by
  obtain ⟨pk, pw⟩ := p
  obtain ⟨it, hit, hk, hsv⟩ := mem_sPairs.mp hp
  rcases List.mem_cons.mp hit with h | h
  · rw [h] at hsv
    cases hsv
  · exact mem_sPairs.mpr ⟨it, h, hk, hsv⟩

theorem mem_qPairs_cons {kv0 : KeyValue K V} {q : List (KeyValue K V)} {p : K × V}
    (hp : p ∈ qPairs (kv0 :: q)) (hne : p.1 ≠ kv0.key) : p ∈ qPairs q := by
  obtain ⟨pk, pw⟩ := p
  obtain ⟨kv, hkv, hk, hv⟩ := mem_qPairs.mp hp
  rcases List.mem_cons.mp hkv with h | h
  · exact absurd (by rw [← hk, h] : (pk, pw).1 = kv0.key) hne
  · exact mem_qPairs.mpr ⟨kv, h, hk, hv⟩

theorem sPairs_touch_modify (k0 : K) (g : SItem K V → SItem K V)
    (hg : ∀ a, (g a).key = a.key) {s : List (SItem K V)} {p : K × V} (hne : p.1 ≠ k0)
    (hp : p ∈ sPairs (touchByKey (fun x : SItem K V => x.key)
      (modifyByKey (fun x : SItem K V => x.key) g s k0) k0)) :
    p ∈ sPairs s := by
  have hperm : List.Perm
      (sPairs (touchByKey (fun x : SItem K V => x.key)
        (modifyByKey (fun x : SItem K V => x.key) g s k0) k0))
      (sPairs (modifyByKey (fun x : SItem K V => x.key) g s k0)) :=
    List.Perm.filterMap _ (touchByKey_perm (f := fun x : SItem K V => x.key) _ k0)
  exact mem_sPairs_modify hg (hperm.mem_iff.mp hp) hne

theorem qPairs_touch_modify (k0 : K) (g : KeyValue K V → KeyValue K V)
    (hg : ∀ a : KeyValue K V, (g a).key = a.key) {q : List (KeyValue K V)} {p : K × V}
    (hne : p.1 ≠ k0)
    (hp : p ∈ qPairs (touchByKey (fun x : KeyValue K V => x.key)
      (modifyByKey (fun x : KeyValue K V => x.key) g q k0) k0)) :
    p ∈ qPairs q := by
  have hperm : List.Perm
      (qPairs (touchByKey (fun x : KeyValue K V => x.key)
        (modifyByKey (fun x : KeyValue K V => x.key) g q k0) k0))
      (qPairs (modifyByKey (fun x : KeyValue K V => x.key) g q k0)) :=
    List.Perm.map _ (touchByKey_perm (f := fun x : KeyValue K V => x.key) _ k0)
  exact mem_qPairs_modify hg (hperm.mem_iff.mp hp) hne

theorem qPairs_touch {k0 : K} {q : List (KeyValue K V)} {p : K × V}
    (hp : p ∈ qPairs (touchByKey (fun x : KeyValue K V => x.key) q k0)) :
    p ∈ qPairs q :=
  (List.Perm.map _ (touchByKey_perm (f := fun x : KeyValue K V => x.key) q k0)).mem_iff.mp
    hp

/-- Operations addressing other keys never create or change the
resident pair at `p.1` — they can only drop it. -/
theorem lirs_step_pairs (c : LirsCache K V) (op : CacheOp K V) (p : K × V)
    (hInv : Inv c) (hne : p.1 ≠ op.key)
    (hp : p ∈ residents (LirsCache.step c op)) : p ∈ residents c := by
  cases op with
  | set k' v' =>
    have hne' : p.1 ≠ k' := hne
    have hp1 : p ∈ residents (LirsCache.set c k' v') := hp
    unfold LirsCache.set at hp1
    cases hfS : findS c k' with
    | some it =>
      simp only [hfS, Option.isSome_some, if_true] at hp1
      unfold update_item_in_stack_s at hp1
      simp only [hfS] at hp1
      cases hsv : it.sval with
      | lir w0 =>
        simp only [hsv] at hp1
        have hp2 := residents_prune _ p hp1
        unfold residents at hp2 ⊢
        dsimp only at hp2
        rcases List.mem_append.mp hp2 with h | h
        · exact List.mem_append_left _
            (sPairs_touch_modify k' (fun it : SItem K V => { it with sval := SVal.lir v' })
              (fun a => rfl) hne' h)
        · exact List.mem_append_right _ h
      | hir =>
        simp only [hsv] at hp1
        have hkq : k' ∈ c.list_q.map (·.key) :=
          (findByKey_some hfS).2 ▸ hInv.hir_in_q it (findByKey_some hfS).1 hsv
        cases hfq : findQ c k' with
        | none => exact absurd hkq (findByKey_none_not_mem hfq)
        | some qe =>
          rw [move_hir_to_stack_s_desc c k' hfq] at hp1
          simp only [setFrontSValue] at hp1
          have hp2 := residents_prune _ p hp1
          split at hp2
          · have hp3 := residents_move_lru_lir _ p hp2
            unfold residents at hp3 ⊢
            dsimp only at hp3
            rcases List.mem_append.mp hp3 with h | h
            · exact List.mem_append_left _ (sPairs_subset_of_sublist
                (eraseByKey_sublist _ _) p (mem_sPairs_cons h hne'))
            · exact List.mem_append_right _
                (qPairs_subset_of_sublist (eraseByKey_sublist _ _) p h)
          · unfold residents at hp2 ⊢
            dsimp only at hp2
            rcases List.mem_append.mp hp2 with h | h
            · exact List.mem_append_left _ (sPairs_subset_of_sublist
                (eraseByKey_sublist _ _) p (mem_sPairs_cons h hne'))
            · exact List.mem_append_right _
                (qPairs_subset_of_sublist (eraseByKey_sublist _ _) p h)
      | hirNr =>
        simp only [hsv] at hp1
        unfold hir_nr_to_lir at hp1
        have hkey : p ∈ residents ({ c with
            stack_s := touchByKey (fun x : SItem K V => x.key)
              (modifyByKey (fun x : SItem K V => x.key)
                (fun it => { it with sval := SVal.lir v' }) c.stack_s k') k',
            lirs_cnt := c.lirs_cnt + 1 } : LirsCache K V) → p ∈ residents c := by
          intro hp'
          unfold residents at hp' ⊢
          dsimp only at hp'
          rcases List.mem_append.mp hp' with h | h
          · exact List.mem_append_left _
              (sPairs_touch_modify k' (fun it : SItem K V => { it with sval := SVal.lir v' })
              (fun a => rfl) hne' h)
          · exact List.mem_append_right _ h
        have hp2 := residents_prune _ p hp1
        split at hp2
        · have hp3 := residents_move_lru_lir _ p hp2
          split at hp3
          · exact hkey (residents_remove_lru_hir _ p hp3)
          · exact hkey hp3
        · exact hkey hp2
    | none =>
      simp only [hfS, Option.isSome_none, Bool.false_eq_true, if_false] at hp1
      cases hfQ : findQ c k' with
      | some qe =>
        simp only [hfQ, Option.isSome_some, if_true] at hp1
        unfold update_item_in_list_q at hp1
        unfold residents at hp1 ⊢
        dsimp only at hp1
        rcases List.mem_append.mp hp1 with h | h
        · exact List.mem_append_left _ (mem_sPairs_cons_hir h)
        · exact List.mem_append_right _
            (qPairs_touch_modify k' (fun kv : KeyValue K V => { kv with value := v' })
              (fun a => rfl) hne' h)
      | none =>
        simp only [hfQ, Option.isSome_none, Bool.false_eq_true, if_false] at hp1
        unfold LirsCache.add at hp1
        split at hp1
        · unfold residents at hp1 ⊢
          dsimp only at hp1
          rcases List.mem_append.mp hp1 with h | h
          · exact List.mem_append_left _ (mem_sPairs_cons h hne')
          · exact List.mem_append_right _ h
        · have key2 : ∀ c0 : LirsCache K V,
              (∀ p' ∈ residents c0, p' ∈ residents c) →
              p ∈ residents ({ c0 with
                list_q := KeyValue.mk k' v' :: c0.list_q,
                stack_s := SItem.mk k' SVal.hir :: c0.stack_s } : LirsCache K V) →
              p ∈ residents c := by
            intro c0 hc0 hp'
            unfold residents at hp'
            dsimp only at hp'
            rcases List.mem_append.mp hp' with h | h
            · exact hc0 p (List.mem_append_left _ (mem_sPairs_cons_hir h))
            · exact hc0 p (List.mem_append_right _ (mem_qPairs_cons h hne'))
          dsimp only at hp1
          split at hp1
          · exact key2 _ (fun p' h' => residents_remove_lru_hir c p' h') hp1
          · exact key2 _ (fun p' h' => h') hp1
  | get k' =>
    have hne' : p.1 ≠ k' := hne
    have hp1 : p ∈ residents (LirsCache.get c k').2 := hp
    cases hfS : findS c k' with
    | some it =>
      cases hsv : it.sval with
      | lir w0 =>
        have hd2 : (LirsCache.get c k').2 =
            prune_stack_s { c with stack_s := touchByKey (·.key) c.stack_s k' } := by
          unfold LirsCache.get
          rw [get_from_stack_s_lir_result c k' hfS hsv]
        rw [hd2] at hp1
        have hp2 := residents_prune _ p hp1
        unfold residents at hp2 ⊢
        dsimp only at hp2
        rcases List.mem_append.mp hp2 with h | h
        · have hperm := List.Perm.filterMap
            (fun it : SItem K V => match it.sval with
              | SVal.lir v => some (it.key, v)
              | _ => none)
            (touchByKey_perm (f := fun x : SItem K V => x.key) c.stack_s k')
          exact List.mem_append_left _ (hperm.mem_iff.mp h)
        · exact List.mem_append_right _ h
      | hir =>
        have hkq : k' ∈ c.list_q.map (·.key) :=
          (findByKey_some hfS).2 ▸ hInv.hir_in_q it (findByKey_some hfS).1 hsv
        cases hfq : findQ c k' with
        | none => exact absurd hkq (findByKey_none_not_mem hfq)
        | some qe =>
          obtain ⟨hv1, hv2⟩ := get_from_stack_s_hir_result c k' hInv hfS hsv hfq
          have hd2 : (LirsCache.get c k').2 = (get_from_stack_s c k').2 := by
            unfold LirsCache.get
            cases hres : get_from_stack_s c k' with
            | mk r1 c1 =>
              rw [hres] at hv1
              dsimp only at hv1
              rw [hv1]
          rw [hd2, hv2] at hp1
          have hp2 := residents_prune _ p hp1
          split at hp2
          · have hp3 := residents_move_lru_lir _ p hp2
            unfold residents at hp3 ⊢
            dsimp only at hp3
            rcases List.mem_append.mp hp3 with h | h
            · exact List.mem_append_left _ (sPairs_subset_of_sublist
                (eraseByKey_sublist _ _) p (mem_sPairs_cons h hne'))
            · exact List.mem_append_right _
                (qPairs_subset_of_sublist (eraseByKey_sublist _ _) p h)
          · unfold residents at hp2 ⊢
            dsimp only at hp2
            rcases List.mem_append.mp hp2 with h | h
            · exact List.mem_append_left _ (sPairs_subset_of_sublist
                (eraseByKey_sublist _ _) p (mem_sPairs_cons h hne'))
            · exact List.mem_append_right _
                (qPairs_subset_of_sublist (eraseByKey_sublist _ _) p h)
      | hirNr =>
        have hd : get_from_stack_s c k' = (none, c) := by
          unfold get_from_stack_s
          simp only [hfS, hsv]
        have hd2 : (LirsCache.get c k').2 = (get_from_list_q c k').2 := by
          unfold LirsCache.get
          rw [hd]
        rw [hd2] at hp1
        unfold get_from_list_q at hp1
        cases hfq : findQ c k' with
        | none =>
          simp only [hfq] at hp1
          exact hp1
        | some qe =>
          simp only [hfq] at hp1
          unfold residents at hp1 ⊢
          dsimp only at hp1
          rcases List.mem_append.mp hp1 with h | h
          · exact List.mem_append_left _ (mem_sPairs_cons_hir h)
          · exact List.mem_append_right _ (qPairs_touch h)
    | none =>
      have hd : get_from_stack_s c k' = (none, c) := by
        unfold get_from_stack_s
        simp only [hfS]
      have hd2 : (LirsCache.get c k').2 = (get_from_list_q c k').2 := by
        unfold LirsCache.get
        rw [hd]
      rw [hd2] at hp1
      unfold get_from_list_q at hp1
      cases hfq : findQ c k' with
      | none =>
        simp only [hfq] at hp1
        exact hp1
      | some qe =>
        simp only [hfq] at hp1
        unfold residents at hp1 ⊢
        dsimp only at hp1
        rcases List.mem_append.mp hp1 with h | h
        · exact List.mem_append_left _ (mem_sPairs_cons_hir h)
        · exact List.mem_append_right _ (qPairs_touch h)
  | del k' =>
    have hne' : p.1 ≠ k' := hne
    have hp1 : p ∈ residents (LirsCache.del c k') := hp
    unfold LirsCache.del at hp1
    cases hfS : findS c k' with
    | some it =>
      simp only [hfS] at hp1
      cases hsv : it.sval with
      | lir w0 =>
        simp only [hsv] at hp1
        unfold residents at hp1 ⊢
        dsimp only at hp1
        rcases List.mem_append.mp hp1 with h | h
        · exact List.mem_append_left _
            (sPairs_subset_of_sublist (eraseByKey_sublist _ _) p h)
        · exact List.mem_append_right _ h
      | hir =>
        simp only [hsv] at hp1
        unfold residents at hp1 ⊢
        dsimp only at hp1
        rcases List.mem_append.mp hp1 with h | h
        · exact List.mem_append_left _
            (sPairs_subset_of_sublist (eraseByKey_sublist _ _) p h)
        · exact List.mem_append_right _
            (qPairs_subset_of_sublist (eraseByKey_sublist _ _) p h)
      | hirNr =>
        simp only [hsv] at hp1
        exact hp1
    | none =>
      simp only [hfS] at hp1
      unfold residents at hp1 ⊢
      dsimp only at hp1
      rcases List.mem_append.mp hp1 with h | h
      · exact List.mem_append_left _ h
      · exact List.mem_append_right _
          (qPairs_subset_of_sublist (eraseByKey_sublist _ _) p h)

/-- Pruning keeps a LIR head, and the resident value then reads it. -/
theorem promoted_nodemote_resident (cA : LirsCache K V) (k : K) (w : V)
    (hstack : cA.stack_s.head? = some (SItem.mk k (SVal.lir w))) :
    residentValue (prune_stack_s cA) k = some w := by
  obtain ⟨tail, ht⟩ := head_eq_of_head_some hstack
  have hpos : 1 ≤ countLir cA.stack_s := by
    rw [ht]
    exact countLir_pos_of_mem (List.mem_cons_self _ _) rfl
  have hh2 := (prune_stack_s_head cA hpos).2
  rw [hstack] at hh2
  obtain ⟨rest, hrest⟩ := head_eq_of_head_some hh2
  unfold residentValue findS
  rw [hrest, findByKey, if_pos rfl]

/-- Demoting the LRU LIR block and pruning still leaves `k` resident
with value `w` when the stack starts with `⟨k, LIR w⟩`: either the head
survives at the top of S, or it was the only LIR entry and its value
moved to the head of Q. -/
theorem promoted_demote_resident (cA : LirsCache K V) (k : K) (w : V)
    (hstack : cA.stack_s.head? = some (SItem.mk k (SVal.lir w))) :
    residentValue (prune_stack_s (move_lru_lir_to_list_q cA)) k = some w := by
  obtain ⟨tail, ht⟩ := head_eq_of_head_some hstack
  have hpos : 1 ≤ countLir cA.stack_s := by
    rw [ht]
    exact countLir_pos_of_mem (List.mem_cons_self _ _) rfl
  obtain ⟨s1, k0, v0, hps, hmv⟩ := move_lru_lir_to_list_q_desc cA hpos
  have hheadP := (prune_stack_s_head cA hpos).2
  rw [hstack] at hheadP
  cases hs1 : s1 with
  | nil =>
    rw [hs1, List.nil_append] at hps
    rw [hps, List.head?_cons] at hheadP
    injection hheadP with hh
    injection hh with h1 h2
    injection h2 with h3
    subst h1
    subst h3
    rw [hmv, hs1]
    simp [prune_stack_s, pruneRev, residentValue, findS, findQ, findByKey]
  | cons a s1' =>
    rw [hs1] at hps hmv
    rw [hps, List.cons_append, List.head?_cons] at hheadP
    injection hheadP with hh
    subst hh
    rw [hmv]
    exact promoted_nodemote_resident _ k w rfl

theorem promoted_head_resident (cA : LirsCache K V) (k : K) (w : V)
    (hstack : cA.stack_s.head? = some (SItem.mk k (SVal.lir w))) :
    residentValue (prune_stack_s
      (if cA.lirs_cnt > cA.s_capacity then move_lru_lir_to_list_q cA else cA)) k =
      some w := by
  split
  · exact promoted_demote_resident _ k w hstack
  · exact promoted_nodemote_resident _ k w hstack

/-- `_remove_lru_hir_item` keeps a LIR head whose key is not in Q. -/
theorem remove_lru_hir_head (cA : LirsCache K V) (k : K) (w : V)
    (hstack : cA.stack_s.head? = some (SItem.mk k (SVal.lir w)))
    (hkq : k ∉ cA.list_q.map fun x : KeyValue K V => x.key) :
    (remove_lru_hir_item cA).stack_s.head? = some (SItem.mk k (SVal.lir w)) := by
  obtain ⟨tail, ht⟩ := head_eq_of_head_some hstack
  unfold remove_lru_hir_item
  cases hql : cA.list_q.getLast? with
  | none =>
    simp only [hql]
    exact hstack
  | some lru =>
    simp only [hql]
    have hlk : lru.key ≠ k := by
      intro hh
      exact hkq (hh ▸ List.mem_map_of_mem _ (List.mem_of_getLast?_eq_some hql))
    rw [ht, modifyByKey,
      if_neg (show (fun x : SItem K V => x.key) (SItem.mk k (SVal.lir w)) = lru.key →
        False from fun hh => hlk hh.symm)]
    rfl

/-- The full post-promotion sequence of the HIR-NR `set` path keeps `k`
resident with the new value. -/
theorem update_hirnr_resident (cA : LirsCache K V) (k : K) (w : V)
    (hstack : cA.stack_s.head? = some (SItem.mk k (SVal.lir w)))
    (hkq : k ∉ cA.list_q.map fun x : KeyValue K V => x.key) :
    residentValue (prune_stack_s
      (if cA.lirs_cnt > cA.s_capacity then
        move_lru_lir_to_list_q (if cA.qIsFull then remove_lru_hir_item cA else cA)
      else cA)) k = some w := by
  split
  · split
    · exact promoted_demote_resident _ k w (remove_lru_hir_head cA k w hstack hkq)
    · exact promoted_demote_resident _ k w hstack
  · exact promoted_nodemote_resident _ k w hstack

/-- After `LirsCache::set(k,v)` the cache holds `v` for `k`. -/
theorem lirs_set_resident (c : LirsCache K V) (k : K) (v : V) (hInv : Inv c) :
    residentValue (LirsCache.set c k v) k = some v := by
  unfold LirsCache.set
  cases hfS : findS c k with
  | some it =>
    have hitk : it.key = k := (findByKey_some hfS).2
    simp only [hfS, Option.isSome_some, if_true]
    unfold update_item_in_stack_s
    simp only [hfS]
    have hfm : findByKey (fun x : SItem K V => x.key)
        (modifyByKey (fun x : SItem K V => x.key)
          (fun a => { a with sval := SVal.lir v }) c.stack_s k) k =
        some { it with sval := SVal.lir v } := by
      rw [findByKey_modifyByKey_self (f := fun x : SItem K V => x.key)
        (fun a : SItem K V => { a with sval := SVal.lir v }) (fun a => rfl)]
      rw [show findByKey (fun x : SItem K V => x.key) c.stack_s k = some it from hfS]
      rfl
    have htouch : touchByKey (fun x : SItem K V => x.key)
        (modifyByKey (fun x : SItem K V => x.key)
          (fun a => { a with sval := SVal.lir v }) c.stack_s k) k =
        SItem.mk k (SVal.lir v) :: eraseByKey (fun x : SItem K V => x.key)
          (modifyByKey (fun x : SItem K V => x.key)
            (fun a => { a with sval := SVal.lir v }) c.stack_s k) k := by
      unfold touchByKey
      rw [hfm, ← hitk]
    cases hsv : it.sval with
    | lir w0 =>
      simp only [hsv]
      rw [htouch]
      exact promoted_nodemote_resident _ k v rfl
    | hir =>
      simp only [hsv]
      have hkq : k ∈ c.list_q.map (·.key) :=
        hitk ▸ hInv.hir_in_q it (findByKey_some hfS).1 hsv
      cases hfq : findQ c k with
      | none => exact absurd hkq (findByKey_none_not_mem hfq)
      | some qe =>
        have hc2 : setFrontSValue (move_hir_to_stack_s c k) v =
            ({ stack_s := SItem.mk k (SVal.lir v) ::
                eraseByKey (fun x : SItem K V => x.key) c.stack_s k,
               list_q := eraseByKey (fun x : KeyValue K V => x.key) c.list_q k,
               lirs_cnt := c.lirs_cnt + 1,
               s_capacity := c.s_capacity,
               q_capacity := c.q_capacity } : LirsCache K V) := by
          rw [move_hir_to_stack_s_desc c k hfq]
          rfl
        rw [hc2]
        exact promoted_head_resident _ k v rfl
    | hirNr =>
      simp only [hsv]
      unfold hir_nr_to_lir
      rw [htouch]
      have hknq : k ∉ c.list_q.map fun x : KeyValue K V => x.key := by
        intro hmem
        have hh := hInv.q_in_s_hir it (findByKey_some hfS).1 (hitk ▸ hmem)
        rw [hsv] at hh
        cases hh
      exact update_hirnr_resident _ k v rfl hknq
  | none =>
    simp only [hfS, Option.isSome_none, Bool.false_eq_true, if_false]
    cases hfQ : findQ c k with
    | some qe =>
      simp only [hfQ, Option.isSome_some, if_true]
      unfold update_item_in_list_q
      have hfmq : findByKey (fun x : KeyValue K V => x.key)
          (modifyByKey (fun x : KeyValue K V => x.key)
            (fun a => { a with value := v }) c.list_q k) k =
          some { qe with value := v } := by
        rw [findByKey_modifyByKey_self (f := fun x : KeyValue K V => x.key)
          (fun a : KeyValue K V => { a with value := v }) (fun a => rfl)]
        rw [show findByKey (fun x : KeyValue K V => x.key) c.list_q k = some qe from hfQ]
        rfl
      unfold residentValue findS findQ
      dsimp only
      rw [findByKey, if_pos rfl]
      unfold touchByKey
      rw [hfmq, findByKey, if_pos ((findByKey_some hfQ).2)]
      rfl
    | none =>
      simp only [hfQ, Option.isSome_none, Bool.false_eq_true, if_false]
      unfold LirsCache.add
      split
      · unfold residentValue findS
        dsimp only
        rw [findByKey, if_pos rfl]
      · unfold residentValue findS findQ
        dsimp only
        rw [findByKey, if_pos rfl]
        rw [findByKey, if_pos rfl]
        rfl

/-- `LirsCache::get` returns exactly the resident value. -/
theorem lirs_get_resident (c : LirsCache K V) (k : K) (hInv : Inv c) :
    (LirsCache.get c k).1 = residentValue c k := by
  cases hfS : findS c k with
  | some it =>
    cases hsv : it.sval with
    | lir w =>
      have hg : LirsCache.get c k =
          (some w, prune_stack_s { c with stack_s := touchByKey (·.key) c.stack_s k }) := by
        unfold LirsCache.get
        rw [get_from_stack_s_lir_result c k hfS hsv]
      rw [hg]
      unfold residentValue
      simp only [hfS, hsv]
    | hir =>
      have hkq : k ∈ c.list_q.map (·.key) :=
        (findByKey_some hfS).2 ▸ hInv.hir_in_q it (findByKey_some hfS).1 hsv
      cases hfq : findQ c k with
      | none => exact absurd hkq (findByKey_none_not_mem hfq)
      | some qe =>
        obtain ⟨hv1, hv2⟩ := get_from_stack_s_hir_result c k hInv hfS hsv hfq
        have hg1 : (LirsCache.get c k).1 = (get_from_stack_s c k).1 := by
          unfold LirsCache.get
          cases hres : get_from_stack_s c k with
          | mk r1 c1 =>
            rw [hres] at hv1
            dsimp only at hv1
            rw [hv1]
        rw [hg1, hv1]
        unfold residentValue
        simp only [hfS, hsv, hfq, Option.map_some']
    | hirNr =>
      have hfq : findQ c k = none := by
        cases hfq2 : findQ c k with
        | none => rfl
        | some qe =>
          have hkQ : k ∈ c.list_q.map (·.key) :=
            (findByKey_some hfq2).2 ▸ List.mem_map_of_mem _ (findByKey_some hfq2).1
          have hh := hInv.q_in_s_hir it (findByKey_some hfS).1
            ((findByKey_some hfS).2 ▸ hkQ)
          rw [hsv] at hh
          cases hh
      have hg : LirsCache.get c k = (none, c) := by
        unfold LirsCache.get
        rw [show get_from_stack_s c k = (none, c) from by
          unfold get_from_stack_s
          simp only [hfS, hsv]]
        unfold get_from_list_q
        simp only [hfq]
      rw [hg]
      unfold residentValue
      simp only [hfS, hsv]
  | none =>
    have hd : get_from_stack_s c k = (none, c) := by
      unfold get_from_stack_s
      simp only [hfS]
    cases hfq : findQ c k with
    | none =>
      have hg : LirsCache.get c k = (none, c) := by
        unfold LirsCache.get
        rw [hd]
        unfold get_from_list_q
        simp only [hfq]
      rw [hg]
      unfold residentValue
      simp only [hfS, hfq, Option.map_none']
    | some qe =>
      have hh : touchByKey (fun x : KeyValue K V => x.key) c.list_q k =
          qe :: eraseByKey (fun x : KeyValue K V => x.key) c.list_q k := by
        unfold touchByKey
        rw [show findByKey (fun x : KeyValue K V => x.key) c.list_q k = some qe from hfq]
      have hg : (LirsCache.get c k).1 =
          ((touchByKey (fun x : KeyValue K V => x.key) c.list_q k).head?.map
            (·.value)) := by
        unfold LirsCache.get
        rw [hd]
        unfold get_from_list_q
        simp only [hfq]
      rw [hg, hh]
      unfold residentValue
      simp only [hfS, hfq, Option.map_some', List.head?_cons]

/-- Operations addressing other keys never change the value a LIRS
cache holds for `k` (they can only evict the entry). -/
theorem lirs_step_value (c : LirsCache K V) (op : CacheOp K V) (k : K) (w : V)
    (hne : op.key ≠ k) (hInv : Inv c)
    (h : residentValue (LirsCache.step c op) k = some w) :
    residentValue c k = some w := by
  have hInv2 := step_Inv c op hInv
  have hmem := (lirs_resident_char _ hInv2 k w).mp h
  have hmem2 := lirs_step_pairs c op (k, w) hInv (fun hh => hne hh.symm) hmem
  exact (lirs_resident_char c hInv k w).mpr hmem2

end SetThenGetLirs

section SetThenGetMain

variable {K V : Type} [DecidableEq K]

theorem lru_run_tracks (k : K) (v : V) :
    ∀ post : List (CacheOp K V), (∀ op ∈ post, op.key ≠ k) →
    ∀ c0 : LruCacheImpl K V,
      (LruCache.residentValue c0 k = some v ∨ LruCache.residentValue c0 k = none) →
      (LruCache.residentValue (LruCache.run c0 post) k = some v ∨
       LruCache.residentValue (LruCache.run c0 post) k = none) := by
  intro post
  induction post with
  | nil =>
    intro _ c0 h
    exact h
  | cons op post ih =>
    intro hpost c0 h
    rw [show LruCache.run c0 (op :: post) =
      LruCache.run (LruCache.step c0 op) post from rfl]
    apply ih (fun o ho => hpost o (List.mem_cons_of_mem _ ho))
    cases hres : LruCache.residentValue (LruCache.step c0 op) k with
    | none => exact Or.inr rfl
    | some w =>
      have hv := lru_step_value c0 op k w (hpost op (List.mem_cons_self _ _)) hres
      rcases h with h | h
      · rw [h] at hv
        injection hv with hh
        subst hh
        exact Or.inl rfl
      · rw [h] at hv
        cases hv

theorem slru_run_tracks (k : K) (v : V) :
    ∀ post : List (CacheOp K V), (∀ op ∈ post, op.key ≠ k) →
    ∀ c0 : SlruCache K V, SlruCache.WF c0 → 1 ≤ c0.protected_seg.capacity →
      (SlruCache.residentValue c0 k = some v ∨ SlruCache.residentValue c0 k = none) →
      ((SlruCache.residentValue (SlruCache.run c0 post) k = some v ∨
        SlruCache.residentValue (SlruCache.run c0 post) k = none) ∧
       SlruCache.WF (SlruCache.run c0 post) ∧
       1 ≤ (SlruCache.run c0 post).protected_seg.capacity) := by
  intro post
  induction post with
  | nil =>
    intro _ c0 hwf hcap h
    exact ⟨h, hwf, hcap⟩
  | cons op post ih =>
    intro hpost c0 hwf hcap h
    rw [show SlruCache.run c0 (op :: post) =
      SlruCache.run (SlruCache.step c0 op) post from rfl]
    apply ih (fun o ho => hpost o (List.mem_cons_of_mem _ ho))
    · exact slru_step_WF c0 op hcap hwf
    · rw [slru_step_caps c0 op]
      exact hcap
    · cases hres : SlruCache.residentValue (SlruCache.step c0 op) k with
      | none => exact Or.inr rfl
      | some w =>
        have hv := slru_step_value c0 op k w (hpost op (List.mem_cons_self _ _))
          hcap hwf hres
        rcases h with h | h
        · rw [h] at hv
          injection hv with hh
          subst hh
          exact Or.inl rfl
        · rw [h] at hv
          cases hv

theorem lfu_run_tracks (k : K) (v : V) :
    ∀ post : List (CacheOp K V), (∀ op ∈ post, op.key ≠ k) →
    ∀ c0 : LfuCache K V, LfuCache.WF c0 →
      (LfuCache.residentValue c0 k = some v ∨ LfuCache.residentValue c0 k = none) →
      ((LfuCache.residentValue (LfuCache.run c0 post) k = some v ∨
        LfuCache.residentValue (LfuCache.run c0 post) k = none) ∧
       LfuCache.WF (LfuCache.run c0 post)) := by
  intro post
  induction post with
  | nil =>
    intro _ c0 hwf h
    exact ⟨h, hwf⟩
  | cons op post ih =>
    intro hpost c0 hwf h
    rw [show LfuCache.run c0 (op :: post) =
      LfuCache.run (LfuCache.step c0 op) post from rfl]
    apply ih (fun o ho => hpost o (List.mem_cons_of_mem _ ho))
    · exact lfu_step_WF c0 op hwf
    · cases hres : LfuCache.residentValue (LfuCache.step c0 op) k with
      | none => exact Or.inr rfl
      | some w =>
        have hv := lfu_step_value c0 op k w (hpost op (List.mem_cons_self _ _))
          hwf hres
        rcases h with h | h
        · rw [h] at hv
          injection hv with hh
          subst hh
          exact Or.inl rfl
        · rw [h] at hv
          cases hv

theorem lirs_run_tracks (k : K) (v : V) :
    ∀ post : List (CacheOp K V), (∀ op ∈ post, op.key ≠ k) →
    ∀ c0 : LirsCache K V, LirsCache.Inv c0 →
      (LirsCache.residentValue c0 k = some v ∨ LirsCache.residentValue c0 k = none) →
      ((LirsCache.residentValue (LirsCache.run c0 post) k = some v ∨
        LirsCache.residentValue (LirsCache.run c0 post) k = none) ∧
       LirsCache.Inv (LirsCache.run c0 post)) := by
  intro post
  induction post with
  | nil =>
    intro _ c0 hInv h
    exact ⟨h, hInv⟩
  | cons op post ih =>
    intro hpost c0 hInv h
    rw [show LirsCache.run c0 (op :: post) =
      LirsCache.run (LirsCache.step c0 op) post from rfl]
    apply ih (fun o ho => hpost o (List.mem_cons_of_mem _ ho))
    · exact LirsCache.step_Inv c0 op hInv
    · cases hres : LirsCache.residentValue (LirsCache.step c0 op) k with
      | none => exact Or.inr rfl
      | some w =>
        have hv := lirs_step_value c0 op k w (hpost op (List.mem_cons_self _ _))
          hInv hres
        rcases h with h | h
        · rw [h] at hv
          injection hv with hh
          subst hh
          exact Or.inl rfl
        · rw [h] at hv
          cases hv

end SetThenGetMain

/-- C9: for every cache — the lru_cache.h LRU on any state, SLRU on any
well-formed state with a positive protected sub-capacity, LFU on any
state with globally unique keys, and LIRS on any state reachable from a
constructed cache — if `set(k,v)` is followed by any operations that do
not address `k` (so the set is the most recent operation on `k`), and
the cache still holds a value for `k` afterwards (no eviction displaced
it), then `get(k)` returns `Some v`. -/
theorem set_then_get {K V : Type} [DecidableEq K] (k : K) (v : V)
    (post : List (CacheOp K V)) (hpost : ∀ op ∈ post, op.key ≠ k) :
    (∀ c : LruCacheImpl K V,
      (LruCache.residentValue (LruCache.run (LruCache.set c k v) post) k).isSome →
      (LruCache.get (LruCache.run (LruCache.set c k v) post) k).1 = some v) ∧
    (∀ c : SlruCache K V, SlruCache.WF c → 1 ≤ c.protected_seg.capacity →
      (SlruCache.residentValue (SlruCache.run (SlruCache.set c k v) post) k).isSome →
      (SlruCache.get (SlruCache.run (SlruCache.set c k v) post) k).1 = some v) ∧
    (∀ c : LfuCache K V, LfuCache.WF c →
      (LfuCache.residentValue (LfuCache.run (LfuCache.set c k v) post) k).isSome →
      (LfuCache.get (LfuCache.run (LfuCache.set c k v) post) k).1 = some v) ∧
    (∀ c : LirsCache K V, LirsCache.Reachable c →
      (LirsCache.residentValue (LirsCache.run (LirsCache.set c k v) post) k).isSome →
      (LirsCache.get (LirsCache.run (LirsCache.set c k v) post) k).1 = some v) := by
  refine ⟨?_, ?_, ?_, ?_⟩
  · intro c hsome
    have htr := lru_run_tracks k v post hpost (LruCache.set c k v)
      (lru_set_resident c k v)
    rw [lru_get_resident]
    rcases htr with h | h
    · exact h
    · rw [h] at hsome
      cases hsome
  · intro c hwf hcap hsome
    have hwf1 := slru_step_WF c (CacheOp.set k v) hcap hwf
    have hcap1 : 1 ≤ (SlruCache.set c k v).protected_seg.capacity := by
      rw [show (SlruCache.set c k v).protected_seg.capacity =
        c.protected_seg.capacity from slru_step_caps c (CacheOp.set k v)]
      exact hcap
    have htr := slru_run_tracks k v post hpost (SlruCache.set c k v) hwf1 hcap1
      (slru_set_resident c k v hcap)
    rw [slru_get_resident _ _ htr.2.2]
    rcases htr.1 with h | h
    · exact h
    · rw [h] at hsome
      cases hsome
  · intro c hwf hsome
    have hwf1 := lfu_step_WF c (CacheOp.set k v) hwf
    have htr := lfu_run_tracks k v post hpost (LfuCache.set c k v) hwf1
      (Or.inl (lfu_set_resident c k v hwf))
    rw [lfu_get_resident]
    rcases htr.1 with h | h
    · exact h
    · rw [h] at hsome
      cases hsome
  · intro c hr hsome
    have hInv := LirsCache.reachable_Inv c hr
    have hInv1 := LirsCache.set_Inv c k v hInv
    have htr := lirs_run_tracks k v post hpost (LirsCache.set c k v) hInv1
      (Or.inl (lirs_set_resident c k v hInv))
    rw [lirs_get_resident _ _ htr.2]
    rcases htr.1 with h | h
    · exact h
    · rw [h] at hsome
      cases hsome

/-- Witness for C9: the set-then-get theorem applied to concrete caches of
each of the four kinds, with `set 1 42` followed by operations on key 2. -/
theorem set_then_get_witness :
    (LruCache.get (LruCache.run (LruCache.set
        ({ kv_list := [], capacity := 2 } : LruCacheImpl Nat Nat) 1 42)
      [CacheOp.set 2 5, CacheOp.get 2, CacheOp.del 2]) 1).1 = some 42 ∧
    (SlruCache.get (SlruCache.run (SlruCache.set
        ({ probation_seg := { kv_list := [], capacity := 2 },
           protected_seg := { kv_list := [], capacity := 1 } } : SlruCache Nat Nat) 1 42)
      [CacheOp.set 2 5, CacheOp.get 2, CacheOp.del 2]) 1).1 = some 42 ∧
    (LfuCache.get (LfuCache.run (LfuCache.set
        ({ frequency_list := [], capacity := 2 } : LfuCache Nat Nat) 1 42)
      [CacheOp.set 2 5, CacheOp.get 2, CacheOp.del 2]) 1).1 = some 42 ∧
    (LirsCache.get (LirsCache.run (LirsCache.set
        ({ stack_s := [], list_q := [], lirs_cnt := 0,
           s_capacity := 2, q_capacity := 1 } : LirsCache Nat Nat) 1 42)
      [CacheOp.set 2 5, CacheOp.get 2, CacheOp.del 2]) 1).1 = some 42 := by
  have h := set_then_get 1 42
    ([CacheOp.set 2 5, CacheOp.get 2, CacheOp.del 2] : List (CacheOp Nat Nat))
    (by decide)
  exact ⟨h.1 _ (by decide),
    h.2.1 _ ⟨by decide, by decide, by decide⟩ (by decide) (by decide),
    h.2.2.1 _ List.nodup_nil (by decide),
    h.2.2.2 _ (LirsCache.Reachable.init 2 1 (by decide) (by decide)) (by decide)⟩

end SwCache
